import Mathlib

/-!
Verification of the rerex regular-expression engine.

The development shallowly embeds the C implementation (parser, NFA builder
over a flat state arena, and the Thompson-style matcher simulation) as
executable Lean functions, together with an AST-level regular-expression
semantics used to state and prove correctness properties.

Machine integers: all C integer types involved (`char` promoted to `int`,
`size_t` indices, the `Codepoint` type) only ever hold small non-negative
values on the paths modelled here, so they are embedded as `Nat`.  Input and
pattern strings are embedded as `List Nat` of their bytes before the NUL
terminator; `peek` returns 0 past the end, matching C string reads.
Recursive C functions are embedded with an explicit fuel parameter; the
top-level entry points supply fuel that is proved sufficient below, so the
out-of-fuel branches are dead code.
-/

namespace Rerex

/-- Return status code, mirroring `RerexStatus` in rerex.h. -/
inductive RerexStatus where
  | success
  | expectedChar
  | expectedElement
  | expectedRbracket
  | expectedRparen
  | expectedSpecial
  | unexpectedSpecial
  | unexpectedEnd
  | unorderedRange
  | noMemory
deriving DecidableEq, Repr

/-- The numeric value of a status in the C enum (in declaration order). -/
def statusCode : RerexStatus → Nat
  | .success => 0
  | .expectedChar => 1
  | .expectedElement => 2
  | .expectedRbracket => 3
  | .expectedRparen => 4
  | .expectedSpecial => 5
  | .unexpectedSpecial => 6
  | .unexpectedEnd => 7
  | .unorderedRange => 8
  | .noMemory => 9

/-- The string table in `rerex_strerror`. -/
def status_strings : List String :=
  [ "Success",
    "Expected a regular character",
    "Expected a character in a set",
    "Expected ']'",
    "Expected ')'",
    "Expected a special character (one of \"()*+-?[]^|\")",
    "Unexpected special character",
    "Unexpected end of input",
    "Range is out of order",
    "Failed to allocate memory" ]

/-- `rerex_strerror`, on the unsigned view of the status argument (the C code
casts the status to `unsigned` before the range check). -/
def rerex_strerror (status : Nat) : String :=
  if status ≤ 9 then status_strings.getD status "Unknown error"
  else "Unknown error"

/-- Inclusive minimum normal character (`cmin` in the C source). -/
def cmin : Nat := 0x20

/-- Inclusive maximum normal character (`cmax` in the C source). -/
def cmax : Nat := 0x7E

/-- `REREX_MATCH`: special `min` value tagging a matching state. -/
def RMATCH : Nat := 0xE000

/-- `REREX_SPLIT`: special `min` value tagging a splitting state. -/
def RSPLIT : Nat := 0xE001

/-- A state in the NFA (struct `State`): either `min`/`max` are character
labels of an arc to `next1`, or `min` is `RMATCH`/`RSPLIT`. -/
structure State where
  next1 : Nat
  next2 : Nat
  min : Nat
  max : Nat
deriving DecidableEq, Repr

instance : Inhabited State := ⟨⟨0, 0, 0, 0⟩⟩

/-- `NO_STATE`: sentinel index for an unset state reference. -/
def NO_STATE : Nat := 0

/-- `match_state()`. -/
def match_state : State := ⟨NO_STATE, NO_STATE, RMATCH, 0⟩

/-- `split_state(next1, next2)`. -/
def split_state (next1 next2 : Nat) : State := ⟨next1, next2, RSPLIT, 0⟩

/-- `range_state(min, max, next)`. -/
def range_state (mn mx next : Nat) : State := ⟨next, NO_STATE, mn, mx⟩

/-- The flat state arena (struct `StateArray`), embedded as the list of its
states; the index of a state is its position. -/
abbrev StateArray : Type := List State

/-- `add_state`: append a state, returning the extended arena and the new
state's index.  Allocation failure is not modelled. -/
def add_state (arr : StateArray) (s : State) : StateArray × Nat :=
  (List.append arr [s], List.length arr)

/-- An NFA fragment (struct `Automata`): start and end state indices.  The C
field `end` is called `last` here because `end` is a Lean keyword. -/
structure Automata where
  start : Nat
  last : Nat
deriving DecidableEq, Repr

/-- `make_automata`. -/
def make_automata (start last : Nat) : Automata := ⟨start, last⟩

/-- Read a state by index (in the C code a plain array access; all accesses
are in bounds, which is proved below for compiled patterns). -/
def getSt (arr : StateArray) (i : Nat) : State := List.getD arr i default

/-- `is_trivial`: the fragment is a single labeled state arcing to its end. -/
def is_trivial (states : StateArray) (nfa : Automata) : Bool :=
  decide ((getSt states nfa.start).min < RMATCH) &&
    decide ((getSt states nfa.start).next1 = nfa.last)

/-- Overwrite the state at an index. -/
def setSt (arr : StateArray) (i : Nat) (s : State) : StateArray :=
  List.set arr i s

/-- `star`: Kleene star of an NFA fragment. -/
def star (states : StateArray) (nfa : Automata) : StateArray × Automata :=
  let (st1, e) := add_state states match_state
  let (st2, s) := add_state st1 (split_state nfa.start e)
  let st3 := setSt st2 nfa.last (split_state nfa.start e)
  (st3, make_automata s e)

/-- `question`: zero-or-one of an NFA fragment. -/
def question (states : StateArray) (nfa : Automata) : StateArray × Automata :=
  let (st1, s) := add_state states (split_state nfa.start nfa.last)
  (st1, make_automata s nfa.last)

/-- `plus`: one-or-more of an NFA fragment. -/
def plus (states : StateArray) (nfa : Automata) : StateArray × Automata :=
  let (st1, e) := add_state states match_state
  let st2 := setSt st1 nfa.last (split_state nfa.start e)
  (st2, make_automata nfa.start e)

/-- `concatenate` of two NFA fragments. -/
def concatenate (states : StateArray) (a b : Automata) : StateArray × Automata :=
  if is_trivial states a then
    let s0 := getSt states a.start
    (setSt states a.start { s0 with next1 := b.start }, make_automata a.start b.last)
  else
    (setSt states a.last (split_state b.start NO_STATE), make_automata a.start b.last)

/-- `alternate` (OR) of two NFA fragments. -/
def alternate (states : StateArray) (a b : Automata) : StateArray × Automata :=
  let (st1, split) := add_state states (split_state a.start b.start)
  if is_trivial st1 a then
    let s0 := getSt st1 a.start
    (setSt st1 a.start { s0 with next1 := b.last }, make_automata split b.last)
  else if is_trivial st1 b then
    let s0 := getSt st1 b.start
    (setSt st1 b.start { s0 with next1 := a.last }, make_automata split a.last)
  else
    let (st2, e) := add_state st1 match_state
    let st3 := setSt st2 a.last (split_state e NO_STATE)
    let st4 := setSt st3 b.last (split_state e NO_STATE)
    (st4, make_automata split e)

/-! ### Parser input (struct `Input`) -/

/-- The parser's read cursor over the pattern string.  `str` is the list of
bytes before the NUL terminator. -/
structure Input where
  str : List Nat
  offset : Nat
deriving DecidableEq, Repr

/-- `peek`: the byte at the cursor (0 at or past the end, like reading the
NUL terminator of a C string). -/
def peek (i : Input) : Nat := List.getD i.str i.offset 0

/-- `peekahead`: the byte one past the cursor. -/
def peekahead (i : Input) : Nat := List.getD i.str (i.offset + 1) 0

/-- `eat`: consume the byte at the cursor (only called when `peek ≠ 0`). -/
def eat (i : Input) : Input := ⟨i.str, i.offset + 1⟩

/-- `is_special`: the SPECIAL character set `( ) * + . ? [ ] ^ { | }`. -/
def is_special (c : Nat) : Bool :=
  decide (c = 40) || decide (c = 41) || decide (c = 42) || decide (c = 43) ||
  decide (c = 46) || decide (c = 63) || decide (c = 91) || decide (c = 93) ||
  decide (c = 94) || decide (c = 123) || decide (c = 124) || decide (c = 125)

/-- Result of the character-level readers (`read_escape`, `read_char`,
`read_element`): a character and the advanced input, or a status with the
input at the point of failure. -/
inductive CharRes where
  | ok (c : Nat) (i : Input)
  | fail (st : RerexStatus) (i : Input)
deriving DecidableEq, Repr

/-- `read_escape` (precondition `peek input == '\\'`). -/
def read_escape (i0 : Input) : CharRes :=
  let i := eat i0
  let c := peek i
  if is_special c || decide (c = 45) then .ok c (eat i)
  else .fail .expectedSpecial i

/-- `read_char`. -/
def read_char (i : Input) : CharRes :=
  let c := peek i
  if c = 0 then .fail .unexpectedEnd i
  else if c = 92 then read_escape i
  else if is_special c then .fail .unexpectedSpecial i
  else if cmin ≤ c ∧ c ≤ cmax then .ok c (eat i)
  else .fail .expectedChar i

/-- `read_element`. -/
def read_element (i : Input) : CharRes :=
  let c := peek i
  if c = 0 then .fail .unexpectedEnd i
  else if c = 93 then .fail .unexpectedSpecial i
  else if c = 92 then
    let i1 := eat i
    if peek i1 ≠ 93 then .fail .expectedRbracket i1
    else .ok (peek i1) (eat i1)
  else if cmin ≤ c ∧ c ≤ cmax then .ok c (eat i)
  else .fail .expectedElement i

/-- Result of the fragment-producing parser functions: advanced input, the
extended arena and the produced fragment, or a status with the input at the
point of failure; `out` is the artificial out-of-fuel result (proved
unreachable for the fuel used by `rerex_compile`). -/
inductive PRes where
  | ok (i : Input) (states : StateArray) (nfa : Automata)
  | fail (st : RerexStatus) (i : Input)
  | out
deriving DecidableEq, Repr

/-- `read_dot` (precondition `peek input == '.'`). -/
def read_dot (i : Input) (states : StateArray) : PRes :=
  let i1 := eat i
  let (st1, e) := add_state states match_state
  let (st2, s) := add_state st1 (range_state cmin cmax e)
  .ok i1 st2 (make_automata s e)

/-- `read_range`: one range of a character set, positive or negated. -/
def read_range (i : Input) (states : StateArray) (negated : Bool) : PRes :=
  match read_element i with
  | .fail st i' => .fail st i'
  | .ok mn i1 =>
    let second : CharRes :=
      if peek i1 = 45 then
        if peekahead i1 ≠ 93 then read_element (eat i1)
        else .ok mn i1
      else .ok mn i1
    match second with
    | .fail st i' => .fail st i'
    | .ok mx i2 =>
      if mx < mn then .fail .unorderedRange i2
      else
        let (st1, e) := add_state states match_state
        if negated then
          let (st2, lo) := add_state st1 (range_state cmin (mn - 1) e)
          let (st3, hi) := add_state st2 (range_state (mx + 1) cmax e)
          let (st4, fork) := add_state st3 (split_state lo hi)
          .ok i2 st4 (make_automata fork e)
        else
          let (st2, s) := add_state st1 (range_state mn mx e)
          .ok i2 st2 (make_automata s e)

/-- The `while (peek(input) != ']')` loop of `read_set`. -/
def read_setLoop : Nat → Input → StateArray → Bool → Automata → PRes
  | 0, _, _, _, _ => .out
  | fuel + 1, i, states, negated, nfa =>
    if peek i = 93 then .ok i states nfa
    else
      match read_range i states negated with
      | .fail st i' => .fail st i'
      | .ok i' states' rnfa =>
        let (states2, nfa') := alternate states' nfa rnfa
        read_setLoop fuel i' states2 negated nfa'
      | .out => .out

/-- `read_set`. -/
def read_set (fuel : Nat) (i : Input) (states : StateArray) : PRes :=
  let negated := decide (peek i = 94)
  let i1 := if peek i = 94 then eat i else i
  match read_range i1 states negated with
  | .fail st i' => .fail st i'
  | .ok i2 st2 nfa => read_setLoop fuel i2 st2 negated nfa
  | .out => .out

mutual

/-- `read_atom`: `Atom ::= CHAR | DOT | '(' Expr ')' | '[' Set ']'`. -/
def read_atom : Nat → Input → StateArray → PRes
  | 0, _, _ => .out
  | fuel + 1, i, states =>
    let c := peek i
    if c = 40 then
      match read_expr fuel (eat i) states with
      | .ok i2 st2 nfa =>
        if peek i2 ≠ 41 then .fail .expectedRparen i2
        else .ok (eat i2) st2 nfa
      | other => other
    else if c = 46 then read_dot i states
    else if c = 91 then
      match read_set fuel (eat i) states with
      | .ok i2 st2 nfa => .ok (eat i2) st2 nfa
      | other => other
    else
      match read_char i with
      | .fail st i' => .fail st i'
      | .ok ch i1 =>
        let (st1, e) := add_state states match_state
        let (st2, s) := add_state st1 (range_state ch ch e)
        .ok i1 st2 (make_automata s e)

/-- `read_factor`: `Factor ::= Atom | Atom OPERATOR`. -/
def read_factor : Nat → Input → StateArray → PRes
  | 0, _, _ => .out
  | fuel + 1, i, states =>
    match read_atom fuel i states with
    | .ok i1 st1 anfa =>
      let c := peek i1
      if c = 42 then
        let (st2, nfa) := star st1 anfa
        .ok (eat i1) st2 nfa
      else if c = 43 then
        let (st2, nfa) := plus st1 anfa
        .ok (eat i1) st2 nfa
      else if c = 63 then
        let (st2, nfa) := question st1 anfa
        .ok (eat i1) st2 nfa
      else .ok i1 st1 anfa
    | other => other

/-- `read_term`: `Term ::= Factor | Factor Term`. -/
def read_term : Nat → Input → StateArray → PRes
  | 0, _, _ => .out
  | fuel + 1, i, states =>
    match read_factor fuel i states with
    | .ok i1 st1 fnfa =>
      let c := peek i1
      if c = 0 ∨ c = 41 ∨ c = 124 then .ok i1 st1 fnfa
      else
        match read_term fuel i1 st1 with
        | .ok i2 st2 tnfa =>
          let (st3, nfa) := concatenate st2 fnfa tnfa
          .ok i2 st3 nfa
        | other => other
    | other => other

/-- `read_expr`: `Expr ::= Term | Term '|' Expr`. -/
def read_expr : Nat → Input → StateArray → PRes
  | 0, _, _ => .out
  | fuel + 1, i, states =>
    match read_term fuel i states with
    | .ok i1 st1 tnfa =>
      if peek i1 = 124 then
        match read_expr fuel (eat i1) st1 with
        | .ok i2 st2 enfa =>
          let (st3, nfa) := alternate st2 tnfa enfa
          .ok i2 st3 nfa
        | other => other
      else .ok i1 st1 tnfa
    | other => other

end

/-- A compiled pattern (struct `RerexPatternImpl`). -/
structure RerexPattern where
  states : StateArray
  start : Nat
deriving DecidableEq, Repr

/-- Result of `rerex_compile`: on success the end offset and the pattern; on
failure the status and the end offset. -/
inductive CompileRes where
  | ok (last : Nat) (pat : RerexPattern)
  | fail (st : RerexStatus) (last : Nat)
deriving DecidableEq, Repr

/-- The fuel passed to `read_expr` by `rerex_compile`; proved sufficient. -/
def compileFuel (pattern : List Nat) : Nat := 4 * List.length pattern + 8

/-- `rerex_compile`.  The arena starts with the null sentinel state at index
0.  The out-of-fuel branch is unreachable (lemma `read_expr_no_out`) and is
mapped to `noMemory` like the other unmodelled resource failure in C. -/
def rerex_compile (pattern : List Nat) : CompileRes :=
  let states0 := (add_state [] (split_state NO_STATE NO_STATE)).1
  match read_expr (compileFuel pattern) ⟨pattern, 0⟩ states0 with
  | .ok i st nfa => .ok i.offset ⟨st, nfa.start⟩
  | .fail st i => .fail st i.offset
  | .out => .fail .noMemory 0

/-! ### Matcher -/

/-- `SIZE_MAX`, the reset value of the `last_active` array. -/
def USIZE_MAX : Nat := 2 ^ 64 - 1

/-- `enter_state`: add state `s` and its epsilon successors to the active
list, deduplicating via the `last_active` step array `la`.  The C recursion
terminates because each level marks a previously unmarked state; here the
recursion carries fuel bounding its depth, and `la.length + 1` is proved
sufficient (`enter_state_fuel`).  Out-of-bounds indices are skipped; for
compiled patterns all indices are in bounds (the C code does not check). -/
def enter_state (states : StateArray) (step : Nat) :
    Nat → List Nat → List Nat → Nat → Option (List Nat × List Nat)
  | 0, _, _, _ => none
  | _ + 1, la, lst, 0 => some (la, lst)
  | fuel + 1, la, lst, s + 1 =>
    if List.getD la (s + 1) step = step then some (la, lst)
    else if s + 1 < List.length la then
      let la1 := List.set la (s + 1) step
      let st := getSt states (s + 1)
      if st.min = RSPLIT then
        match enter_state states step fuel la1 lst st.next1 with
        | none => none
        | some (la2, lst2) => enter_state states step fuel la2 lst2 st.next2
      else some (la1, List.append lst [s + 1])
    else some (la, lst)

/-- Total wrapper for `enter_state` with sufficient fuel (the fallback arm is
dead code by `enter_state_fuel`). -/
def enterT (states : StateArray) (step : Nat) (la lst : List Nat) (s : Nat) :
    List Nat × List Nat :=
  (enter_state states step (List.length la + 1) la lst s).getD (la, lst)

/-- One simulation step of `rerex_match`: for each active state whose label
range contains `c`, enter its successor into the next list at step `step`. -/
def matchStep (states : StateArray) (c step : Nat) (la lst : List Nat) :
    List Nat × List Nat :=
  List.foldl
    (fun acc t =>
      let st := getSt states t
      if st.min ≤ c ∧ c ≤ st.max then enterT states step acc.1 acc.2 st.next1
      else acc)
    (la, []) lst

/-- The per-character loop of `rerex_match` followed by the final check for
an active matching state. -/
def matchLoop (states : StateArray) : List Nat → Nat → List Nat → List Nat → Bool
  | [], _, _, lst => List.any lst (fun t => decide ((getSt states t).min = RMATCH))
  | c :: rest, idx, la, lst =>
    let (la', next) := matchStep states c (idx + 1) la lst
    matchLoop states rest (idx + 1) la' next

/-- `rerex_match` on a pattern and the byte list of the input string. -/
def rerex_match (pat : RerexPattern) (w : List Nat) : Bool :=
  let n := List.length pat.states
  let la0 := List.replicate n USIZE_MAX
  let (la1, l0) := enterT pat.states 0 la0 [] pat.start
  matchLoop pat.states w 0 la1 l0

/-- The bytes of an ASCII string literal, for concrete test inputs. -/
def bytes (s : String) : List Nat := List.map Char.toNat s.data

/-- Compile a pattern and match an input, for concrete tests (the C test
drivers assert compilation succeeds before matching). -/
def compileAndMatch (pattern input : String) : Option Bool :=
  match rerex_compile (bytes pattern) with
  | .ok _ pat => some (rerex_match pat (bytes input))
  | .fail _ _ => none

/-! ### Abstract syntax of the fragments built by the parser

The parser emits NFA states directly; for verification we mirror it with a
parser producing this abstract syntax, together with `build`, which replays
the exact state-emission of the C code for each construct.  `nrng lo hi` is
the negated range fragment emitted for one range of a `[^…]` set. -/

inductive RE where
  | rng (lo hi : Nat)
  | nrng (lo hi : Nat)
  | cat (a b : RE)
  | alt (a b : RE)
  | star (a : RE)
  | plus (a : RE)
  | quest (a : RE)
deriving DecidableEq, Repr

/-- Replay of the state emission of the parser for a given construct; each
case appends and rewrites states exactly as the corresponding code path. -/
def build : StateArray → RE → StateArray × Automata
  | st, .rng lo hi =>
    let (st1, e) := add_state st match_state
    let (st2, s) := add_state st1 (range_state lo hi e)
    (st2, make_automata s e)
  | st, .nrng lo hi =>
    let (st1, e) := add_state st match_state
    let (st2, l) := add_state st1 (range_state cmin (lo - 1) e)
    let (st3, h) := add_state st2 (range_state (hi + 1) cmax e)
    let (st4, f) := add_state st3 (split_state l h)
    (st4, make_automata f e)
  | st, .cat a b =>
    let (st1, na) := build st a
    let (st2, nb) := build st1 b
    concatenate st2 na nb
  | st, .alt a b =>
    let (st1, na) := build st a
    let (st2, nb) := build st1 b
    alternate st2 na nb
  | st, .star a =>
    let (st1, na) := build st a
    star st1 na
  | st, .plus a =>
    let (st1, na) := build st a
    plus st1 na
  | st, .quest a =>
    let (st1, na) := build st a
    question st1 na

/-- Replay of the set loop's accumulation: build each further range fragment
and alternate it onto the accumulated one. -/
def buildAlts (stnfa : StateArray × Automata) (rs : List RE) : StateArray × Automata :=
  List.foldl
    (fun p r =>
      let (st1, rnfa) := build p.1 r
      alternate st1 p.2 rnfa)
    stnfa rs

/-- Result of the AST-producing parser functions. -/
inductive ARes where
  | ok (r : RE) (i : Input)
  | fail (st : RerexStatus) (i : Input)
  | out
deriving DecidableEq, Repr

/-- Result of the AST-producing set loop (the list of ranges read). -/
inductive LRes where
  | ok (rs : List RE) (i : Input)
  | fail (st : RerexStatus) (i : Input)
  | out
deriving DecidableEq, Repr

/-- AST mirror of `read_range`. -/
def parse_range (i : Input) (negated : Bool) : ARes :=
  match read_element i with
  | .fail st i' => .fail st i'
  | .ok mn i1 =>
    let second : CharRes :=
      if peek i1 = 45 then
        if peekahead i1 ≠ 93 then read_element (eat i1)
        else .ok mn i1
      else .ok mn i1
    match second with
    | .fail st i' => .fail st i'
    | .ok mx i2 =>
      if mx < mn then .fail .unorderedRange i2
      else .ok (if negated then RE.nrng mn mx else RE.rng mn mx) i2

/-- AST mirror of `read_setLoop`, returning the ranges read by the loop. -/
def parse_setList : Nat → Input → Bool → LRes
  | 0, _, _ => .out
  | fuel + 1, i, negated =>
    if peek i = 93 then .ok [] i
    else
      match parse_range i negated with
      | .fail st i' => .fail st i'
      | .ok r i' =>
        match parse_setList fuel i' negated with
        | .ok rs i2 => .ok (r :: rs) i2
        | other => other
      | .out => .out

/-- AST mirror of `read_set`. -/
def parse_set (fuel : Nat) (i : Input) : ARes :=
  let negated := decide (peek i = 94)
  let i1 := if peek i = 94 then eat i else i
  match parse_range i1 negated with
  | .fail st i' => .fail st i'
  | .ok r0 i2 =>
    match parse_setList fuel i2 negated with
    | .ok rs i3 => .ok (List.foldl RE.alt r0 rs) i3
    | .fail st i' => .fail st i'
    | .out => .out
  | .out => .out

mutual

/-- AST mirror of `read_atom`. -/
def parse_atom : Nat → Input → ARes
  | 0, _ => .out
  | fuel + 1, i =>
    let c := peek i
    if c = 40 then
      match parse_expr fuel (eat i) with
      | .ok r i2 =>
        if peek i2 ≠ 41 then .fail .expectedRparen i2
        else .ok r (eat i2)
      | other => other
    else if c = 46 then .ok (RE.rng cmin cmax) (eat i)
    else if c = 91 then
      match parse_set fuel (eat i) with
      | .ok r i2 => .ok r (eat i2)
      | other => other
    else
      match read_char i with
      | .fail st i' => .fail st i'
      | .ok ch i1 => .ok (RE.rng ch ch) i1

/-- AST mirror of `read_factor`. -/
def parse_factor : Nat → Input → ARes
  | 0, _ => .out
  | fuel + 1, i =>
    match parse_atom fuel i with
    | .ok r i1 =>
      let c := peek i1
      if c = 42 then .ok (RE.star r) (eat i1)
      else if c = 43 then .ok (RE.plus r) (eat i1)
      else if c = 63 then .ok (RE.quest r) (eat i1)
      else .ok r i1
    | other => other

/-- AST mirror of `read_term`. -/
def parse_term : Nat → Input → ARes
  | 0, _ => .out
  | fuel + 1, i =>
    match parse_factor fuel i with
    | .ok r i1 =>
      let c := peek i1
      if c = 0 ∨ c = 41 ∨ c = 124 then .ok r i1
      else
        match parse_term fuel i1 with
        | .ok r2 i2 => .ok (RE.cat r r2) i2
        | other => other
    | other => other

/-- AST mirror of `read_expr`. -/
def parse_expr : Nat → Input → ARes
  | 0, _ => .out
  | fuel + 1, i =>
    match parse_term fuel i with
    | .ok r i1 =>
      if peek i1 = 124 then
        match parse_expr fuel (eat i1) with
        | .ok r2 i2 => .ok (RE.alt r r2) i2
        | other => other
      else .ok r i1
    | other => other

end

/-- AST mirror of `rerex_compile` (without the sentinel-arena plumbing). -/
def parse (pattern : List Nat) : ARes :=
  parse_expr (compileFuel pattern) ⟨pattern, 0⟩

/-- Mapping from the AST parser's result to the state-emitting parser's
result: a produced AST is replayed by `build` on the current arena. -/
def toPRes (st : StateArray) : ARes → PRes
  | .ok r i => .ok i (build st r).1 (build st r).2
  | .fail s i => .fail s i
  | .out => .out

/-! ### Path semantics of the NFA and language of the AST -/

/-- Paths through an arena: `Steps A s w t n` means there is a path of
derivation size `n` from state `s` to state `t` consuming the byte list `w`.
Epsilon steps go through `RSPLIT` states; labelled steps require the byte to
lie in the state's range (bytes of real inputs are at most 255, which keeps
labelled steps out of `RMATCH`/`RSPLIT` states). -/
inductive Steps (A : List State) : Nat → List Nat → Nat → Nat → Prop where
  | refl (s : Nat) : Steps A s [] s 0
  | eps {s t u : Nat} {w : List Nat} {n : Nat} :
      s ≠ 0 → s < List.length A → (getSt A s).min = RSPLIT →
      (t = (getSt A s).next1 ∨ t = (getSt A s).next2) →
      Steps A t w u n → Steps A s w u (n + 1)
  | char {s u c : Nat} {w : List Nat} {n : Nat} :
      s ≠ 0 → s < List.length A → (getSt A s).min ≤ c → c ≤ (getSt A s).max →
      c ≤ 255 → Steps A (getSt A s).next1 w u n → Steps A s (c :: w) u (n + 1)

/-- `t` is a landing state for acceptance: a reachable matching state. -/
def StopAt (A : List State) (t : Nat) : Prop :=
  t ≠ 0 ∧ t < List.length A ∧ (getSt A t).min = RMATCH

/-- Arena `A` preserves the region `[n0, n1)` of arena `B`, except possibly
at the single index `e` (the fragment end, which composition may rewrite). -/
def Ext (A B : List State) (n0 n1 e : Nat) : Prop :=
  n1 ≤ List.length A ∧
    ∀ j, n0 ≤ j → j < n1 → j ≠ e → getSt A j = getSt B j

/-- The language of an AST, as accepted by the fragments the builder emits.
`nrng lo hi` denotes the two emitted ranges `[cmin, lo-1]` and
`[hi+1, cmax]`. -/
inductive Lang : RE → List Nat → Prop where
  | rng {lo hi c : Nat} : lo ≤ c → c ≤ hi → c ≤ 255 → Lang (.rng lo hi) [c]
  | nrngLow {lo hi c : Nat} : cmin ≤ c → c ≤ lo - 1 → Lang (.nrng lo hi) [c]
  | nrngHigh {lo hi c : Nat} : hi + 1 ≤ c → c ≤ cmax → Lang (.nrng lo hi) [c]
  | cat {a b : RE} {w1 w2 : List Nat} :
      Lang a w1 → Lang b w2 → Lang (.cat a b) (w1 ++ w2)
  | altL {a b : RE} {w : List Nat} : Lang a w → Lang (.alt a b) w
  | altR {a b : RE} {w : List Nat} : Lang b w → Lang (.alt a b) w
  | starNil {a : RE} : Lang (.star a) []
  | starCons {a : RE} {w1 w2 : List Nat} :
      Lang a w1 → Lang (.star a) w2 → Lang (.star a) (w1 ++ w2)
  | plusOne {a : RE} {w : List Nat} : Lang a w → Lang (.plus a) w
  | plusCons {a : RE} {w1 w2 : List Nat} :
      Lang a w1 → Lang (.plus a) w2 → Lang (.plus a) (w1 ++ w2)
  | questNil {a : RE} : Lang (.quest a) []
  | questOne {a : RE} {w : List Nat} : Lang a w → Lang (.quest a) w

/-- Semantic correctness of a built fragment `(s, e)` for AST `r` occupying
the region `[n0, n1)` of arena `B`: in any arena preserving the region
except at `e`, every path from `s` landing on a matching state factors
through `e` after consuming a word of `r`'s language, and conversely every
word of the language reaches `e` from `s`. -/
def FragSem (B : List State) (n0 n1 : Nat) (r : RE) (s e : Nat) : Prop :=
  ∀ A, Ext A B n0 n1 e →
    (∀ w t n, Steps A s w t n → StopAt A t →
      ∃ w1 w2 m, w = w1 ++ w2 ∧ Lang r w1 ∧ Steps A e w2 t m ∧ m ≤ n) ∧
    (∀ w, Lang r w → ∃ n, Steps A s w e n)

/-- Well-formedness of a fragment occupying region `[n0, n1)` of arena `B`:
start and end lie in the region, the end is a fresh matching state, and all
region states point within the region or to the null sentinel 0. -/
def FragWF (B : List State) (n0 n1 s e : Nat) : Prop :=
  n0 ≤ s ∧ s < n1 ∧ n0 ≤ e ∧ e < n1 ∧ s ≠ e ∧
  0 < n0 ∧ n1 ≤ List.length B ∧ (getSt B e) = match_state ∧
  ∀ j, n0 ≤ j → j < n1 →
    ((getSt B j).next1 = 0 ∨ (n0 ≤ (getSt B j).next1 ∧ (getSt B j).next1 < n1)) ∧
    ((getSt B j).next2 = 0 ∨ (n0 ≤ (getSt B j).next2 ∧ (getSt B j).next2 < n1))

/-- All facts carried through the construction for a built fragment:
well-formedness, semantics, the exact characterization of `is_trivial`, and
printable label bounds of its labelled states. -/
def GoodFrag (A : List State) (n0 n1 : Nat) (r : RE) (s e : Nat) : Prop :=
  FragWF A n0 n1 s e ∧ FragSem A n0 n1 r s e ∧
  (is_trivial A (make_automata s e) = true ↔
    ∃ lo hi, r = .rng lo hi ∧ getSt A s = range_state lo hi e) ∧
  ∀ j, n0 ≤ j → j < n1 → (getSt A j).min < RMATCH →
    cmin ≤ (getSt A j).min ∧ (getSt A j).max ≤ cmax

/-! ### Auxiliary notions used in the claims -/

/-- A byte list standing for a C string: every byte fits in one byte.  (A
real C input also contains no NUL byte; none of the properties below depend
on that, since no state label admits byte 0.) -/
def ValidStr (w : List Nat) : Prop := ∀ c ∈ w, c ≤ 255

/-- `t` is reachable from `s` in arena `A` by some path. -/
def Reach (A : List State) (s t : Nat) : Prop := ∃ w n, Steps A s w t n

/-- For each non-`unorderedRange` error status, the property of the byte at
the reported end offset that triggers the status (0 stands for the NUL
terminator when the offset is at or past the end of the pattern). -/
def ErrExplains (p : List Nat) (st : RerexStatus) (e : Nat) : Prop :=
  let c := List.getD p e 0
  match st with
  | .unexpectedEnd => c = 0
  | .expectedChar => c ≠ 0 ∧ ¬(cmin ≤ c ∧ c ≤ cmax)
  | .expectedElement => c ≠ 0 ∧ ¬(cmin ≤ c ∧ c ≤ cmax)
  | .expectedRbracket => c ≠ 93
  | .expectedRparen => c ≠ 41
  | .expectedSpecial => ¬(is_special c = true ∨ c = 45)
  | .unexpectedSpecial => is_special c = true
  | _ => True

/-- Label bounds of the ranges occurring in an AST, as guaranteed by the
parser (all elements are printable). -/
def REwf : RE → Prop
  | .rng lo hi => cmin ≤ lo ∧ lo ≤ hi ∧ hi ≤ cmax
  | .nrng lo hi => cmin ≤ lo ∧ lo ≤ hi ∧ hi ≤ cmax
  | .cat a b => REwf a ∧ REwf b
  | .alt a b => REwf a ∧ REwf b
  | .star a => REwf a
  | .plus a => REwf a
  | .quest a => REwf a

/-- Every labelled state of the region has printable label bounds. -/
def RangesPrintable (B : List State) (n0 : Nat) : Prop :=
  ∀ j, n0 ≤ j → j < List.length B → (getSt B j).min < RMATCH →
    cmin ≤ (getSt B j).min ∧ (getSt B j).max ≤ cmax

/-- The AST of a negated class with ranges `bs` (first range, then the
further ranges alternated on by the set loop). -/
def negClassRE (b0 : Nat × Nat) (bs : List (Nat × Nat)) : RE :=
  List.foldl (fun a p => RE.alt a (RE.nrng p.1 p.2)) (RE.nrng b0.1 b0.2) bs

/-- The trace of active lists of a `rerex_match` run: the list entered from
the start state, then the list produced by each simulation step (the final
one is the list inspected by the end-of-input check). -/
def activeListsLoop (states : StateArray) : List Nat → Nat → List Nat → List Nat → List (List Nat)
  | [], _, _, lst => [lst]
  | c :: rest, idx, la, lst =>
    let (la', next) := matchStep states c (idx + 1) la lst
    lst :: activeListsLoop states rest (idx + 1) la' next

/-- All active lists arising during `rerex_match pat w`. -/
def activeLists (pat : RerexPattern) (w : List Nat) : List (List Nat) :=
  let n := List.length pat.states
  let la0 := List.replicate n USIZE_MAX
  let (la1, l0) := enterT pat.states 0 la0 [] pat.start
  activeListsLoop pat.states w 0 la1 l0

/-! ## Theorems -/

/-- C8: `rerex_strerror` returns the table's short English description for
every status of the taxonomy (in particular "Success" for the success
status), and "Unknown error" for every status value outside the recognized
range (i.e. every value that is the code of no status). -/
theorem strerror_spec :
    (∀ st : RerexStatus,
      rerex_strerror (statusCode st) =
          List.getD status_strings (statusCode st) "Unknown error" ∧
        rerex_strerror (statusCode st) ≠ "Unknown error") ∧
    rerex_strerror (statusCode .success) = "Success" ∧
    ∀ n : Nat, (∀ st : RerexStatus, statusCode st ≠ n) →
      rerex_strerror n = "Unknown error" := by
  refine ⟨fun st => by cases st <;> exact ⟨rfl, by decide⟩, by decide, fun n hn => ?_⟩
  by_cases h : n ≤ 9
  · interval_cases n
    · exact absurd rfl (hn .success)
    · exact absurd rfl (hn .expectedChar)
    · exact absurd rfl (hn .expectedElement)
    · exact absurd rfl (hn .expectedRbracket)
    · exact absurd rfl (hn .expectedRparen)
    · exact absurd rfl (hn .expectedSpecial)
    · exact absurd rfl (hn .unexpectedSpecial)
    · exact absurd rfl (hn .unexpectedEnd)
    · exact absurd rfl (hn .unorderedRange)
    · exact absurd rfl (hn .noMemory)
  · simp [rerex_strerror, h]

/-- Witness for `strerror_spec` at the unrecognized status value 42. -/
theorem strerror_spec_witness :
    (∀ st : RerexStatus, statusCode st ≠ 42) ∧ rerex_strerror 42 = "Unknown error" :=
  ⟨fun st => by cases st <;> decide,
    strerror_spec.2.2 42 (fun st => by cases st <;> decide)⟩

/-- Counterexample to C1 as stated: the negated class `[^az]` has the two
ranges `a`–`a` and `z`–`z` (witnessed through the AST parser), and the
one-character printable input `a` belongs to the first range, yet
`rerex_match` accepts it — because the builder alternates the per-range
negated fragments, which accepts the complement of the intersection of the
ranges, not of their union. -/
theorem negclass_multirange_cex :
    parse (bytes "[^az]") = .ok (negClassRE (97, 97) [(122, 122)]) ⟨bytes "[^az]", 5⟩ ∧
    compileAndMatch "[^az]" "a" = some true ∧
    ¬(compileAndMatch "[^az]" "a" = some true ↔
        ¬((97 ≤ 97 ∧ 97 ≤ 97) ∨ (122 ≤ 97 ∧ 97 ≤ 122))) := by
  decide

/-- Counterexample to C2 as stated: compiling `"ab"` succeeds, but the
returned arena contains two states of kind `Match`: the accepting state at
index 3 and the dead placeholder at index 1, which the trivial-fragment
concatenation optimization abandoned in place instead of rewriting. -/
theorem dead_match_cex :
    rerex_compile (bytes "ab") =
      .ok 2 ⟨[split_state 0 0, match_state, range_state 97 97 4,
              match_state, range_state 98 98 3], 2⟩ ∧
    (getSt [split_state 0 0, match_state, range_state 97 97 4,
            match_state, range_state 98 98 3] 1).min = RMATCH ∧
    (getSt [split_state 0 0, match_state, range_state 97 97 4,
            match_state, range_state 98 98 3] 3).min = RMATCH ∧
    (1 : Nat) ≠ 3 := by
  decide

/-- Counterexample to C6 as stated: compiling `"[z-a]"` fails with the
unordered-range status and end offset 4, but the byte whose reading
triggered the status is the second endpoint `a`, read at offset 3 (its
reading advances the cursor to 4); the reported offset is one past that
byte, not its position. -/
theorem unordered_offset_cex :
    rerex_compile (bytes "[z-a]") = .fail .unorderedRange 4 ∧
    read_element ⟨bytes "[z-a]", 3⟩ = .ok 97 ⟨bytes "[z-a]", 4⟩ ∧
    (4 : Nat) ≠ 3 := by
  decide

/-! ### The state-emitting parser refines the AST parser -/

theorem read_range_abs (i : Input) (st : StateArray) (neg : Bool) :
    read_range i st neg = toPRes st (parse_range i neg) := by
  unfold read_range parse_range
  cases read_element i with
  | fail s i' => rfl
  | ok mn i1 =>
    simp only
    cases h2 : (if peek i1 = 45 then
        if peekahead i1 ≠ 93 then read_element (eat i1) else CharRes.ok mn i1
      else CharRes.ok mn i1) with
    | fail s i' => rfl
    | ok mx i2 =>
      simp only
      by_cases hlt : mx < mn
      · simp [hlt, toPRes]
      · cases neg <;> simp [hlt, toPRes, build]

theorem read_setLoop_abs (fuel : Nat) :
    ∀ i st neg nfa, read_setLoop fuel i st neg nfa =
      match parse_setList fuel i neg with
      | .ok rs i' => .ok i' (buildAlts (st, nfa) rs).1 (buildAlts (st, nfa) rs).2
      | .fail s i' => .fail s i'
      | .out => .out := by
  induction fuel with
  | zero => intro i st neg nfa; rfl
  | succ f ih =>
    intro i st neg nfa
    rw [read_setLoop, parse_setList]
    by_cases h93 : peek i = 93
    · simp [h93, buildAlts]
    · simp only [h93, if_false, read_range_abs]
      cases hr : parse_range i neg with
      | fail s i' => rfl
      | out => rfl
      | ok r i' =>
        simp only [toPRes]
        rw [ih]
        cases hl : parse_setList f i' neg with
        | ok rs i2 => simp [buildAlts]
        | fail s i2 => rfl
        | out => rfl

theorem buildAlts_foldl (rs : List RE) :
    ∀ st r0, buildAlts (build st r0) rs = build st (List.foldl RE.alt r0 rs) := by
  induction rs with
  | nil => intro st r0; rfl
  | cons r rest ih =>
    intro st r0
    rw [List.foldl_cons, ← ih st (RE.alt r0 r)]
    rfl

theorem read_set_abs (fuel : Nat) (i : Input) (st : StateArray) :
    read_set fuel i st = toPRes st (parse_set fuel i) := by
  unfold read_set parse_set
  simp only [read_range_abs]
  cases hr : parse_range (if peek i = 94 then eat i else i) (decide (peek i = 94)) with
  | fail s i' => rfl
  | out => rfl
  | ok r0 i2 =>
    simp only [toPRes]
    rw [read_setLoop_abs]
    cases hl : parse_setList fuel i2 (decide (peek i = 94)) with
    | ok rs i3 => simp [buildAlts_foldl]
    | fail s i3 => rfl
    | out => rfl

theorem parser_abs (fuel : Nat) :
    (∀ i st, read_atom fuel i st = toPRes st (parse_atom fuel i)) ∧
    (∀ i st, read_factor fuel i st = toPRes st (parse_factor fuel i)) ∧
    (∀ i st, read_term fuel i st = toPRes st (parse_term fuel i)) ∧
    (∀ i st, read_expr fuel i st = toPRes st (parse_expr fuel i)) := by
  induction fuel with
  | zero => exact ⟨fun _ _ => rfl, fun _ _ => rfl, fun _ _ => rfl, fun _ _ => rfl⟩
  | succ f ih =>
    obtain ⟨ihA, ihF, ihT, ihE⟩ := ih
    have hAtom : ∀ i st, read_atom (f + 1) i st = toPRes st (parse_atom (f + 1) i) := by
      intro i st
      rw [read_atom, parse_atom]
      by_cases h40 : peek i = 40
      · simp only [h40, if_true, ihE]
        cases parse_expr f (eat i) with
        | ok r i2 =>
          simp only [toPRes]
          by_cases h41 : peek i2 = 41 <;> simp [h41, toPRes]
        | fail s i' => rfl
        | out => rfl
      · simp only [h40, if_false]
        by_cases h46 : peek i = 46
        · simp [h46, read_dot, toPRes, build, add_state, make_automata]
        · simp only [h46, if_false]
          by_cases h91 : peek i = 91
          · simp only [h91, if_true, read_set_abs]
            cases parse_set f (eat i) with
            | ok r i2 => simp [toPRes]
            | fail s i' => rfl
            | out => rfl
          · simp only [h91, if_false]
            cases read_char i with
            | fail s i' => rfl
            | ok ch i1 => simp [toPRes, build, add_state, make_automata]
    have hFactor : ∀ i st, read_factor (f + 1) i st = toPRes st (parse_factor (f + 1) i) := by
      intro i st
      rw [read_factor, parse_factor]
      rw [ihA]
      cases parse_atom f i with
      | fail s i' => rfl
      | out => rfl
      | ok r i1 =>
        simp only [toPRes]
        by_cases h42 : peek i1 = 42
        · simp [h42, toPRes, build]
        · by_cases h43 : peek i1 = 43
          · simp [h42, h43, toPRes, build]
          · by_cases h63 : peek i1 = 63
            · simp [h42, h43, h63, toPRes, build]
            · simp [h42, h43, h63, toPRes]
    have hTerm : ∀ i st, read_term (f + 1) i st = toPRes st (parse_term (f + 1) i) := by
      intro i st
      rw [read_term, parse_term]
      rw [ihF]
      cases parse_factor f i with
      | fail s i' => rfl
      | out => rfl
      | ok r i1 =>
        simp only [toPRes]
        by_cases hstop : peek i1 = 0 ∨ peek i1 = 41 ∨ peek i1 = 124
        · simp [hstop, toPRes]
        · simp only [hstop, if_false, ihT]
          cases parse_term f i1 with
          | ok r2 i2 => simp [toPRes, build]
          | fail s i' => rfl
          | out => rfl
    have hExpr : ∀ i st, read_expr (f + 1) i st = toPRes st (parse_expr (f + 1) i) := by
      intro i st
      rw [read_expr, parse_expr]
      rw [ihT]
      cases parse_term f i with
      | fail s i' => rfl
      | out => rfl
      | ok r i1 =>
        simp only [toPRes]
        by_cases h124 : peek i1 = 124
        · simp only [h124, if_true, ihE]
          cases parse_expr f (eat i1) with
          | ok r2 i2 => simp [toPRes, build]
          | fail s i' => rfl
          | out => rfl
        · simp [h124, toPRes]
    exact ⟨hAtom, hFactor, hTerm, hExpr⟩

/-- `rerex_compile` through the AST parser: on success the pattern is the
`build` of the parsed AST on the sentinel arena. -/
theorem compile_abs (p : List Nat) :
    rerex_compile p =
      match parse p with
      | .ok r i =>
        .ok i.offset ⟨(build [split_state NO_STATE NO_STATE] r).1,
          (build [split_state NO_STATE NO_STATE] r).2.start⟩
      | .fail st i => .fail st i.offset
      | .out => .fail .noMemory 0 := by
  have h := (parser_abs (compileFuel p)).2.2.2 ⟨p, 0⟩ [split_state NO_STATE NO_STATE]
  unfold rerex_compile parse
  simp only [add_state, List.append_eq, List.nil_append, List.length_nil]
  rw [h]
  cases parse_expr (compileFuel p) ⟨p, 0⟩ with
  | ok r i => rfl
  | fail s i => rfl
  | out => rfl

/-! ### Shape of parser results: string preservation and offset progress -/

theorem peek_ne_zero {i : Input} (h : peek i ≠ 0) : i.offset < List.length i.str := by
  by_contra hge
  exact h (List.getD_eq_default _ _ (Nat.le_of_not_lt hge))

/-- Success advances the cursor within the string; failure never retreats. -/
def CShape (i : Input) : CharRes → Prop
  | .ok _ i' => i'.str = i.str ∧ i.offset < i'.offset ∧ i'.offset ≤ List.length i.str
  | .fail _ i' => i'.str = i.str ∧ i.offset ≤ i'.offset

def AShape (i : Input) : ARes → Prop
  | .ok _ i' => i'.str = i.str ∧ i.offset < i'.offset ∧ i'.offset ≤ List.length i.str
  | .fail _ i' => i'.str = i.str ∧ i.offset ≤ i'.offset
  | .out => True

def LShape (i : Input) : LRes → Prop
  | .ok _ i' => i'.str = i.str ∧ i.offset ≤ i'.offset ∧ peek i' = 93
  | .fail _ i' => i'.str = i.str ∧ i.offset ≤ i'.offset
  | .out => True

theorem read_escape_shape (i : Input) : CShape i (read_escape i) := by
  unfold read_escape
  by_cases hc : is_special (peek (eat i)) || decide (peek (eat i) = 45)
  · have hne : peek (eat i) ≠ 0 := by
      rcases Bool.or_eq_true_iff.mp hc with h1 | h1
      · intro h0; rw [h0] at h1; simp [is_special] at h1
      · intro h0; rw [h0] at h1; simp at h1
    have h2 := peek_ne_zero hne
    simp only [hc, if_true]
    refine ⟨rfl, ?_, ?_⟩ <;> simp only [eat] at h2 ⊢ <;> omega
  · simp only [hc, if_false]
    exact ⟨rfl, by simp [eat]⟩

theorem read_char_shape (i : Input) : CShape i (read_char i) := by
  unfold read_char
  by_cases h0 : peek i = 0
  · simp only [h0, if_true]; exact ⟨rfl, le_refl _⟩
  · simp only [h0, if_false]
    by_cases h92 : peek i = 92
    · simp only [h92, if_true]
      exact read_escape_shape i
    · simp only [h92, if_false]
      by_cases hsp : is_special (peek i)
      · simp only [hsp, if_true]; exact ⟨rfl, le_refl _⟩
      · simp only [hsp, Bool.false_eq_true, if_false]
        by_cases hpr : cmin ≤ peek i ∧ peek i ≤ cmax
        · have h2 := peek_ne_zero h0
          simp only [hpr, if_true]
          refine ⟨rfl, ?_, ?_⟩ <;> simp only [eat] at h2 ⊢ <;> omega
        · simp only [hpr, if_false]; exact ⟨rfl, le_refl _⟩

theorem read_element_shape (i : Input) : CShape i (read_element i) := by
  unfold read_element
  by_cases h0 : peek i = 0
  · simp only [h0, if_true]; exact ⟨rfl, le_refl _⟩
  · simp only [h0, if_false]
    by_cases h93 : peek i = 93
    · simp only [h93, if_true]; exact ⟨rfl, le_refl _⟩
    · simp only [h93, if_false]
      by_cases h92 : peek i = 92
      · simp only [h92, if_true]
        by_cases hb : peek (eat i) ≠ 93
        · rw [if_pos hb]
          exact ⟨rfl, by simp [eat]⟩
        · have hne : peek (eat i) ≠ 0 := by
            intro hz
            exact hb (by simp [hz])
          have h2 := peek_ne_zero hne
          rw [if_neg hb]
          refine ⟨rfl, ?_, ?_⟩ <;> simp only [eat] at h2 ⊢ <;> omega
      · simp only [h92, if_false]
        by_cases hpr : cmin ≤ peek i ∧ peek i ≤ cmax
        · have h2 := peek_ne_zero h0
          simp only [hpr, if_true]
          refine ⟨rfl, ?_, ?_⟩ <;> simp only [eat] at h2 ⊢ <;> omega
        · simp only [hpr, if_false]; exact ⟨rfl, le_refl _⟩

theorem parse_range_shape (i : Input) (neg : Bool) : AShape i (parse_range i neg) := by
  unfold parse_range
  cases h1 : read_element i with
  | fail s i' =>
    have hsh := read_element_shape i; rw [h1] at hsh
    exact hsh
  | ok mn i1 =>
    have hs1 := read_element_shape i; rw [h1] at hs1
    obtain ⟨hstr1, hlt1, hle1⟩ := hs1
    simp only
    cases h2 : (if peek i1 = 45 then
        if peekahead i1 ≠ 93 then read_element (eat i1) else CharRes.ok mn i1
      else CharRes.ok mn i1) with
    | fail s i2 =>
      have hs2 : i2.str = i1.str ∧ i1.offset ≤ i2.offset := by
        by_cases hd : peek i1 = 45
        · rw [if_pos hd] at h2
          by_cases hd2 : peekahead i1 ≠ 93
          · rw [if_pos hd2] at h2
            have hsh := read_element_shape (eat i1); rw [h2] at hsh
            obtain ⟨ha, hb⟩ := hsh
            refine ⟨ha, ?_⟩
            simp only [eat] at hb ⊢
            omega
          · rw [if_neg hd2] at h2; cases h2
        · rw [if_neg hd] at h2; cases h2
      obtain ⟨hstr2, hle2⟩ := hs2
      exact ⟨hstr2.trans hstr1, by omega⟩
    | ok mx i2 =>
      have hs2 : i2.str = i1.str ∧ i1.offset ≤ i2.offset ∧
          i2.offset ≤ List.length i1.str := by
        by_cases hd : peek i1 = 45
        · rw [if_pos hd] at h2
          by_cases hd2 : peekahead i1 ≠ 93
          · rw [if_pos hd2] at h2
            have hsh := read_element_shape (eat i1); rw [h2] at hsh
            obtain ⟨ha, hb, hc⟩ := hsh
            refine ⟨ha, ?_, ?_⟩ <;> simp only [eat] at hb hc ⊢ <;> omega
          · rw [if_neg hd2] at h2
            cases h2
            refine ⟨rfl, le_refl _, ?_⟩
            rw [hstr1]
            exact hle1
        · rw [if_neg hd] at h2
          cases h2
          refine ⟨rfl, le_refl _, ?_⟩
          rw [hstr1]
          exact hle1
      obtain ⟨hstr2, hle2, hlen2⟩ := hs2
      show AShape i (if mx < mn then ARes.fail RerexStatus.unorderedRange i2
        else ARes.ok (if neg = true then RE.nrng mn mx else RE.rng mn mx) i2)
      by_cases hlt : mx < mn
      · rw [if_pos hlt]
        exact ⟨hstr2.trans hstr1, by omega⟩
      · rw [if_neg hlt]
        refine ⟨hstr2.trans hstr1, by omega, ?_⟩
        rw [hstr1] at hlen2
        exact hlen2

theorem parse_range_ne_out (i : Input) (neg : Bool) : parse_range i neg ≠ .out := by
  unfold parse_range
  cases read_element i with
  | fail s i' => simp
  | ok mn i1 =>
    simp only
    cases (if peek i1 = 45 then
        if peekahead i1 ≠ 93 then read_element (eat i1) else CharRes.ok mn i1
      else CharRes.ok mn i1) with
    | fail s i2 => simp
    | ok mx i2 =>
      by_cases hlt : mx < mn
      · simp [hlt]
      · simp [hlt]

theorem parse_setList_shape (fuel : Nat) :
    ∀ i neg, LShape i (parse_setList fuel i neg) := by
  induction fuel with
  | zero => intro i neg; trivial
  | succ f ih =>
    intro i neg
    rw [parse_setList]
    by_cases h93 : peek i = 93
    · simp only [h93, if_true]
      exact ⟨rfl, le_refl _, h93⟩
    · simp only [h93, if_false]
      cases hr : parse_range i neg with
      | fail s i' =>
        have hsh := parse_range_shape i neg; rw [hr] at hsh
        exact hsh
      | out => exact absurd hr (parse_range_ne_out i neg)
      | ok r i' =>
        have hsh := parse_range_shape i neg; rw [hr] at hsh
        obtain ⟨hstr, hlt, _⟩ := hsh
        simp only
        cases hl : parse_setList f i' neg with
        | ok rs i2 =>
          have hsh2 := ih i' neg; rw [hl] at hsh2
          obtain ⟨hstr2, hle2, hpk⟩ := hsh2
          exact ⟨hstr2.trans hstr, by omega, hpk⟩
        | fail s i2 =>
          have hsh2 := ih i' neg; rw [hl] at hsh2
          obtain ⟨hstr2, hle2⟩ := hsh2
          exact ⟨hstr2.trans hstr, by omega⟩
        | out => trivial

theorem parse_set_shape (fuel : Nat) (i : Input) :
    match parse_set fuel i with
    | .ok _ i' => i'.str = i.str ∧ i.offset ≤ i'.offset ∧ peek i' = 93
    | .fail _ i' => i'.str = i.str ∧ i.offset ≤ i'.offset
    | .out => True := by
  unfold parse_set
  simp only
  have hcar : (if peek i = 94 then eat i else i).str = i.str ∧
      i.offset ≤ (if peek i = 94 then eat i else i).offset := by
    by_cases h94 : peek i = 94 <;> simp [h94, eat]
  obtain ⟨hstrc, hlec⟩ := hcar
  cases hr : parse_range (if peek i = 94 then eat i else i) (decide (peek i = 94)) with
  | fail s i' =>
    have hsh := parse_range_shape (if peek i = 94 then eat i else i) (decide (peek i = 94))
    rw [hr] at hsh
    obtain ⟨h1, h2⟩ := hsh
    exact ⟨h1.trans hstrc, by omega⟩
  | out => exact absurd hr (parse_range_ne_out _ _)
  | ok r0 i2 =>
    have hsh := parse_range_shape (if peek i = 94 then eat i else i) (decide (peek i = 94))
    rw [hr] at hsh
    obtain ⟨h1, h2, _⟩ := hsh
    simp only
    cases hl : parse_setList fuel i2 (decide (peek i = 94)) with
    | ok rs i3 =>
      have hsh2 := parse_setList_shape fuel i2 (decide (peek i = 94)); rw [hl] at hsh2
      obtain ⟨h3, h4, h5⟩ := hsh2
      exact ⟨h3.trans (h1.trans hstrc), by omega, h5⟩
    | fail s i3 =>
      have hsh2 := parse_setList_shape fuel i2 (decide (peek i = 94)); rw [hl] at hsh2
      obtain ⟨h3, h4⟩ := hsh2
      exact ⟨h3.trans (h1.trans hstrc), by omega⟩
    | out => trivial

theorem parse_shape (fuel : Nat) :
    (∀ i, AShape i (parse_atom fuel i)) ∧
    (∀ i, AShape i (parse_factor fuel i)) ∧
    (∀ i, AShape i (parse_term fuel i)) ∧
    (∀ i, AShape i (parse_expr fuel i)) := by
  induction fuel with
  | zero => exact ⟨fun _ => trivial, fun _ => trivial, fun _ => trivial, fun _ => trivial⟩
  | succ f ih =>
    obtain ⟨ihA, ihF, ihT, ihE⟩ := ih
    have hAtom : ∀ i, AShape i (parse_atom (f + 1) i) := by
      intro i
      rw [parse_atom]
      by_cases h40 : peek i = 40
      · simp only [h40, if_true]
        cases he : parse_expr f (eat i) with
        | out => trivial
        | fail s i' =>
          have hsh := ihE (eat i); rw [he] at hsh
          obtain ⟨h1, h2⟩ := hsh
          simp only [eat] at h1 h2
          exact ⟨h1, by omega⟩
        | ok r i2 =>
          have hsh := ihE (eat i); rw [he] at hsh
          obtain ⟨h1, h2, h3⟩ := hsh
          simp only [eat] at h1 h2 h3
          simp only
          by_cases h41 : peek i2 ≠ 41
          · rw [if_pos h41]
            exact ⟨h1, by omega⟩
          · rw [if_neg h41]
            have hne : peek i2 ≠ 0 := by
              intro hz; exact h41 (by simp [hz])
            have hb := peek_ne_zero hne
            rw [h1] at hb
            exact ⟨h1, by simp only [eat]; omega, by simp only [eat]; omega⟩
      · simp only [h40, if_false]
        by_cases h46 : peek i = 46
        · have hb := peek_ne_zero (by rw [h46]; simp : peek i ≠ 0)
          simp only [h46, if_true]
          exact ⟨rfl, by simp only [eat]; omega, by simp only [eat]; omega⟩
        · simp only [h46, if_false]
          by_cases h91 : peek i = 91
          · simp only [h91, if_true]
            cases hs : parse_set f (eat i) with
            | out => trivial
            | fail s i' =>
              have hsh := parse_set_shape f (eat i); rw [hs] at hsh
              obtain ⟨h1, h2⟩ := hsh
              simp only [eat] at h1 h2
              exact ⟨h1, by omega⟩
            | ok r i2 =>
              have hsh := parse_set_shape f (eat i); rw [hs] at hsh
              obtain ⟨h1, h2, h3⟩ := hsh
              simp only [eat] at h1 h2
              have hne : peek i2 ≠ 0 := by rw [h3]; simp
              have hb := peek_ne_zero hne
              rw [h1] at hb
              exact ⟨h1, by simp only [eat]; omega, by simp only [eat]; omega⟩
          · simp only [h91, if_false]
            cases hc : read_char i with
            | fail s i' =>
              have hsh := read_char_shape i; rw [hc] at hsh
              exact hsh
            | ok ch i1 =>
              have hsh := read_char_shape i; rw [hc] at hsh
              exact hsh
    have hFactor : ∀ i, AShape i (parse_factor (f + 1) i) := by
      intro i
      rw [parse_factor]
      cases ha : parse_atom f i with
      | out => trivial
      | fail s i' =>
        have hsh := ihA i; rw [ha] at hsh
        exact hsh
      | ok r i1 =>
        have hsh := ihA i; rw [ha] at hsh
        obtain ⟨h1, h2, h3⟩ := hsh
        simp only
        have hop : ∀ v, peek i1 = v → v ≠ 0 →
            AShape i (ARes.ok (RE.star r) (eat i1)) := by
          intro v hv hvne
          have hb := peek_ne_zero (by rw [hv]; exact hvne)
          rw [h1] at hb
          exact ⟨h1, by simp only [eat]; omega, by simp only [eat]; omega⟩
        by_cases h42 : peek i1 = 42
        · simp only [h42, if_true]
          exact hop 42 h42 (by omega)
        · simp only [h42, if_false]
          by_cases h43 : peek i1 = 43
          · simp only [h43, if_true]
            exact hop 43 h43 (by omega)
          · simp only [h43, if_false]
            by_cases h63 : peek i1 = 63
            · simp only [h63, if_true]
              exact hop 63 h63 (by omega)
            · simp only [h63, if_false]
              exact ⟨h1, h2, h3⟩
    have hTerm : ∀ i, AShape i (parse_term (f + 1) i) := by
      intro i
      rw [parse_term]
      cases hf : parse_factor f i with
      | out => trivial
      | fail s i' =>
        have hsh := ihF i; rw [hf] at hsh
        exact hsh
      | ok r i1 =>
        have hsh := ihF i; rw [hf] at hsh
        obtain ⟨h1, h2, h3⟩ := hsh
        simp only
        by_cases hstop : peek i1 = 0 ∨ peek i1 = 41 ∨ peek i1 = 124
        · simp only [hstop, if_true]
          exact ⟨h1, h2, h3⟩
        · simp only [hstop, if_false]
          cases ht : parse_term f i1 with
          | out => trivial
          | fail s i' =>
            have hsh2 := ihT i1; rw [ht] at hsh2
            obtain ⟨h4, h5⟩ := hsh2
            exact ⟨h4.trans h1, by omega⟩
          | ok r2 i2 =>
            have hsh2 := ihT i1; rw [ht] at hsh2
            obtain ⟨h4, h5, h6⟩ := hsh2
            rw [h1] at h6
            exact ⟨h4.trans h1, by omega, h6⟩
    have hExpr : ∀ i, AShape i (parse_expr (f + 1) i) := by
      intro i
      rw [parse_expr]
      cases ht : parse_term f i with
      | out => trivial
      | fail s i' =>
        have hsh := ihT i; rw [ht] at hsh
        exact hsh
      | ok r i1 =>
        have hsh := ihT i; rw [ht] at hsh
        obtain ⟨h1, h2, h3⟩ := hsh
        simp only
        by_cases h124 : peek i1 = 124
        · simp only [h124, if_true]
          cases he : parse_expr f (eat i1) with
          | out => trivial
          | fail s i' =>
            have hsh2 := ihE (eat i1); rw [he] at hsh2
            obtain ⟨h4, h5⟩ := hsh2
            simp only [eat] at h4 h5
            exact ⟨h4.trans h1, by omega⟩
          | ok r2 i2 =>
            have hsh2 := ihE (eat i1); rw [he] at hsh2
            obtain ⟨h4, h5, h6⟩ := hsh2
            simp only [eat] at h4 h5 h6
            rw [h1] at h6
            exact ⟨h4.trans h1, by omega, h6⟩
        · simp only [h124, if_false]
          exact ⟨h1, h2, h3⟩
    exact ⟨hAtom, hFactor, hTerm, hExpr⟩

/-- Bytes remaining at the cursor. -/
def rem (i : Input) : Nat := List.length i.str - i.offset

theorem parse_noOut (fuel : Nat) :
    (∀ i neg, rem i + 1 ≤ fuel → parse_setList fuel i neg ≠ .out) ∧
    (∀ i, 4 * rem i + 1 ≤ fuel → parse_atom fuel i ≠ .out) ∧
    (∀ i, 4 * rem i + 2 ≤ fuel → parse_factor fuel i ≠ .out) ∧
    (∀ i, 4 * rem i + 3 ≤ fuel → parse_term fuel i ≠ .out) ∧
    (∀ i, 4 * rem i + 4 ≤ fuel → parse_expr fuel i ≠ .out) := by
  induction fuel using Nat.strong_induction_on with
  | _ fuel ih =>
  match fuel with
  | 0 => exact ⟨fun i neg h => by omega, fun i h => by omega, fun i h => by omega,
      fun i h => by omega, fun i h => by omega⟩
  | f + 1 =>
    have ihf := ih f (by omega)
    have hSet : ∀ i neg, rem i + 1 ≤ f + 1 → parse_setList (f + 1) i neg ≠ .out := by
      intro i neg hfu
      rw [parse_setList]
      by_cases h93 : peek i = 93
      · simp [h93]
      · simp only [h93, if_false]
        cases hr : parse_range i neg with
        | fail s i' => simp
        | out => exact absurd hr (parse_range_ne_out i neg)
        | ok r i' =>
          have hsh := parse_range_shape i neg; rw [hr] at hsh
          obtain ⟨h1, h2, h3⟩ := hsh
          simp only
          cases hl : parse_setList f i' neg with
          | ok rs i2 => simp
          | fail s i2 => simp
          | out =>
            refine absurd hl (ihf.1 i' neg ?_)
            simp only [rem] at hfu ⊢
            rw [h1]
            omega
    have hAtom : ∀ i, 4 * rem i + 1 ≤ f + 1 → parse_atom (f + 1) i ≠ .out := by
      intro i hfu
      rw [parse_atom]
      by_cases h40 : peek i = 40
      · have hlt := peek_ne_zero (by rw [h40]; simp : peek i ≠ 0)
        simp only [h40, if_true]
        cases he : parse_expr f (eat i) with
        | fail s i' => simp
        | ok r i2 => simp only; split <;> simp
        | out =>
          refine absurd he (ihf.2.2.2.2 (eat i) ?_)
          simp only [rem, eat] at hfu ⊢
          omega
      · simp only [h40, if_false]
        by_cases h46 : peek i = 46
        · simp [h46]
        · simp only [h46, if_false]
          by_cases h91 : peek i = 91
          · have hlt := peek_ne_zero (by rw [h91]; simp : peek i ≠ 0)
            simp only [h91, if_true]
            cases hs : parse_set f (eat i) with
            | fail s i' => simp
            | ok r i2 => simp
            | out =>
              refine absurd hs ?_
              unfold parse_set
              simp only
              cases hr : parse_range (if peek (eat i) = 94 then eat (eat i) else eat i)
                  (decide (peek (eat i) = 94)) with
              | fail s i' => simp
              | out => exact absurd hr (parse_range_ne_out _ _)
              | ok r0 i2 =>
                have hsh := parse_range_shape (if peek (eat i) = 94 then eat (eat i) else eat i)
                  (decide (peek (eat i) = 94))
                rw [hr] at hsh
                obtain ⟨h1, h2, h3⟩ := hsh
                have hcar : (if peek (eat i) = 94 then eat (eat i) else eat i).str = i.str ∧
                    i.offset ≤ (if peek (eat i) = 94 then eat (eat i) else eat i).offset := by
                  by_cases h94 : peek (eat i) = 94
                  · rw [if_pos h94]; exact ⟨rfl, by simp only [eat]; omega⟩
                  · rw [if_neg h94]; exact ⟨rfl, by simp only [eat]; omega⟩
                simp only
                cases hl : parse_setList f i2 (decide (peek (eat i) = 94)) with
                | ok rs i3 => simp
                | fail s i3 => simp
                | out =>
                  refine absurd hl (ihf.1 i2 _ ?_)
                  obtain ⟨hc1, hc2⟩ := hcar
                  rw [hc1] at h1 h3
                  simp only [rem] at hfu ⊢
                  rw [h1]
                  omega
          · simp only [h91, if_false]
            cases read_char i with
            | fail s i' => simp
            | ok ch i1 => simp
    have hFactor : ∀ i, 4 * rem i + 2 ≤ f + 1 → parse_factor (f + 1) i ≠ .out := by
      intro i hfu
      rw [parse_factor]
      cases ha : parse_atom f i with
      | fail s i' => simp
      | out => exact absurd ha (ihf.2.1 i (by omega))
      | ok r i1 =>
        simp only
        split
        · simp
        · split
          · simp
          · split <;> simp
    have hTerm : ∀ i, 4 * rem i + 3 ≤ f + 1 → parse_term (f + 1) i ≠ .out := by
      intro i hfu
      rw [parse_term]
      cases hf2 : parse_factor f i with
      | fail s i' => simp
      | out => exact absurd hf2 (ihf.2.2.1 i (by omega))
      | ok r i1 =>
        have hsh := (parse_shape f).2.1 i; rw [hf2] at hsh
        obtain ⟨h1, h2, h3⟩ := hsh
        simp only
        by_cases hstop : peek i1 = 0 ∨ peek i1 = 41 ∨ peek i1 = 124
        · simp [hstop]
        · simp only [hstop, if_false]
          cases ht : parse_term f i1 with
          | ok r2 i2 => simp
          | fail s i' => simp
          | out =>
            refine absurd ht (ihf.2.2.2.1 i1 ?_)
            simp only [rem] at hfu ⊢
            rw [h1]
            omega
    have hExpr : ∀ i, 4 * rem i + 4 ≤ f + 1 → parse_expr (f + 1) i ≠ .out := by
      intro i hfu
      rw [parse_expr]
      cases ht : parse_term f i with
      | fail s i' => simp
      | out => exact absurd ht (ihf.2.2.2.1 i (by omega))
      | ok r i1 =>
        have hsh := (parse_shape f).2.2.1 i; rw [ht] at hsh
        obtain ⟨h1, h2, h3⟩ := hsh
        simp only
        by_cases h124 : peek i1 = 124
        · simp only [h124, if_true]
          cases he : parse_expr f (eat i1) with
          | ok r2 i2 => simp
          | fail s i' => simp
          | out =>
            refine absurd he (ihf.2.2.2.2 (eat i1) ?_)
            simp only [rem, eat] at hfu ⊢
            rw [h1]
            omega
        · simp [h124]
    exact ⟨hSet, hAtom, hFactor, hTerm, hExpr⟩

/-- The top-level AST parse never runs out of fuel. -/
theorem parse_ne_out (p : List Nat) : parse p ≠ .out := by
  unfold parse
  refine (parse_noOut (compileFuel p)).2.2.2.2 ⟨p, 0⟩ ?_
  simp only [rem, compileFuel]
  omega

/-! ### Error offsets: the byte at the reported offset explains the status -/

theorem read_escape_err {i : Input} {st : RerexStatus} {i' : Input}
    (h : read_escape i = .fail st i') : ErrExplains i'.str st i'.offset := by
  unfold read_escape at h
  by_cases hc : is_special (peek (eat i)) || decide (peek (eat i) = 45)
  · rw [if_pos hc] at h; cases h
  · rw [if_neg hc] at h
    cases h
    simp only [Bool.or_eq_true, decide_eq_true_eq] at hc
    exact hc

theorem read_char_err {i : Input} {st : RerexStatus} {i' : Input}
    (h : read_char i = .fail st i') : ErrExplains i'.str st i'.offset := by
  unfold read_char at h
  by_cases h0 : peek i = 0
  · rw [if_pos h0] at h
    cases h
    exact h0
  · rw [if_neg h0] at h
    by_cases h92 : peek i = 92
    · rw [if_pos h92] at h
      exact read_escape_err h
    · rw [if_neg h92] at h
      by_cases hsp : is_special (peek i) = true
      · rw [if_pos hsp] at h
        cases h
        exact hsp
      · rw [if_neg hsp] at h
        by_cases hpr : cmin ≤ peek i ∧ peek i ≤ cmax
        · rw [if_pos hpr] at h; cases h
        · rw [if_neg hpr] at h
          cases h
          exact ⟨h0, hpr⟩

theorem read_element_err {i : Input} {st : RerexStatus} {i' : Input}
    (h : read_element i = .fail st i') : ErrExplains i'.str st i'.offset := by
  unfold read_element at h
  by_cases h0 : peek i = 0
  · rw [if_pos h0] at h
    cases h
    exact h0
  · rw [if_neg h0] at h
    by_cases h93 : peek i = 93
    · rw [if_pos h93] at h
      cases h
      show is_special (peek i) = true
      rw [h93]
      decide
    · rw [if_neg h93] at h
      by_cases h92 : peek i = 92
      · rw [if_pos h92] at h
        by_cases hb : peek (eat i) ≠ 93
        · rw [if_pos hb] at h
          cases h
          exact hb
        · rw [if_neg hb] at h; cases h
      · rw [if_neg h92] at h
        by_cases hpr : cmin ≤ peek i ∧ peek i ≤ cmax
        · rw [if_pos hpr] at h; cases h
        · rw [if_neg hpr] at h
          cases h
          exact ⟨h0, hpr⟩

theorem parse_range_err {i : Input} {neg : Bool} {st : RerexStatus} {i' : Input}
    (h : parse_range i neg = .fail st i') (hst : st ≠ .unorderedRange) :
    ErrExplains i'.str st i'.offset := by
  unfold parse_range at h
  cases h1 : read_element i with
  | fail s i2 =>
    rw [h1] at h
    cases h
    exact read_element_err h1
  | ok mn i1 =>
    rw [h1] at h
    simp only at h
    cases h2 : (if peek i1 = 45 then
        if peekahead i1 ≠ 93 then read_element (eat i1) else CharRes.ok mn i1
      else CharRes.ok mn i1) with
    | fail s i2 =>
      rw [h2] at h
      cases h
      by_cases hd : peek i1 = 45
      · rw [if_pos hd] at h2
        by_cases hd2 : peekahead i1 ≠ 93
        · rw [if_pos hd2] at h2
          exact read_element_err h2
        · rw [if_neg hd2] at h2; cases h2
      · rw [if_neg hd] at h2; cases h2
    | ok mx i2 =>
      rw [h2] at h
      simp only at h
      by_cases hlt : mx < mn
      · rw [if_pos hlt] at h
        cases h
        exact absurd rfl hst
      · rw [if_neg hlt] at h
        cases h

theorem parse_setList_err (fuel : Nat) :
    ∀ {i : Input} {neg : Bool} {st : RerexStatus} {i' : Input},
      parse_setList fuel i neg = .fail st i' → st ≠ .unorderedRange →
      ErrExplains i'.str st i'.offset := by
  induction fuel with
  | zero => intro i neg st i' h; cases h
  | succ f ih =>
    intro i neg st i' h hst
    rw [parse_setList] at h
    by_cases h93 : peek i = 93
    · rw [if_pos h93] at h; cases h
    · rw [if_neg h93] at h
      cases hr : parse_range i neg with
      | fail s i2 =>
        rw [hr] at h
        cases h
        exact parse_range_err hr hst
      | out => exact absurd hr (parse_range_ne_out i neg)
      | ok r i2 =>
        rw [hr] at h
        simp only at h
        cases hl : parse_setList f i2 neg with
        | ok rs i3 => rw [hl] at h; cases h
        | out => rw [hl] at h; cases h
        | fail s i3 =>
          rw [hl] at h
          cases h
          exact ih hl hst

theorem parse_set_err {fuel : Nat} {i : Input} {st : RerexStatus} {i' : Input}
    (h : parse_set fuel i = .fail st i') (hst : st ≠ .unorderedRange) :
    ErrExplains i'.str st i'.offset := by
  unfold parse_set at h
  simp only at h
  cases hr : parse_range (if peek i = 94 then eat i else i) (decide (peek i = 94)) with
  | fail s i2 =>
    rw [hr] at h
    cases h
    exact parse_range_err hr hst
  | out => exact absurd hr (parse_range_ne_out _ _)
  | ok r0 i2 =>
    rw [hr] at h
    simp only at h
    cases hl : parse_setList fuel i2 (decide (peek i = 94)) with
    | ok rs i3 => rw [hl] at h; cases h
    | out => rw [hl] at h; cases h
    | fail s i3 =>
      rw [hl] at h
      cases h
      exact parse_setList_err fuel hl hst

theorem parse_err (fuel : Nat) :
    (∀ {i st i'}, parse_atom fuel i = .fail st i' → st ≠ .unorderedRange →
      ErrExplains i'.str st i'.offset) ∧
    (∀ {i st i'}, parse_factor fuel i = .fail st i' → st ≠ .unorderedRange →
      ErrExplains i'.str st i'.offset) ∧
    (∀ {i st i'}, parse_term fuel i = .fail st i' → st ≠ .unorderedRange →
      ErrExplains i'.str st i'.offset) ∧
    (∀ {i st i'}, parse_expr fuel i = .fail st i' → st ≠ .unorderedRange →
      ErrExplains i'.str st i'.offset) := by
  induction fuel with
  | zero =>
    refine ⟨?_, ?_, ?_, ?_⟩ <;> intro i st i' h <;> cases h
  | succ f ih =>
    obtain ⟨ihA, ihF, ihT, ihE⟩ := ih
    have hAtom : ∀ {i st i'}, parse_atom (f + 1) i = .fail st i' →
        st ≠ .unorderedRange → ErrExplains i'.str st i'.offset := by
      intro i st i' h hst
      rw [parse_atom] at h
      by_cases h40 : peek i = 40
      · rw [if_pos h40] at h
        cases he : parse_expr f (eat i) with
        | out => rw [he] at h; cases h
        | fail s i2 =>
          rw [he] at h
          cases h
          exact ihE he hst
        | ok r i2 =>
          rw [he] at h
          simp only at h
          by_cases h41 : peek i2 ≠ 41
          · rw [if_pos h41] at h
            cases h
            exact h41
          · rw [if_neg h41] at h; cases h
      · rw [if_neg h40] at h
        by_cases h46 : peek i = 46
        · rw [if_pos h46] at h; cases h
        · rw [if_neg h46] at h
          by_cases h91 : peek i = 91
          · rw [if_pos h91] at h
            cases hs : parse_set f (eat i) with
            | out => rw [hs] at h; cases h
            | fail s i2 =>
              rw [hs] at h
              cases h
              exact parse_set_err hs hst
            | ok r i2 => rw [hs] at h; cases h
          · rw [if_neg h91] at h
            cases hc : read_char i with
            | fail s i2 =>
              rw [hc] at h
              cases h
              exact read_char_err hc
            | ok ch i1 => rw [hc] at h; cases h
    have hFactor : ∀ {i st i'}, parse_factor (f + 1) i = .fail st i' →
        st ≠ .unorderedRange → ErrExplains i'.str st i'.offset := by
      intro i st i' h hst
      rw [parse_factor] at h
      cases ha : parse_atom f i with
      | out => rw [ha] at h; cases h
      | fail s i2 =>
        rw [ha] at h
        cases h
        exact ihA ha hst
      | ok r i1 =>
        rw [ha] at h
        simp only at h
        split at h <;> try cases h
        split at h <;> try cases h
        split at h <;> cases h
    have hTerm : ∀ {i st i'}, parse_term (f + 1) i = .fail st i' →
        st ≠ .unorderedRange → ErrExplains i'.str st i'.offset := by
      intro i st i' h hst
      rw [parse_term] at h
      cases hf2 : parse_factor f i with
      | out => rw [hf2] at h; cases h
      | fail s i2 =>
        rw [hf2] at h
        cases h
        exact ihF hf2 hst
      | ok r i1 =>
        rw [hf2] at h
        simp only at h
        by_cases hstop : peek i1 = 0 ∨ peek i1 = 41 ∨ peek i1 = 124
        · rw [if_pos hstop] at h; cases h
        · rw [if_neg hstop] at h
          cases ht : parse_term f i1 with
          | out => rw [ht] at h; cases h
          | ok r2 i2 => rw [ht] at h; cases h
          | fail s i2 =>
            rw [ht] at h
            cases h
            exact ihT ht hst
    have hExpr : ∀ {i st i'}, parse_expr (f + 1) i = .fail st i' →
        st ≠ .unorderedRange → ErrExplains i'.str st i'.offset := by
      intro i st i' h hst
      rw [parse_expr] at h
      cases ht : parse_term f i with
      | out => rw [ht] at h; cases h
      | fail s i2 =>
        rw [ht] at h
        cases h
        exact ihT ht hst
      | ok r i1 =>
        rw [ht] at h
        simp only at h
        by_cases h124 : peek i1 = 124
        · rw [if_pos h124] at h
          cases he : parse_expr f (eat i1) with
          | out => rw [he] at h; cases h
          | ok r2 i2 => rw [he] at h; cases h
          | fail s i2 =>
            rw [he] at h
            cases h
            exact ihE he hst
        · rw [if_neg h124] at h; cases h
    exact ⟨hAtom, hFactor, hTerm, hExpr⟩

/-! ### Compile-level correspondence -/

theorem compile_fail_elim {p : List Nat} {st : RerexStatus} {e : Nat}
    (h : rerex_compile p = .fail st e) :
    ∃ i' : Input, parse p = .fail st i' ∧ i'.offset = e ∧ i'.str = p := by
  have habs := compile_abs p
  rw [h] at habs
  cases hp : parse p with
  | out => exact absurd hp (parse_ne_out p)
  | ok r i' => rw [hp] at habs; cases habs
  | fail st2 i' =>
    rw [hp] at habs
    cases habs
    have hsh := (parse_shape (compileFuel p)).2.2.2 ⟨p, 0⟩
    unfold parse at hp
    rw [hp] at hsh
    exact ⟨i', rfl, rfl, hsh.1⟩

theorem compile_ok_elim {p : List Nat} {e : Nat} {pat : RerexPattern}
    (h : rerex_compile p = .ok e pat) :
    ∃ (r : RE) (i' : Input), parse p = .ok r i' ∧ i'.offset = e ∧ i'.str = p ∧
      pat = ⟨(build [split_state NO_STATE NO_STATE] r).1,
        (build [split_state NO_STATE NO_STATE] r).2.start⟩ := by
  have habs := compile_abs p
  rw [h] at habs
  cases hp : parse p with
  | out => exact absurd hp (parse_ne_out p)
  | fail st2 i' => rw [hp] at habs; cases habs
  | ok r i' =>
    rw [hp] at habs
    cases habs
    have hsh := (parse_shape (compileFuel p)).2.2.2 ⟨p, 0⟩
    unfold parse at hp
    rw [hp] at hsh
    exact ⟨r, i', rfl, rfl, hsh.1, rfl⟩

theorem parse_range_ok_shape {i : Input} {neg : Bool} {r : RE} {i' : Input}
    (h : parse_range i neg = .ok r i') :
    ∃ mn mx, mn ≤ mx ∧ r = (if neg = true then RE.nrng mn mx else RE.rng mn mx) := by
  unfold parse_range at h
  cases h1 : read_element i with
  | fail s i2 => rw [h1] at h; cases h
  | ok mn i1 =>
    rw [h1] at h
    simp only at h
    cases h2 : (if peek i1 = 45 then
        if peekahead i1 ≠ 93 then read_element (eat i1) else CharRes.ok mn i1
      else CharRes.ok mn i1) with
    | fail s i2 => rw [h2] at h; cases h
    | ok mx i2 =>
      rw [h2] at h
      simp only at h
      by_cases hlt : mx < mn
      · rw [if_pos hlt] at h; cases h
      · rw [if_neg hlt] at h
        cases h
        exact ⟨mn, mx, by omega, rfl⟩

/-- C5: whenever the second endpoint of a class range is read to be strictly
below the first, `read_range` fails with the unordered-range status; every
range it accepts has ordered endpoints `mn ≤ mx` (as witnessed by the AST it
corresponds to); and compiling `"[z-a]"` fails with unordered range at end
offset 4. -/
theorem range_wellformed :
    (∀ i (st : StateArray) neg mn i1 mx i2,
      read_element i = .ok mn i1 → peek i1 = 45 → peekahead i1 ≠ 93 →
      read_element (eat i1) = .ok mx i2 → mx < mn →
      read_range i st neg = .fail .unorderedRange i2) ∧
    (∀ i (st : StateArray) neg i' st' nfa, read_range i st neg = .ok i' st' nfa →
      ∃ mn mx, mn ≤ mx ∧
        parse_range i neg = .ok (if neg = true then RE.nrng mn mx else RE.rng mn mx) i') ∧
    rerex_compile (bytes "[z-a]") = .fail .unorderedRange 4 := by
  refine ⟨?_, ?_, by decide⟩
  · intro i st neg mn i1 mx i2 he1 hd hd2 he2 hlt
    unfold read_range
    rw [he1]
    simp only
    rw [if_pos hd, if_pos hd2, he2]
    simp only
    rw [if_pos hlt]
    try rfl
  · intro i st neg i' st' nfa h
    rw [read_range_abs] at h
    cases hp : parse_range i neg with
    | fail s i2 => rw [hp] at h; cases h
    | out => exact absurd hp (parse_range_ne_out i neg)
    | ok r i2 =>
      rw [hp] at h
      cases h
      obtain ⟨mn, mx, hle, hr⟩ := parse_range_ok_shape hp
      exact ⟨mn, mx, hle, by rw [hr]⟩

/-- Witness for `range_wellformed`, at the range `z`–`a` of `"[z-a]"` (first
part) and the accepted range of `"[a-z]"` (second part). -/
theorem range_wellformed_witness :
    read_range ⟨bytes "[z-a]", 1⟩ [] false = .fail .unorderedRange ⟨bytes "[z-a]", 4⟩ ∧
    ∃ mn mx, mn ≤ mx ∧ parse_range ⟨bytes "[a-z]", 1⟩ false =
      .ok (if false = true then RE.nrng mn mx else RE.rng mn mx) ⟨bytes "[a-z]", 4⟩ := by
  constructor
  · exact range_wellformed.1 ⟨bytes "[z-a]", 1⟩ [] false 122 ⟨bytes "[z-a]", 2⟩ 97
      ⟨bytes "[z-a]", 4⟩ (by decide) (by decide) (by decide) (by decide) (by decide)
  · exact range_wellformed.2.1 ⟨bytes "[a-z]", 1⟩ [] false ⟨bytes "[a-z]", 4⟩
      [match_state, range_state 97 122 0] (make_automata 1 0) (by decide)

/-- C6 (amended): for every failing compilation with a status other than
unordered-range, the reported end offset is the cursor position of the
unconsumed byte whose reading triggered the status: that byte (0 standing
for the terminator) is non-printable for expected-char/expected-element, is
a special character for unexpected-special, is not the required `]`/`)` or
escapable character for the expected-x statuses, and is the terminator for
unexpected-end.  For unordered-range the offset is instead one past the
second endpoint of the range (`"[z-a]"` fails at offset 4, the second
endpoint having been read at offset 3).  The claim's concrete examples
hold. -/
theorem error_offset_explains :
    (∀ p st e, rerex_compile p = .fail st e → st ≠ .unorderedRange →
      ErrExplains p st e) ∧
    rerex_compile (bytes "(a") = .fail .expectedRparen 2 ∧
    rerex_compile (bytes "(") = .fail .unexpectedEnd 1 ∧
    rerex_compile (bytes "?") = .fail .unexpectedSpecial 0 ∧
    rerex_compile (bytes "[z-a]") = .fail .unorderedRange 4 := by
  refine ⟨?_, by decide, by decide, by decide, by decide⟩
  intro p st e h hst
  obtain ⟨i', hp, hoff, hstr⟩ := compile_fail_elim h
  have := (parse_err (compileFuel p)).2.2.2 hp hst
  rw [hstr, hoff] at this
  exact this

/-- Witness for `error_offset_explains` at `"(a"`. -/
theorem error_offset_explains_witness :
    rerex_compile (bytes "(a") = .fail .expectedRparen 2 ∧
    RerexStatus.expectedRparen ≠ RerexStatus.unorderedRange ∧
    ErrExplains (bytes "(a") .expectedRparen 2 :=
  ⟨by decide, by decide,
    error_offset_explains.1 (bytes "(a") .expectedRparen 2 (by decide) (by decide)⟩

/-- C7: whenever the expression parser succeeds consuming only part of the
pattern (trailing bytes no production accepts remain), `rerex_compile`
reports success with the partial end offset, and in particular does not
fail with unexpected-special; `"a)b"` compiles successfully with end
offset 1. -/
theorem trailing_junk :
    (∀ p r i', parse p = .ok r i' → i'.offset < List.length p →
      ∃ pat, rerex_compile p = .ok i'.offset pat ∧
        ∀ st e, rerex_compile p ≠ .fail st e) ∧
    ∃ pat, rerex_compile (bytes "a)b") = .ok 1 pat ∧ 1 < List.length (bytes "a)b") := by
  constructor
  · intro p r i' hp htrail
    have habs := compile_abs p
    rw [hp] at habs
    exact ⟨_, habs, fun st e hne => by rw [habs] at hne; cases hne⟩
  · exact ⟨⟨[split_state 0 0, match_state, range_state 97 97 1], 2⟩, by decide, by decide⟩

/-- Witness for `trailing_junk` at `"a)b"`. -/
theorem trailing_junk_witness :
    ∃ pat, rerex_compile (bytes "a)b") = .ok 1 pat ∧
      ∀ st e, rerex_compile (bytes "a)b") ≠ .fail st e := by
  have h := trailing_junk.1 (bytes "a)b") (RE.rng 97 97) ⟨bytes "a)b", 1⟩
    (by decide) (by decide)
  exact h

/-! ### Arena access toolkit -/

theorem getSt_append_lt (l : StateArray) (a : State) {j : Nat} (h : j < List.length l) :
    getSt (List.append l [a]) j = getSt l j := by
  simp only [getSt, List.append_eq]
  exact List.getD_append l [a] default j h

theorem getSt_append_self (l : StateArray) (a : State) :
    getSt (List.append l [a]) (List.length l) = a := by
  simp [getSt, List.append_eq, List.getD, List.getElem?_append_right]

theorem getSt_set_ne (l : StateArray) (a : State) {j k : Nat} (h : j ≠ k) :
    getSt (setSt l k a) j = getSt l j := by
  simp [getSt, setSt, List.getD, List.getElem?_set_ne (Ne.symm h)]

theorem getSt_set_self (l : StateArray) (a : State) {k : Nat} (h : k < List.length l) :
    getSt (setSt l k a) k = a := by
  simp [getSt, setSt, List.getD, List.getElem?_set_self, h]

theorem getSt_out {l : StateArray} {j : Nat} (h : List.length l ≤ j) :
    getSt l j = default :=
  List.getD_eq_default _ _ h

theorem length_setSt (l : StateArray) (k : Nat) (a : State) :
    List.length (setSt l k a) = List.length l := by
  simp [setSt]

theorem length_addSt (l : StateArray) (a : State) :
    List.length (List.append l [a]) = List.length l + 1 := by
  simp

/-! ### Path semantics toolkit -/

theorem Steps.trans {A : List State} {s t u : Nat} {w1 w2 : List Nat} {n m : Nat}
    (h1 : Steps A s w1 t n) (h2 : Steps A t w2 u m) :
    Steps A s (w1 ++ w2) u (n + m) := by
  induction h1 with
  | refl => simpa using h2
  | eps hne hlt hsp hnx _ ih =>
    exact (Nat.add_right_comm _ 1 m) ▸ Steps.eps hne hlt hsp hnx (ih h2)
  | char hne hlt hmin hmax hc _ ih =>
    exact (Nat.add_right_comm _ 1 m) ▸ Steps.char hne hlt hmin hmax hc (ih h2)

/-- Paths only traverse states of the arena; outside indices admit only the
empty path. -/
theorem Steps.out {A : List State} {s t : Nat} {w : List Nat} {n : Nat}
    (h : Steps A s w t n) (hs : List.length A ≤ s) : w = [] ∧ t = s ∧ n = 0 := by
  cases h with
  | refl => exact ⟨rfl, rfl, rfl⟩
  | eps hne hlt => omega
  | char hne hlt => omega

/-- Case analysis for a path out of a known split state. -/
theorem Steps.split_elim {A : List State} {s t : Nat} {w : List Nat} {n : Nat}
    (h : Steps A s w t n)
    (hsp : (getSt A s).min = RSPLIT) :
    (w = [] ∧ t = s ∧ n = 0) ∨
    ∃ m, n = m + 1 ∧
      (Steps A (getSt A s).next1 w t m ∨ Steps A (getSt A s).next2 w t m) := by
  cases h with
  | refl => exact Or.inl ⟨rfl, rfl, rfl⟩
  | eps hne hlt2 hsp2 hnx hrest =>
    rcases hnx with h1 | h1
    · exact Or.inr ⟨_, rfl, Or.inl (h1 ▸ hrest)⟩
    · exact Or.inr ⟨_, rfl, Or.inr (h1 ▸ hrest)⟩
  | char hne hlt2 hmin hmax hc hrest =>
    rw [hsp] at hmin
    simp only [RSPLIT] at hmin
    omega

/-- Case analysis for a path out of a known labelled (range) state. -/
theorem Steps.range_elim {A : List State} {s t : Nat} {w : List Nat} {n : Nat}
    (h : Steps A s w t n) (hrm : (getSt A s).min ≠ RSPLIT) :
    (w = [] ∧ t = s ∧ n = 0) ∨
    ∃ c w' m, w = c :: w' ∧ n = m + 1 ∧ (getSt A s).min ≤ c ∧ c ≤ (getSt A s).max ∧
      c ≤ 255 ∧ Steps A (getSt A s).next1 w' t m := by
  cases h with
  | refl => exact Or.inl ⟨rfl, rfl, rfl⟩
  | eps hne hlt2 hsp2 hnx hrest => exact absurd hsp2 hrm
  | char hne hlt2 hmin hmax hc hrest =>
    exact Or.inr ⟨_, _, _, rfl, rfl, hmin, hmax, hc, hrest⟩

/-- A path out of a matching state under a byte bound is empty. -/
theorem Steps.match_elim {A : List State} {s t : Nat} {w : List Nat} {n : Nat}
    (h : Steps A s w t n) (hrm : (getSt A s).min = RMATCH) :
    w = [] ∧ t = s ∧ n = 0 := by
  cases h with
  | refl => exact ⟨rfl, rfl, rfl⟩
  | eps hne hlt2 hsp2 hnx hrest => rw [hrm] at hsp2; simp [RMATCH, RSPLIT] at hsp2
  | char hne hlt2 hmin hmax hc hrest =>
    rw [hrm] at hmin
    simp [RMATCH] at hmin
    omega

@[simp] theorem make_automata_start (s e : Nat) : (make_automata s e).start = s := rfl
@[simp] theorem make_automata_last (s e : Nat) : (make_automata s e).last = e := rfl
@[simp] theorem split_state_next1 (x y : Nat) : (split_state x y).next1 = x := rfl
@[simp] theorem split_state_next2 (x y : Nat) : (split_state x y).next2 = y := rfl
@[simp] theorem split_state_min (x y : Nat) : (split_state x y).min = RSPLIT := rfl
@[simp] theorem range_state_next1 (lo hi nx : Nat) : (range_state lo hi nx).next1 = nx := rfl
@[simp] theorem range_state_next2 (lo hi nx : Nat) : (range_state lo hi nx).next2 = 0 := rfl
@[simp] theorem range_state_min (lo hi nx : Nat) : (range_state lo hi nx).min = lo := rfl
@[simp] theorem range_state_max (lo hi nx : Nat) : (range_state lo hi nx).max = hi := rfl
@[simp] theorem match_state_min : match_state.min = RMATCH := rfl
@[simp] theorem match_state_next1 : match_state.next1 = 0 := rfl
@[simp] theorem match_state_next2 : match_state.next2 = 0 := rfl

theorem RMATCH_lt_RSPLIT : RMATCH < RSPLIT := by decide

theorem is_trivial_iff (A : List State) (nfa : Automata) :
    is_trivial A nfa = true ↔
      (getSt A nfa.start).min < RMATCH ∧ (getSt A nfa.start).next1 = nfa.last := by
  simp [is_trivial]

theorem Steps.zero_elim {A : List State} {w : List Nat} {t n : Nat}
    (h : Steps A 0 w t n) : w = [] ∧ t = 0 ∧ n = 0 := by
  cases h with
  | refl => exact ⟨rfl, rfl, rfl⟩
  | eps hne => exact absurd rfl hne
  | char hne => exact absurd rfl hne

/-- Transport of all fragment facts to an arena agreeing on the region. -/
theorem GoodFrag_mono {A A2 : List State} {n0 n1 : Nat} {r : RE} {s e : Nat}
    (h : GoodFrag A n0 n1 r s e) (hlen : n1 ≤ List.length A2)
    (hag : ∀ j, n0 ≤ j → j < n1 → getSt A2 j = getSt A j) :
    GoodFrag A2 n0 n1 r s e := by
  obtain ⟨⟨h1, h2, h3, h4, h5, h6, h7, h8, h9⟩, hsem, htriv, hpr⟩ := h
  refine ⟨⟨h1, h2, h3, h4, h5, h6, hlen, ?_, ?_⟩, ?_, ?_, ?_⟩
  · rw [hag e h3 h4]; exact h8
  · intro j hj1 hj2
    rw [hag j hj1 hj2]
    exact h9 j hj1 hj2
  · intro A' hext
    refine hsem A' ⟨hext.1, ?_⟩
    intro j hj1 hj2 hje
    rw [hext.2 j hj1 hj2 hje]
    exact hag j hj1 hj2
  · rw [is_trivial_iff] at htriv ⊢
    rw [make_automata_start, make_automata_last] at htriv ⊢
    rw [hag s h1 h2]
    exact htriv
  · intro j hj1 hj2
    rw [hag j hj1 hj2]
    exact hpr j hj1 hj2

/-! ### Correctness of the fragment composition operators -/

theorem concatenate_good {C : List State} {n0 n1 : Nat} {ra rb : RE} {sa ea sb eb : Nat}
    (ha : GoodFrag C n0 n1 ra sa ea)
    (hb : GoodFrag C n1 (List.length C) rb sb eb) :
    ∃ C', concatenate C (make_automata sa ea) (make_automata sb eb) =
        (C', make_automata sa eb) ∧
      List.length C' = List.length C ∧
      (∀ j, j < n0 → getSt C' j = getSt C j) ∧
      GoodFrag C' n0 (List.length C) (.cat ra rb) sa eb := by
  obtain ⟨⟨ha1, ha2, ha3, ha4, ha5, ha6, ha7, ha8, ha9⟩, hasem, hatriv, hapr⟩ := ha
  obtain ⟨⟨hb1, hb2, hb3, hb4, hb5, hb6, hb7, hb8, hb9⟩, hbsem, hbtriv, hbpr⟩ := hb
  unfold concatenate
  simp only [make_automata_start, make_automata_last]
  by_cases htriv : is_trivial C (make_automata sa ea) = true
  · -- trivial optimization: a is a single range state, relink it to b's start
    rw [if_pos htriv]
    obtain ⟨lo, hi, hra, hshape⟩ := hatriv.mp htriv
    have hsa_lt : sa < List.length C := by omega
    have hsa_ne_eb : sa ≠ eb := by omega
    have hnew : getSt (setSt C sa { getSt C sa with next1 := sb }) sa =
        range_state lo hi sb := by
      rw [getSt_set_self _ _ hsa_lt, hshape]
      rfl
    have hlo_lt : lo < RMATCH := by
      have := (is_trivial_iff C (make_automata sa ea)).mp htriv
      rw [make_automata_start, hshape] at this
      simpa using this.1
    have hlo_num : lo < 57344 := by simpa [RMATCH] using hlo_lt
    refine ⟨_, rfl, by simp [setSt], fun j hj => getSt_set_ne _ _ (by omega), ?_, ?_, ?_, ?_⟩
    · -- FragWF
      refine ⟨by omega, by omega, by omega, by omega, by omega, ha6,
        by simp [setSt], ?_, ?_⟩
      · rw [getSt_set_ne _ _ (Ne.symm hsa_ne_eb)]
        exact hb8
      · intro j hj1 hj2
        by_cases hjs : j = sa
        · subst hjs
          rw [hnew]
          simp only [range_state_next1, range_state_next2]
          exact ⟨Or.inr ⟨by omega, hb2⟩, by simp⟩
        · rw [getSt_set_ne _ _ hjs]
          by_cases hjn : j < n1
          · have := ha9 j hj1 hjn
            omega
          · have := hb9 j (by omega) hj2
            omega
    · -- FragSem
      intro A' hext
      have hA'sa : getSt A' sa = range_state lo hi sb := by
        rw [hext.2 sa ha1 (by omega) hsa_ne_eb, hnew]
      have hbext : Ext A' C n1 (List.length C) eb := by
        refine ⟨hext.1, fun j hj1 hj2 hje => ?_⟩
        rw [hext.2 j (by omega) hj2 hje]
        exact getSt_set_ne _ _ (by omega)
      have hbA := hbsem A' hbext
      constructor
      · intro w t n hst hstop
        rcases hst.range_elim (by rw [hA'sa]; simp only [range_state_min, RSPLIT]; omega) with
          ⟨hw, ht, hn⟩ | ⟨c, w', m, hw, hn, hmin, hmax, hc, hrest⟩
        · subst ht
          have hmm := hstop.2.2
          rw [hA'sa] at hmm
          simp only [range_state_min, RMATCH] at hmm
          omega
        · rw [hA'sa] at hmin hmax hrest
          simp only [range_state_min, range_state_max, range_state_next1] at hmin hmax hrest
          obtain ⟨w1, w2, m', hw', hl1, hs2, hm'⟩ := hbA.1 w' t m hrest hstop
          refine ⟨c :: w1, w2, m', by simp [hw, hw'], ?_, hs2, by omega⟩
          have : Lang (RE.cat ra rb) ([c] ++ w1) :=
            Lang.cat (by rw [hra]; exact Lang.rng hmin hmax hc) hl1
          simpa using this
      · intro w hw
        cases hw with
        | cat hw1 hw2 =>
          rename_i w1 w2
          rw [hra] at hw1
          cases hw1 with
          | rng hmin hmax hc =>
            obtain ⟨n, hn⟩ := hbA.2 w2 hw2
            refine ⟨n + 1, ?_⟩
            have : Steps A' sa (_ :: w2) eb (n + 1) :=
              Steps.char (by omega) (by have := hext.1; omega)
                (by rw [hA'sa]; simpa using hmin)
                (by rw [hA'sa]; simpa using hmax) hc
                (by rw [hA'sa]; simpa using hn)
            simpa using this
    · -- is_trivial characterization: never trivial (rewritten start no longer
      -- points at the fragment end)
      constructor
      · intro hh
        rw [is_trivial_iff] at hh
        rw [make_automata_start, make_automata_last, hnew] at hh
        simp only [range_state_next1] at hh
        omega
      · intro ⟨lo', hi', hr', _⟩
        cases hr'
    · -- printable bounds
      intro j hj1 hj2
      by_cases hjs : j = sa
      · subst hjs
        rw [hnew]
        have hb := hapr j ha1 ha2
        rw [hshape] at hb
        simp only [range_state_min, range_state_max] at hb ⊢
        intro _
        exact hb hlo_lt
      · rw [getSt_set_ne _ _ hjs]
        intro hmin
        by_cases hjn : j < n1
        · exact hapr j hj1 hjn hmin
        · exact hbpr j (by omega) hj2 hmin
  · -- general case: overwrite a's end with a split to b's start
    rw [if_neg htriv]
    have hea_lt : ea < List.length C := by omega
    have hea_ne_eb : ea ≠ eb := by omega
    have hnew : getSt (setSt C ea (split_state sb NO_STATE)) ea =
        split_state sb NO_STATE := getSt_set_self _ _ hea_lt
    refine ⟨_, rfl, by simp [setSt], fun j hj => getSt_set_ne _ _ (by omega), ?_, ?_, ?_, ?_⟩
    · -- FragWF
      refine ⟨by omega, by omega, by omega, by omega, by omega, ha6,
        by simp [setSt], ?_, ?_⟩
      · rw [getSt_set_ne _ _ (Ne.symm hea_ne_eb)]
        exact hb8
      · intro j hj1 hj2
        by_cases hje : j = ea
        · subst hje
          rw [hnew]
          simp only [split_state_next1, split_state_next2]
          exact ⟨Or.inr ⟨by omega, hb2⟩, by simp [NO_STATE]⟩
        · rw [getSt_set_ne _ _ hje]
          by_cases hjn : j < n1
          · have := ha9 j hj1 hjn
            omega
          · have := hb9 j (by omega) hj2
            omega
    · -- FragSem
      intro A' hext
      have hA'ea : getSt A' ea = split_state sb NO_STATE := by
        rw [hext.2 ea ha3 (by omega) hea_ne_eb, hnew]
      have haext : Ext A' C n0 n1 ea := by
        refine ⟨by have := hext.1; omega, fun j hj1 hj2 hje => ?_⟩
        rw [hext.2 j hj1 (by omega) (by omega)]
        exact getSt_set_ne _ _ hje
      have hbext : Ext A' C n1 (List.length C) eb := by
        refine ⟨hext.1, fun j hj1 hj2 hje => ?_⟩
        rw [hext.2 j (by omega) hj2 hje]
        exact getSt_set_ne _ _ (by omega)
      have haA := hasem A' haext
      have hbA := hbsem A' hbext
      constructor
      · intro w t n hst hstop
        obtain ⟨w1, w2, m, hw, hl1, hs2, hm⟩ := haA.1 w t n hst hstop
        rcases hs2.split_elim (by rw [hA'ea]; simp) with
          ⟨hw2, ht, hn2⟩ | ⟨m', hm', hnext⟩
        · subst ht
          have hmm := hstop.2.2
          rw [hA'ea] at hmm
          simp [RMATCH, RSPLIT] at hmm
        · rw [hA'ea] at hnext
          simp only [split_state_next1, split_state_next2, NO_STATE] at hnext
          rcases hnext with hnx | hnx
          · obtain ⟨x1, x2, m'', hw2', hlx, hsx, hm''⟩ := hbA.1 w2 t m' hnx hstop
            refine ⟨w1 ++ x1, x2, m'', by rw [hw, hw2']; simp, Lang.cat hl1 hlx, hsx,
              by omega⟩
          · obtain ⟨hw2, ht, _⟩ := hnx.zero_elim
            subst ht
            exact absurd rfl hstop.1
      · intro w hw
        cases hw with
        | cat hw1 hw2 =>
          rename_i w1 w2
          obtain ⟨n1', hn1⟩ := haA.2 w1 hw1
          obtain ⟨n2', hn2⟩ := hbA.2 w2 hw2
          refine ⟨n1' + (n2' + 1), ?_⟩
          refine hn1.trans ?_
          exact Steps.eps (by omega) (by have := hext.1; omega) (by rw [hA'ea]; simp)
            (Or.inl (by rw [hA'ea]; simp)) hn2
    · -- is_trivial characterization
      constructor
      · intro hh
        rw [is_trivial_iff] at hh htriv
        rw [make_automata_start, make_automata_last] at hh htriv
        rw [getSt_set_ne _ _ (by omega : sa ≠ ea)] at hh
        have := ha9 sa ha1 ha2
        refine absurd ⟨hh.1, ?_⟩ htriv
        omega
      · intro ⟨lo', hi', hr', _⟩
        cases hr'
    · -- printable bounds
      intro j hj1 hj2
      by_cases hje : j = ea
      · subst hje
        rw [hnew]
        simp only [split_state_min]
        intro hmin
        exact absurd hmin (by simp [RMATCH, RSPLIT])
      · rw [getSt_set_ne _ _ hje]
        intro hmin
        by_cases hjn : j < n1
        · exact hapr j hj1 hjn hmin
        · exact hbpr j (by omega) hj2 hmin

theorem alternate_good {C : List State} {n0 n1 : Nat} {ra rb : RE} {sa ea sb eb : Nat}
    (ha : GoodFrag C n0 n1 ra sa ea)
    (hb : GoodFrag C n1 (List.length C) rb sb eb) :
    ∃ C' s' e', alternate C (make_automata sa ea) (make_automata sb eb) =
        (C', make_automata s' e') ∧
      List.length C < List.length C' ∧
      (∀ j, j < n0 → getSt C' j = getSt C j) ∧
      GoodFrag C' n0 (List.length C') (.alt ra rb) s' e' := by
  have hlenC1 : List.length (List.append C [split_state sa sb]) = List.length C + 1 :=
    length_addSt C _
  have hag1 : ∀ j, j < List.length C →
      getSt (List.append C [split_state sa sb]) j = getSt C j :=
    fun j hj => getSt_append_lt C _ hj
  have hsp : getSt (List.append C [split_state sa sb]) (List.length C) =
      split_state sa sb := getSt_append_self C _
  have han1 : n1 ≤ List.length C := ha.1.2.2.2.2.2.2.1
  obtain ⟨⟨ha1, ha2, ha3, ha4, ha5, ha6, ha7, ha8, ha9⟩, hasem, hatriv, hapr⟩ :=
    GoodFrag_mono ha (by omega) (fun j _ hj => hag1 j (by omega))
  obtain ⟨⟨hb1, hb2, hb3, hb4, hb5, hb6, hb7, hb8, hb9⟩, hbsem, hbtriv, hbpr⟩ :=
    GoodFrag_mono hb (by omega) (fun j _ hj => hag1 j hj)
  unfold alternate
  simp only [add_state, make_automata_start, make_automata_last]
  by_cases htla : is_trivial (List.append C [split_state sa sb]) (make_automata sa ea) = true
  · -- trivial optimization on a: relink a's single range state to b's end
    rw [if_pos htla]
    obtain ⟨lo, hi, hra, hshape⟩ := hatriv.mp htla
    have hlo_lt : lo < RMATCH := by
      have := (is_trivial_iff _ (make_automata sa ea)).mp htla
      rw [make_automata_start, hshape] at this
      simpa using this.1
    have hlo_num : lo < 57344 := by simpa [RMATCH] using hlo_lt
    have hsa_lt : sa < List.length C + 1 := by omega
    have hnew : getSt (setSt (List.append C [split_state sa sb]) sa
        { getSt (List.append C [split_state sa sb]) sa with next1 := eb }) sa =
        range_state lo hi eb := by
      rw [getSt_set_self _ _ (by omega), hshape]
      rfl
    refine ⟨_, List.length C, eb, rfl, by simp [setSt], ?_, ?_, ?_, ?_, ?_⟩
    · intro j hj
      rw [getSt_set_ne _ _ (by omega : j ≠ sa), hag1 j (by omega)]
    · -- FragWF
      refine ⟨by omega, by simp only [length_setSt, hlenC1]; omega, by omega,
        by simp only [length_setSt, hlenC1]; omega, by omega, ha6, le_refl _, ?_, ?_⟩
      · rw [getSt_set_ne _ _ (by omega : eb ≠ sa)]
        exact hb8
      · intro j hj1 hj2
        simp only [length_setSt, hlenC1] at hj2
        by_cases hjs : j = sa
        · subst hjs
          rw [hnew]
          simp only [range_state_next1, range_state_next2, length_setSt, hlenC1]
          exact ⟨Or.inr ⟨by omega, by omega⟩, by simp⟩
        · rw [getSt_set_ne _ _ hjs]
          simp only [length_setSt, hlenC1]
          by_cases hjsp : j = List.length C
          · subst hjsp
            rw [hsp]
            simp only [split_state_next1, split_state_next2]
            omega
          · by_cases hjn : j < n1
            · have := ha9 j hj1 hjn
              omega
            · have := hb9 j (by omega) (by omega)
              omega
    · -- FragSem
      intro A' hext
      simp only [length_setSt, hlenC1] at hext
      have hA'sp : getSt A' (List.length C) = split_state sa sb := by
        rw [hext.2 (List.length C) (by omega) (by omega) (by omega),
          getSt_set_ne _ _ (by omega : List.length C ≠ sa)]
        exact hsp
      have hA'sa : getSt A' sa = range_state lo hi eb := by
        rw [hext.2 sa (by omega) (by omega) (by omega), hnew]
      have hbext : Ext A' (List.append C [split_state sa sb]) n1 (List.length C) eb := by
        refine ⟨by have := hext.1; omega, fun j hj1 hj2 hje => ?_⟩
        rw [hext.2 j (by omega) (by omega) hje]
        exact getSt_set_ne _ _ (by omega)
      have hbA := hbsem A' hbext
      constructor
      · intro w t n hst hstop
        rcases hst.split_elim (by rw [hA'sp]; simp) with
          ⟨hw, ht, hn⟩ | ⟨m, hm, hnext⟩
        · subst ht
          have hmm := hstop.2.2
          rw [hA'sp] at hmm
          simp [RMATCH, RSPLIT] at hmm
        · rw [hA'sp] at hnext
          simp only [split_state_next1, split_state_next2] at hnext
          rcases hnext with hnx | hnx
          · rcases hnx.range_elim (by rw [hA'sa]; simp only [range_state_min, RSPLIT]; omega)
              with ⟨hw2, ht, hn2⟩ | ⟨c, w', m', hw2, hn2, hmin, hmax, hc, hrest⟩
            · subst ht
              have hmm := hstop.2.2
              rw [hA'sa] at hmm
              simp only [range_state_min, RMATCH] at hmm
              omega
            · rw [hA'sa] at hmin hmax hrest
              simp only [range_state_min, range_state_max, range_state_next1]
                at hmin hmax hrest
              refine ⟨[c], w', m', by simp [hw2], ?_, hrest, by omega⟩
              exact Lang.altL (by rw [hra]; exact Lang.rng hmin hmax hc)
          · obtain ⟨w1, w2, m'', hw', hl1, hs2, hm''⟩ := hbA.1 w t m hnx hstop
            exact ⟨w1, w2, m'', hw', Lang.altR hl1, hs2, by omega⟩
      · intro w hw
        cases hw with
        | altL hw1 =>
          rw [hra] at hw1
          cases hw1 with
          | rng hmin hmax hc =>
            refine ⟨2, ?_⟩
            refine Steps.eps (by omega) (by have := hext.1; omega)
              (by rw [hA'sp]; simp) (Or.inl (by rw [hA'sp])) ?_
            have : Steps A' sa ([_] ++ []) eb (0 + 1) :=
              Steps.char (by omega) (by have := hext.1; omega)
                (by rw [hA'sa]; simpa using hmin)
                (by rw [hA'sa]; simpa using hmax) hc
                (by rw [hA'sa]; exact Steps.refl eb)
            simpa using this
        | altR hw1 =>
          obtain ⟨n, hn⟩ := hbA.2 w hw1
          refine ⟨n + 1, ?_⟩
          exact Steps.eps (by omega) (by have := hext.1; omega)
            (by rw [hA'sp]; simp) (Or.inr (by rw [hA'sp]; simp)) hn
    · -- is_trivial: the composite starts at the new split state
      constructor
      · intro hh
        rw [is_trivial_iff] at hh
        rw [make_automata_start, getSt_set_ne _ _ (by omega : List.length C ≠ sa), hsp]
          at hh
        simp [RMATCH, RSPLIT] at hh
      · intro ⟨lo', hi', hr', _⟩
        cases hr'
    · -- printable bounds
      intro j hj1 hj2
      simp only [length_setSt, hlenC1] at hj2
      by_cases hjs : j = sa
      · subst hjs
        rw [hnew]
        have hbp := hapr j ha1 ha2
        rw [hshape] at hbp
        simp only [range_state_min, range_state_max] at hbp ⊢
        intro _
        exact hbp hlo_lt
      · rw [getSt_set_ne _ _ hjs]
        by_cases hjsp : j = List.length C
        · subst hjsp
          rw [hsp]
          simp only [split_state_min]
          intro hmm
          exact absurd hmm (by simp [RMATCH, RSPLIT])
        · intro hmm
          by_cases hjn : j < n1
          · exact hapr j hj1 hjn hmm
          · exact hbpr j (by omega) (by omega) hmm
  · rw [if_neg htla]
    by_cases htlb : is_trivial (List.append C [split_state sa sb]) (make_automata sb eb) = true
    · -- trivial optimization on b: relink b's single range state to a's end
      rw [if_pos htlb]
      obtain ⟨lo, hi, hrb, hshape⟩ := hbtriv.mp htlb
      have hlo_lt : lo < RMATCH := by
        have := (is_trivial_iff _ (make_automata sb eb)).mp htlb
        rw [make_automata_start, hshape] at this
        simpa using this.1
      have hlo_num : lo < 57344 := by simpa [RMATCH] using hlo_lt
      have hnew : getSt (setSt (List.append C [split_state sa sb]) sb
          { getSt (List.append C [split_state sa sb]) sb with next1 := ea }) sb =
          range_state lo hi ea := by
        rw [getSt_set_self _ _ (by omega), hshape]
        rfl
      refine ⟨_, List.length C, ea, rfl, by simp [setSt], ?_, ?_, ?_, ?_, ?_⟩
      · intro j hj
        rw [getSt_set_ne _ _ (by omega : j ≠ sb), hag1 j (by omega)]
      · -- FragWF
        refine ⟨by omega, by simp only [length_setSt, hlenC1]; omega, by omega,
          by simp only [length_setSt, hlenC1]; omega, by omega, ha6, le_refl _, ?_, ?_⟩
        · rw [getSt_set_ne _ _ (by omega : ea ≠ sb)]
          exact ha8
        · intro j hj1 hj2
          simp only [length_setSt, hlenC1] at hj2
          by_cases hjs : j = sb
          · subst hjs
            rw [hnew]
            simp only [range_state_next1, range_state_next2, length_setSt, hlenC1]
            exact ⟨Or.inr ⟨by omega, by omega⟩, by simp⟩
          · rw [getSt_set_ne _ _ hjs]
            simp only [length_setSt, hlenC1]
            by_cases hjsp : j = List.length C
            · subst hjsp
              rw [hsp]
              simp only [split_state_next1, split_state_next2]
              omega
            · by_cases hjn : j < n1
              · have := ha9 j hj1 hjn
                omega
              · have := hb9 j (by omega) (by omega)
                omega
      · -- FragSem
        intro A' hext
        simp only [length_setSt, hlenC1] at hext
        have hA'sp : getSt A' (List.length C) = split_state sa sb := by
          rw [hext.2 (List.length C) (by omega) (by omega) (by omega),
            getSt_set_ne _ _ (by omega : List.length C ≠ sb)]
          exact hsp
        have hA'sb : getSt A' sb = range_state lo hi ea := by
          rw [hext.2 sb (by omega) (by omega) (by omega), hnew]
        have haext : Ext A' (List.append C [split_state sa sb]) n0 n1 ea := by
          refine ⟨by have := hext.1; omega, fun j hj1 hj2 hje => ?_⟩
          rw [hext.2 j (by omega) (by omega) hje]
          exact getSt_set_ne _ _ (by omega)
        have haA := hasem A' haext
        constructor
        · intro w t n hst hstop
          rcases hst.split_elim (by rw [hA'sp]; simp) with
            ⟨hw, ht, hn⟩ | ⟨m, hm, hnext⟩
          · subst ht
            have hmm := hstop.2.2
            rw [hA'sp] at hmm
            simp [RMATCH, RSPLIT] at hmm
          · rw [hA'sp] at hnext
            simp only [split_state_next1, split_state_next2] at hnext
            rcases hnext with hnx | hnx
            · obtain ⟨w1, w2, m'', hw', hl1, hs2, hm''⟩ := haA.1 w t m hnx hstop
              exact ⟨w1, w2, m'', hw', Lang.altL hl1, hs2, by omega⟩
            · rcases hnx.range_elim (by rw [hA'sb]; simp only [range_state_min, RSPLIT]; omega)
                with ⟨hw2, ht, hn2⟩ | ⟨c, w', m', hw2, hn2, hmin, hmax, hc, hrest⟩
              · subst ht
                have hmm := hstop.2.2
                rw [hA'sb] at hmm
                simp only [range_state_min, RMATCH] at hmm
                omega
              · rw [hA'sb] at hmin hmax hrest
                simp only [range_state_min, range_state_max, range_state_next1]
                  at hmin hmax hrest
                refine ⟨[c], w', m', by simp [hw2], ?_, hrest, by omega⟩
                exact Lang.altR (by rw [hrb]; exact Lang.rng hmin hmax hc)
        · intro w hw
          cases hw with
          | altL hw1 =>
            obtain ⟨n, hn⟩ := haA.2 w hw1
            refine ⟨n + 1, ?_⟩
            exact Steps.eps (by omega) (by have := hext.1; omega)
              (by rw [hA'sp]; simp) (Or.inl (by rw [hA'sp]; simp)) hn
          | altR hw1 =>
            rw [hrb] at hw1
            cases hw1 with
            | rng hmin hmax hc =>
              refine ⟨2, ?_⟩
              refine Steps.eps (by omega) (by have := hext.1; omega)
                (by rw [hA'sp]; simp) (Or.inr (by rw [hA'sp])) ?_
              have : Steps A' sb ([_] ++ []) ea (0 + 1) :=
                Steps.char (by omega) (by have := hext.1; omega)
                  (by rw [hA'sb]; simpa using hmin)
                  (by rw [hA'sb]; simpa using hmax) hc
                  (by rw [hA'sb]; exact Steps.refl ea)
              simpa using this
      · -- is_trivial: the composite starts at the new split state
        constructor
        · intro hh
          rw [is_trivial_iff] at hh
          rw [make_automata_start, getSt_set_ne _ _ (by omega : List.length C ≠ sb), hsp]
            at hh
          simp [RMATCH, RSPLIT] at hh
        · intro ⟨lo', hi', hr', _⟩
          cases hr'
      · -- printable bounds
        intro j hj1 hj2
        simp only [length_setSt, hlenC1] at hj2
        by_cases hjs : j = sb
        · subst hjs
          rw [hnew]
          have hbp := hbpr j hb1 hb2
          rw [hshape] at hbp
          simp only [range_state_min, range_state_max] at hbp ⊢
          intro _
          exact hbp hlo_lt
        · rw [getSt_set_ne _ _ hjs]
          by_cases hjsp : j = List.length C
          · subst hjsp
            rw [hsp]
            simp only [split_state_min]
            intro hmm
            exact absurd hmm (by simp [RMATCH, RSPLIT])
          · intro hmm
            by_cases hjn : j < n1
            · exact hapr j hj1 hjn hmm
            · exact hbpr j (by omega) (by omega) hmm
    · -- general case: append a fresh match state and relink both ends to it
      rw [if_neg htlb]
      simp only [hlenC1]
      set C4 : StateArray := setSt (setSt
          (List.append (List.append C [split_state sa sb]) [match_state]) ea
          (split_state (List.length C + 1) NO_STATE)) eb
          (split_state (List.length C + 1) NO_STATE) with hC4
      clear_value C4
      have heaneb : ea ≠ eb := by omega
      have hlenC4 : List.length C4 = List.length C + 2 := by
        simp only [hC4, length_setSt, length_addSt, hlenC1]
      have hg4 : ∀ j, j < List.length C → j ≠ ea → j ≠ eb →
          getSt C4 j = getSt (List.append C [split_state sa sb]) j := by
        intro j hj hja hjb
        rw [hC4, getSt_set_ne _ _ hjb, getSt_set_ne _ _ hja,
          getSt_append_lt _ _ (by omega : j < List.length (List.append C [split_state sa sb]))]
      have hsp4 : getSt C4 (List.length C) = split_state sa sb := by
        rw [hC4, getSt_set_ne _ _ (by omega : List.length C ≠ eb),
          getSt_set_ne _ _ (by omega : List.length C ≠ ea),
          getSt_append_lt _ _
            (by omega : List.length C < List.length (List.append C [split_state sa sb]))]
        exact hsp
      have he4 : getSt C4 (List.length C + 1) = match_state := by
        rw [hC4, getSt_set_ne _ _ (by omega : List.length C + 1 ≠ eb),
          getSt_set_ne _ _ (by omega : List.length C + 1 ≠ ea)]
        have h := getSt_append_self (List.append C [split_state sa sb]) match_state
        rw [hlenC1] at h
        exact h
      have hea4 : getSt C4 ea = split_state (List.length C + 1) NO_STATE := by
        rw [hC4, getSt_set_ne _ _ heaneb,
          getSt_set_self _ _ (by simp only [length_addSt, hlenC1]; omega)]
      have heb4 : getSt C4 eb = split_state (List.length C + 1) NO_STATE := by
        rw [hC4, getSt_set_self _ _ (by simp only [length_setSt, length_addSt, hlenC1]; omega)]
      refine ⟨C4, List.length C, List.length C + 1, by rw [hC4], by omega, ?_, ?_, ?_, ?_, ?_⟩
      · intro j hj
        rw [hg4 j (by omega) (by omega) (by omega)]
        exact hag1 j (by omega)
      · -- FragWF
        refine ⟨by omega, by omega, by omega, by omega, by omega, ha6, le_refl _, he4, ?_⟩
        intro j hj1 hj2
        by_cases hje1 : j = ea
        · rw [hje1, hea4]
          simp only [split_state_next1, split_state_next2, NO_STATE]
          exact ⟨Or.inr ⟨by omega, by omega⟩, by simp⟩
        · by_cases hje2 : j = eb
          · rw [hje2, heb4]
            simp only [split_state_next1, split_state_next2, NO_STATE]
            exact ⟨Or.inr ⟨by omega, by omega⟩, by simp⟩
          · by_cases hjsp : j = List.length C
            · rw [hjsp, hsp4]
              simp only [split_state_next1, split_state_next2]
              omega
            · by_cases hjm : j = List.length C + 1
              · rw [hjm, he4]
                simp only [match_state_next1, match_state_next2, NO_STATE]
                exact ⟨by simp, by simp⟩
              · have hjlt : j < List.length C := by omega
                rw [hg4 j hjlt hje1 hje2]
                by_cases hjn : j < n1
                · have := ha9 j hj1 hjn
                  omega
                · have := hb9 j (by omega) (by omega)
                  omega
      · -- FragSem
        intro A' hext
        have hA'len := hext.1
        rw [hlenC4] at hA'len
        have hA'sp : getSt A' (List.length C) = split_state sa sb := by
          rw [hext.2 (List.length C) (by omega) (by omega) (by omega), hsp4]
        have hA'ea : getSt A' ea = split_state (List.length C + 1) NO_STATE := by
          rw [hext.2 ea (by omega) (by omega) (by omega), hea4]
        have hA'eb : getSt A' eb = split_state (List.length C + 1) NO_STATE := by
          rw [hext.2 eb (by omega) (by omega) (by omega), heb4]
        have haext : Ext A' (List.append C [split_state sa sb]) n0 n1 ea := by
          refine ⟨by omega, fun j hj1 hj2 hje => ?_⟩
          rw [hext.2 j (by omega) (by omega) (by omega)]
          exact hg4 j (by omega) hje (by omega)
        have hbext : Ext A' (List.append C [split_state sa sb]) n1 (List.length C) eb := by
          refine ⟨by omega, fun j hj1 hj2 hje => ?_⟩
          rw [hext.2 j (by omega) (by omega) (by omega)]
          exact hg4 j (by omega) (by omega) hje
        have haA := hasem A' haext
        have hbA := hbsem A' hbext
        constructor
        · intro w t n hst hstop
          rcases hst.split_elim (by rw [hA'sp]; simp) with
            ⟨hw, ht, hn⟩ | ⟨m, hm, hnext⟩
          · subst ht
            have hmm := hstop.2.2
            rw [hA'sp] at hmm
            simp [RMATCH, RSPLIT] at hmm
          · rw [hA'sp] at hnext
            simp only [split_state_next1, split_state_next2] at hnext
            rcases hnext with hnx | hnx
            · obtain ⟨w1, w2, m2, hw', hl1, hs2, hm2⟩ := haA.1 w t m hnx hstop
              rcases hs2.split_elim (by rw [hA'ea]; simp) with
                ⟨hw2e, hte, hne⟩ | ⟨m3, hm3, h3⟩
              · have hmm := hstop.2.2
                rw [hte, hA'ea] at hmm
                simp [RMATCH, RSPLIT] at hmm
              · rw [hA'ea] at h3
                simp only [split_state_next1, split_state_next2, NO_STATE] at h3
                rcases h3 with h3 | h3
                · exact ⟨w1, w2, m3, hw', Lang.altL hl1, h3, by omega⟩
                · obtain ⟨_, ht0, _⟩ := h3.zero_elim
                  exact absurd ht0 hstop.1
            · obtain ⟨w1, w2, m2, hw', hl1, hs2, hm2⟩ := hbA.1 w t m hnx hstop
              rcases hs2.split_elim (by rw [hA'eb]; simp) with
                ⟨hw2e, hte, hne⟩ | ⟨m3, hm3, h3⟩
              · have hmm := hstop.2.2
                rw [hte, hA'eb] at hmm
                simp [RMATCH, RSPLIT] at hmm
              · rw [hA'eb] at h3
                simp only [split_state_next1, split_state_next2, NO_STATE] at h3
                rcases h3 with h3 | h3
                · exact ⟨w1, w2, m3, hw', Lang.altR hl1, h3, by omega⟩
                · obtain ⟨_, ht0, _⟩ := h3.zero_elim
                  exact absurd ht0 hstop.1
        · intro w hw
          cases hw with
          | altL hw1 =>
            obtain ⟨n, hn⟩ := haA.2 w hw1
            have hstep2 : Steps A' ea ([] : List Nat) (List.length C + 1) 1 :=
              Steps.eps (by omega) (by omega) (by rw [hA'ea]; simp)
                (Or.inl (by rw [hA'ea]; simp)) (Steps.refl _)
            have hfin : Steps A' (List.length C) (w ++ []) (List.length C + 1)
                (n + 1 + 1) :=
              Steps.eps (by omega) (by omega) (by rw [hA'sp]; simp)
                (Or.inl (by rw [hA'sp]; simp)) (hn.trans hstep2)
            exact ⟨n + 2, by simpa using hfin⟩
          | altR hw1 =>
            obtain ⟨n, hn⟩ := hbA.2 w hw1
            have hstep2 : Steps A' eb ([] : List Nat) (List.length C + 1) 1 :=
              Steps.eps (by omega) (by omega) (by rw [hA'eb]; simp)
                (Or.inl (by rw [hA'eb]; simp)) (Steps.refl _)
            have hfin : Steps A' (List.length C) (w ++ []) (List.length C + 1)
                (n + 1 + 1) :=
              Steps.eps (by omega) (by omega) (by rw [hA'sp]; simp)
                (Or.inr (by rw [hA'sp]; simp)) (hn.trans hstep2)
            exact ⟨n + 2, by simpa using hfin⟩
      · -- is_trivial: the composite starts at the new split state
        constructor
        · intro hh
          rw [is_trivial_iff] at hh
          rw [make_automata_start, hsp4] at hh
          simp [RMATCH, RSPLIT] at hh
        · intro ⟨lo', hi', hr', _⟩
          cases hr'
      · -- printable bounds
        intro j hj1 hj2 hmm
        by_cases hje1 : j = ea
        · rw [hje1, hea4] at hmm
          simp [RMATCH, RSPLIT] at hmm
        · by_cases hje2 : j = eb
          · rw [hje2, heb4] at hmm
            simp [RMATCH, RSPLIT] at hmm
          · by_cases hjsp : j = List.length C
            · rw [hjsp, hsp4] at hmm
              simp [RMATCH, RSPLIT] at hmm
            · by_cases hjm : j = List.length C + 1
              · rw [hjm, he4] at hmm
                simp [RMATCH] at hmm
              · have hjlt : j < List.length C := by
                  rw [hlenC4] at hj2
                  omega
                rw [hg4 j hjlt hje1 hje2] at hmm ⊢
                by_cases hjn : j < n1
                · exact hapr j hj1 hjn hmm
                · exact hbpr j (by omega) (by omega) hmm

/-- `star` of a good fragment occupying the whole region above `n0` yields a
good fragment for `.star ra`: a fresh match state and a fresh entry split are
appended, and the old end is turned into the loop-back split. -/
theorem star_good {C : List State} {n0 : Nat} {ra : RE} {sa ea : Nat}
    (ha : GoodFrag C n0 (List.length C) ra sa ea) :
    ∃ C' s' e', star C (make_automata sa ea) = (C', make_automata s' e') ∧
      List.length C < List.length C' ∧
      (∀ j, j < n0 → getSt C' j = getSt C j) ∧
      GoodFrag C' n0 (List.length C') (.star ra) s' e' := by
  obtain ⟨⟨ha1, ha2, ha3, ha4, ha5, ha6, ha7, ha8, ha9⟩, hasem, hatriv, hapr⟩ := ha
  unfold star
  simp only [add_state, length_addSt, make_automata_start, make_automata_last]
  set C3 : StateArray := setSt
      (List.append (List.append C [match_state]) [split_state sa (List.length C)]) ea
      (split_state sa (List.length C)) with hC3
  clear_value C3
  have hlenC3 : List.length C3 = List.length C + 2 := by
    simp only [hC3, length_setSt, length_addSt]
  have hg3 : ∀ j, j < List.length C → j ≠ ea → getSt C3 j = getSt C j := by
    intro j hj hja
    rw [hC3, getSt_set_ne _ _ hja,
      getSt_append_lt _ _ (by simp only [length_addSt]; omega),
      getSt_append_lt _ _ (by omega)]
  have hea3 : getSt C3 ea = split_state sa (List.length C) := by
    rw [hC3, getSt_set_self _ _ (by simp only [length_addSt]; omega)]
  have he3 : getSt C3 (List.length C) = match_state := by
    rw [hC3, getSt_set_ne _ _ (by omega : List.length C ≠ ea),
      getSt_append_lt _ _ (by simp only [length_addSt]; omega)]
    exact getSt_append_self C match_state
  have hs3 : getSt C3 (List.length C + 1) = split_state sa (List.length C) := by
    rw [hC3, getSt_set_ne _ _ (by omega : List.length C + 1 ≠ ea)]
    have h := getSt_append_self (List.append C [match_state]) (split_state sa (List.length C))
    rw [length_addSt] at h
    exact h
  refine ⟨C3, List.length C + 1, List.length C, by rw [hC3], by omega, ?_, ?_, ?_, ?_, ?_⟩
  · intro j hj
    exact hg3 j (by omega) (by omega)
  · -- FragWF
    refine ⟨by omega, by omega, by omega, by omega, by omega, ha6, le_refl _, he3, ?_⟩
    intro j hj1 hj2
    by_cases hje : j = ea
    · rw [hje, hea3]
      simp only [split_state_next1, split_state_next2]
      omega
    · by_cases hjm : j = List.length C
      · rw [hjm, he3]
        simp only [match_state_next1, match_state_next2, NO_STATE]
        exact ⟨by simp, by simp⟩
      · by_cases hjs : j = List.length C + 1
        · rw [hjs, hs3]
          simp only [split_state_next1, split_state_next2]
          omega
        · have hjlt : j < List.length C := by
            rw [hlenC3] at hj2
            omega
          rw [hg3 j hjlt hje]
          have := ha9 j hj1 hjlt
          omega
  · -- FragSem
    intro A hext
    have hAlen := hext.1
    rw [hlenC3] at hAlen
    have hAea : getSt A ea = split_state sa (List.length C) := by
      rw [hext.2 ea (by omega) (by omega) (by omega), hea3]
    have hAs : getSt A (List.length C + 1) = split_state sa (List.length C) := by
      rw [hext.2 (List.length C + 1) (by omega) (by omega) (by omega), hs3]
    have haext : Ext A C n0 (List.length C) ea := by
      refine ⟨by omega, fun j hj1 hj2 hje => ?_⟩
      rw [hext.2 j (by omega) (by omega) (by omega)]
      exact hg3 j hj2 hje
    have haA := hasem A haext
    have loopF : ∀ N w t m, m ≤ N → Steps A sa w t m → StopAt A t →
        ∃ w1 w2 k, w = w1 ++ w2 ∧ Lang (RE.star ra) w1 ∧
          Steps A (List.length C) w2 t k ∧ k ≤ m := by
      intro N
      induction N with
      | zero =>
        intro w t m hm hst hstop
        obtain ⟨w1, w2, m2, hw', hl1, hs2, hm2⟩ := haA.1 w t m hst hstop
        rcases hs2.split_elim (by rw [hAea]; simp) with
          ⟨hw2e, hte, hne⟩ | ⟨m3, hm3, h3⟩
        · have hmm := hstop.2.2
          rw [hte, hAea] at hmm
          simp [RMATCH, RSPLIT] at hmm
        · omega
      | succ N ih =>
        intro w t m hm hst hstop
        obtain ⟨w1, w2, m2, hw', hl1, hs2, hm2⟩ := haA.1 w t m hst hstop
        rcases hs2.split_elim (by rw [hAea]; simp) with
          ⟨hw2e, hte, hne⟩ | ⟨m3, hm3, h3⟩
        · have hmm := hstop.2.2
          rw [hte, hAea] at hmm
          simp [RMATCH, RSPLIT] at hmm
        · rw [hAea] at h3
          simp only [split_state_next1, split_state_next2] at h3
          rcases h3 with h3 | h3
          · obtain ⟨w3, w4, k, hw34, hl3, hsk, hk⟩ := ih w2 t m3 (by omega) h3 hstop
            refine ⟨w1 ++ w3, w4, k, by rw [hw', hw34]; simp, Lang.starCons hl1 hl3,
              hsk, by omega⟩
          · refine ⟨w1, w2, m3, hw', ?_, h3, by omega⟩
            have h := Lang.starCons hl1 Lang.starNil
            simpa using h
    have loopB : ∀ r' w, Lang r' w → r' = RE.star ra →
        ∀ x, x ≠ 0 → x < List.length A → getSt A x = split_state sa (List.length C) →
        ∃ n, Steps A x w (List.length C) n := by
      intro r' w hw
      induction hw with
      | rng h1 h2 h3 => intro heq; simp at heq
      | nrngLow h1 h2 => intro heq; simp at heq
      | nrngHigh h1 h2 => intro heq; simp at heq
      | cat h1 h2 ih1 ih2 => intro heq; simp at heq
      | altL h1 ih1 => intro heq; simp at heq
      | altR h1 ih1 => intro heq; simp at heq
      | plusOne h1 ih1 => intro heq; simp at heq
      | plusCons h1 h2 ih1 ih2 => intro heq; simp at heq
      | questNil => intro heq; simp at heq
      | questOne h1 ih1 => intro heq; simp at heq
      | starNil =>
        intro heq x hx0 hxlt hxst
        exact ⟨1, Steps.eps hx0 hxlt (by rw [hxst]; simp)
          (Or.inr (by rw [hxst]; simp)) (Steps.refl _)⟩
      | starCons h1 h2 ih1 ih2 =>
        intro heq x hx0 hxlt hxst
        injection heq with heq2
        subst heq2
        obtain ⟨n1, hn1⟩ := haA.2 _ h1
        obtain ⟨n2, hn2⟩ := ih2 rfl ea (by omega) (by omega) hAea
        exact ⟨n1 + n2 + 1, Steps.eps hx0 hxlt (by rw [hxst]; simp)
          (Or.inl (by rw [hxst]; simp)) (hn1.trans hn2)⟩
    constructor
    · intro w t n hst hstop
      rcases hst.split_elim (by rw [hAs]; simp) with
        ⟨hw, ht, hn⟩ | ⟨m, hm, hnext⟩
      · have hmm := hstop.2.2
        rw [ht, hAs] at hmm
        simp [RMATCH, RSPLIT] at hmm
      · rw [hAs] at hnext
        simp only [split_state_next1, split_state_next2] at hnext
        rcases hnext with hnx | hnx
        · obtain ⟨w1, w2, k, hw', hl1, hsk, hk⟩ := loopF m w t m (le_refl m) hnx hstop
          exact ⟨w1, w2, k, hw', hl1, hsk, by omega⟩
        · exact ⟨[], w, m, by simp, Lang.starNil, hnx, by omega⟩
    · intro w hw
      exact loopB _ w hw rfl (List.length C + 1) (by omega) (by omega) hAs
  · -- is_trivial: the composite starts at the fresh split state
    constructor
    · intro hh
      rw [is_trivial_iff] at hh
      rw [make_automata_start, hs3] at hh
      simp [RMATCH, RSPLIT] at hh
    · intro ⟨lo', hi', hr', _⟩
      cases hr'
  · -- printable bounds
    intro j hj1 hj2 hmm
    by_cases hje : j = ea
    · rw [hje, hea3] at hmm
      simp [RMATCH, RSPLIT] at hmm
    · by_cases hjm : j = List.length C
      · rw [hjm, he3] at hmm
        simp [RMATCH] at hmm
      · by_cases hjs : j = List.length C + 1
        · rw [hjs, hs3] at hmm
          simp [RMATCH, RSPLIT] at hmm
        · have hjlt : j < List.length C := by
            rw [hlenC3] at hj2
            omega
          rw [hg3 j hjlt hje] at hmm ⊢
          exact hapr j hj1 hjlt hmm

/-- `plus` of a good fragment occupying the whole region above `n0` yields a
good fragment for `.plus ra`: a fresh match state is appended and the old end
becomes the loop-back split; the start is unchanged. -/
theorem plus_good {C : List State} {n0 : Nat} {ra : RE} {sa ea : Nat}
    (ha : GoodFrag C n0 (List.length C) ra sa ea) :
    ∃ C' s' e', plus C (make_automata sa ea) = (C', make_automata s' e') ∧
      List.length C < List.length C' ∧
      (∀ j, j < n0 → getSt C' j = getSt C j) ∧
      GoodFrag C' n0 (List.length C') (.plus ra) s' e' := by
  obtain ⟨⟨ha1, ha2, ha3, ha4, ha5, ha6, ha7, ha8, ha9⟩, hasem, hatriv, hapr⟩ := ha
  unfold plus
  simp only [add_state, length_addSt, make_automata_start, make_automata_last]
  set C2 : StateArray := setSt (List.append C [match_state]) ea
      (split_state sa (List.length C)) with hC2
  clear_value C2
  have hlenC2 : List.length C2 = List.length C + 1 := by
    simp only [hC2, length_setSt, length_addSt]
  have hg2 : ∀ j, j < List.length C → j ≠ ea → getSt C2 j = getSt C j := by
    intro j hj hja
    rw [hC2, getSt_set_ne _ _ hja, getSt_append_lt _ _ (by omega)]
  have hea2 : getSt C2 ea = split_state sa (List.length C) := by
    rw [hC2, getSt_set_self _ _ (by simp only [length_addSt]; omega)]
  have he2 : getSt C2 (List.length C) = match_state := by
    rw [hC2, getSt_set_ne _ _ (by omega : List.length C ≠ ea)]
    exact getSt_append_self C match_state
  refine ⟨C2, sa, List.length C, by rw [hC2], by omega, ?_, ?_, ?_, ?_, ?_⟩
  · intro j hj
    exact hg2 j (by omega) (by omega)
  · -- FragWF
    refine ⟨ha1, by omega, by omega, by omega, by omega, ha6, le_refl _, he2, ?_⟩
    intro j hj1 hj2
    by_cases hje : j = ea
    · rw [hje, hea2]
      simp only [split_state_next1, split_state_next2]
      omega
    · by_cases hjm : j = List.length C
      · rw [hjm, he2]
        simp only [match_state_next1, match_state_next2, NO_STATE]
        exact ⟨by simp, by simp⟩
      · have hjlt : j < List.length C := by
          rw [hlenC2] at hj2
          omega
        rw [hg2 j hjlt hje]
        have := ha9 j hj1 hjlt
        omega
  · -- FragSem
    intro A hext
    have hAlen := hext.1
    rw [hlenC2] at hAlen
    have hAea : getSt A ea = split_state sa (List.length C) := by
      rw [hext.2 ea (by omega) (by omega) (by omega), hea2]
    have haext : Ext A C n0 (List.length C) ea := by
      refine ⟨by omega, fun j hj1 hj2 hje => ?_⟩
      rw [hext.2 j (by omega) (by omega) (by omega)]
      exact hg2 j hj2 hje
    have haA := hasem A haext
    have loopF : ∀ N w t m, m ≤ N → Steps A sa w t m → StopAt A t →
        ∃ w1 w2 k, w = w1 ++ w2 ∧ Lang (RE.plus ra) w1 ∧
          Steps A (List.length C) w2 t k ∧ k ≤ m := by
      intro N
      induction N with
      | zero =>
        intro w t m hm hst hstop
        obtain ⟨w1, w2, m2, hw', hl1, hs2, hm2⟩ := haA.1 w t m hst hstop
        rcases hs2.split_elim (by rw [hAea]; simp) with
          ⟨hw2e, hte, hne⟩ | ⟨m3, hm3, h3⟩
        · have hmm := hstop.2.2
          rw [hte, hAea] at hmm
          simp [RMATCH, RSPLIT] at hmm
        · omega
      | succ N ih =>
        intro w t m hm hst hstop
        obtain ⟨w1, w2, m2, hw', hl1, hs2, hm2⟩ := haA.1 w t m hst hstop
        rcases hs2.split_elim (by rw [hAea]; simp) with
          ⟨hw2e, hte, hne⟩ | ⟨m3, hm3, h3⟩
        · have hmm := hstop.2.2
          rw [hte, hAea] at hmm
          simp [RMATCH, RSPLIT] at hmm
        · rw [hAea] at h3
          simp only [split_state_next1, split_state_next2] at h3
          rcases h3 with h3 | h3
          · obtain ⟨w3, w4, k, hw34, hl3, hsk, hk⟩ := ih w2 t m3 (by omega) h3 hstop
            refine ⟨w1 ++ w3, w4, k, by rw [hw', hw34]; simp, Lang.plusCons hl1 hl3,
              hsk, by omega⟩
          · exact ⟨w1, w2, m3, hw', Lang.plusOne hl1, h3, by omega⟩
    have loopB : ∀ r' w, Lang r' w → r' = RE.plus ra →
        ∃ n, Steps A sa w (List.length C) n := by
      intro r' w hw
      induction hw with
      | rng h1 h2 h3 => intro heq; simp at heq
      | nrngLow h1 h2 => intro heq; simp at heq
      | nrngHigh h1 h2 => intro heq; simp at heq
      | cat h1 h2 ih1 ih2 => intro heq; simp at heq
      | altL h1 ih1 => intro heq; simp at heq
      | altR h1 ih1 => intro heq; simp at heq
      | starNil => intro heq; simp at heq
      | starCons h1 h2 ih1 ih2 => intro heq; simp at heq
      | questNil => intro heq; simp at heq
      | questOne h1 ih1 => intro heq; simp at heq
      | plusOne h1 ih1 =>
        intro heq
        injection heq with heq2
        subst heq2
        obtain ⟨n1, hn1⟩ := haA.2 _ h1
        have heps : Steps A ea ([] : List Nat) (List.length C) 1 :=
          Steps.eps (by omega) (by omega) (by rw [hAea]; simp)
            (Or.inr (by rw [hAea]; simp)) (Steps.refl _)
        exact ⟨n1 + 1, by simpa using hn1.trans heps⟩
      | plusCons h1 h2 ih1 ih2 =>
        intro heq
        injection heq with heq2
        subst heq2
        obtain ⟨n1, hn1⟩ := haA.2 _ h1
        obtain ⟨n2, hn2⟩ := ih2 rfl
        have heps : Steps A ea _ (List.length C) (n2 + 1) :=
          Steps.eps (by omega) (by omega) (by rw [hAea]; simp)
            (Or.inl (by rw [hAea]; simp)) hn2
        exact ⟨n1 + (n2 + 1), hn1.trans heps⟩
    constructor
    · intro w t n hst hstop
      obtain ⟨w1, w2, k, hw', hl1, hsk, hk⟩ := loopF n w t n (le_refl n) hst hstop
      exact ⟨w1, w2, k, hw', hl1, hsk, hk⟩
    · intro w hw
      exact loopB _ w hw rfl
  · -- is_trivial: the start state keeps its in-region pointer, never the new end
    constructor
    · intro hh
      rw [is_trivial_iff] at hh
      rw [make_automata_start, make_automata_last, hg2 sa (by omega) ha5] at hh
      exact absurd hh.2 (by have := ha9 sa ha1 ha2; omega)
    · intro ⟨lo', hi', hr', _⟩
      cases hr'
  · -- printable bounds
    intro j hj1 hj2 hmm
    by_cases hje : j = ea
    · rw [hje, hea2] at hmm
      simp [RMATCH, RSPLIT] at hmm
    · by_cases hjm : j = List.length C
      · rw [hjm, he2] at hmm
        simp [RMATCH] at hmm
      · have hjlt : j < List.length C := by
          rw [hlenC2] at hj2
          omega
        rw [hg2 j hjlt hje] at hmm ⊢
        exact hapr j hj1 hjlt hmm

/-- `question` of a good fragment occupying the whole region above `n0`
yields a good fragment for `.quest ra`: a fresh entry split is appended whose
second branch bypasses the fragment to its end. -/
theorem question_good {C : List State} {n0 : Nat} {ra : RE} {sa ea : Nat}
    (ha : GoodFrag C n0 (List.length C) ra sa ea) :
    ∃ C' s' e', question C (make_automata sa ea) = (C', make_automata s' e') ∧
      List.length C < List.length C' ∧
      (∀ j, j < n0 → getSt C' j = getSt C j) ∧
      GoodFrag C' n0 (List.length C') (.quest ra) s' e' := by
  obtain ⟨⟨ha1, ha2, ha3, ha4, ha5, ha6, ha7, ha8, ha9⟩, hasem, hatriv, hapr⟩ := ha
  unfold question
  simp only [add_state, length_addSt, make_automata_start, make_automata_last]
  have hlenC1 : List.length (List.append C [split_state sa ea]) = List.length C + 1 :=
    length_addSt C _
  have hg1 : ∀ j, j < List.length C →
      getSt (List.append C [split_state sa ea]) j = getSt C j :=
    fun j hj => getSt_append_lt C _ hj
  have hs1 : getSt (List.append C [split_state sa ea]) (List.length C) =
      split_state sa ea := getSt_append_self C _
  refine ⟨_, List.length C, ea, rfl, by omega, ?_, ?_, ?_, ?_, ?_⟩
  · intro j hj
    exact hg1 j (by omega)
  · -- FragWF
    refine ⟨by omega, by omega, by omega, by omega, by omega, ha6, le_refl _, ?_, ?_⟩
    · rw [hg1 ea (by omega)]
      exact ha8
    · intro j hj1 hj2
      rw [hlenC1] at hj2
      by_cases hjs : j = List.length C
      · rw [hjs, hs1]
        simp only [split_state_next1, split_state_next2]
        omega
      · rw [hg1 j (by omega)]
        have := ha9 j hj1 (by omega)
        omega
  · -- FragSem
    intro A hext
    have hAlen := hext.1
    rw [hlenC1] at hAlen
    have hAs : getSt A (List.length C) = split_state sa ea := by
      rw [hext.2 (List.length C) (by omega) (by omega) (by omega), hs1]
    have haext : Ext A C n0 (List.length C) ea := by
      refine ⟨by omega, fun j hj1 hj2 hje => ?_⟩
      rw [hext.2 j (by omega) (by omega) hje]
      exact hg1 j hj2
    have haA := hasem A haext
    constructor
    · intro w t n hst hstop
      rcases hst.split_elim (by rw [hAs]; simp) with
        ⟨hw, ht, hn⟩ | ⟨m, hm, hnext⟩
      · have hmm := hstop.2.2
        rw [ht, hAs] at hmm
        simp [RMATCH, RSPLIT] at hmm
      · rw [hAs] at hnext
        simp only [split_state_next1, split_state_next2] at hnext
        rcases hnext with hnx | hnx
        · obtain ⟨w1, w2, m2, hw', hl1, hs2, hm2⟩ := haA.1 w t m hnx hstop
          exact ⟨w1, w2, m2, hw', Lang.questOne hl1, hs2, by omega⟩
        · exact ⟨[], w, m, by simp, Lang.questNil, hnx, by omega⟩
    · intro w hw
      cases hw with
      | questNil =>
        exact ⟨1, Steps.eps (by omega) (by omega) (by rw [hAs]; simp)
          (Or.inr (by rw [hAs]; simp)) (Steps.refl _)⟩
      | questOne hw1 =>
        obtain ⟨n, hn⟩ := haA.2 w hw1
        exact ⟨n + 1, Steps.eps (by omega) (by omega) (by rw [hAs]; simp)
          (Or.inl (by rw [hAs]; simp)) hn⟩
  · -- is_trivial: the composite starts at the fresh split state
    constructor
    · intro hh
      rw [is_trivial_iff] at hh
      rw [make_automata_start, hs1] at hh
      simp [RMATCH, RSPLIT] at hh
    · intro ⟨lo', hi', hr', _⟩
      cases hr'
  · -- printable bounds
    intro j hj1 hj2 hmm
    rw [hlenC1] at hj2
    by_cases hjs : j = List.length C
    · rw [hjs, hs1] at hmm
      simp [RMATCH, RSPLIT] at hmm
    · rw [hg1 j (by omega)] at hmm ⊢
      exact hapr j hj1 (by omega) hmm

/-- A literal range atom builds a good fragment: a fresh match state and a
fresh labelled state pointing at it. -/
theorem rng_good {C : List State} {lo hi : Nat} (h0 : 0 < List.length C)
    (hwf : REwf (.rng lo hi)) :
    ∃ C' s' e', build C (.rng lo hi) = (C', make_automata s' e') ∧
      List.length C < List.length C' ∧
      (∀ j, j < List.length C → getSt C' j = getSt C j) ∧
      GoodFrag C' (List.length C) (List.length C') (.rng lo hi) s' e' := by
  obtain ⟨hw1, hw2, hw3⟩ := hwf
  have hcmin : cmin = 32 := rfl
  have hcmax : cmax = 126 := rfl
  simp only [build, add_state, length_addSt]
  have hlen2 : List.length
      (List.append (List.append C [match_state]) [range_state lo hi (List.length C)]) =
      List.length C + 2 := by
    simp only [length_addSt]
  have hg2 : ∀ j, j < List.length C →
      getSt (List.append (List.append C [match_state]) [range_state lo hi (List.length C)]) j =
        getSt C j := by
    intro j hj
    rw [getSt_append_lt _ _ (by simp only [length_addSt]; omega), getSt_append_lt _ _ hj]
  have he2 : getSt (List.append (List.append C [match_state])
      [range_state lo hi (List.length C)]) (List.length C) = match_state := by
    rw [getSt_append_lt _ _ (by simp only [length_addSt]; omega)]
    exact getSt_append_self C match_state
  have hs2 : getSt (List.append (List.append C [match_state])
      [range_state lo hi (List.length C)]) (List.length C + 1) =
      range_state lo hi (List.length C) := by
    have h := getSt_append_self (List.append C [match_state]) (range_state lo hi (List.length C))
    rw [length_addSt] at h
    exact h
  refine ⟨_, List.length C + 1, List.length C, rfl, by omega, hg2, ?_, ?_, ?_, ?_⟩
  · -- FragWF
    refine ⟨by omega, by omega, le_refl _, by omega, by omega, h0, le_refl _, he2, ?_⟩
    intro j hj1 hj2
    rw [hlen2] at hj2
    by_cases hjm : j = List.length C
    · rw [hjm, he2]
      simp only [match_state_next1, match_state_next2, NO_STATE]
      exact ⟨by simp, by simp⟩
    · have hjs : j = List.length C + 1 := by omega
      rw [hjs, hs2]
      simp only [range_state_next1, range_state_next2, NO_STATE]
      exact ⟨Or.inr ⟨by omega, by omega⟩, by simp⟩
  · -- FragSem
    intro A hext
    have hAlen := hext.1
    rw [hlen2] at hAlen
    have hAs : getSt A (List.length C + 1) = range_state lo hi (List.length C) := by
      rw [hext.2 (List.length C + 1) (by omega) (by omega) (by omega), hs2]
    constructor
    · intro w t n hst hstop
      rcases hst.range_elim (by rw [hAs]; simp only [range_state_min, RSPLIT]; omega) with
        ⟨hw, ht, hn⟩ | ⟨c, w', m, hw2, hn2, hmin, hmax, hc, hrest⟩
      · have hmm := hstop.2.2
        rw [ht, hAs] at hmm
        simp only [range_state_min, RMATCH] at hmm
        omega
      · rw [hAs] at hmin hmax hrest
        simp only [range_state_min, range_state_max, range_state_next1] at hmin hmax hrest
        exact ⟨[c], w', m, by simp [hw2], Lang.rng hmin hmax hc, hrest, by omega⟩
    · intro w hw
      cases hw with
      | rng hmin hmax hc =>
        have h : Steps A (List.length C + 1) ([_] ++ []) (List.length C) (0 + 1) :=
          Steps.char (by omega) (by omega)
            (by rw [hAs]; simpa using hmin)
            (by rw [hAs]; simpa using hmax) hc
            (by rw [hAs]; exact Steps.refl _)
        exact ⟨1, by simpa using h⟩
  · -- is_trivial: a single labelled state pointing at the match state
    constructor
    · intro _
      exact ⟨lo, hi, rfl, hs2⟩
    · intro _
      rw [is_trivial_iff]
      rw [make_automata_start, make_automata_last, hs2]
      refine ⟨?_, by simp⟩
      simp only [range_state_min, RMATCH]
      omega
  · -- printable bounds
    intro j hj1 hj2 hmm
    rw [hlen2] at hj2
    by_cases hjm : j = List.length C
    · rw [hjm, he2] at hmm
      simp [RMATCH] at hmm
    · have hjs : j = List.length C + 1 := by omega
      rw [hjs, hs2]
      simp only [range_state_min, range_state_max]
      exact ⟨hw1, hw3⟩

/-- A negated range atom builds a good fragment: a fresh match state, the two
complement ranges, and an entry split over them. -/
theorem nrng_good {C : List State} {lo hi : Nat} (h0 : 0 < List.length C)
    (hwf : REwf (.nrng lo hi)) :
    ∃ C' s' e', build C (.nrng lo hi) = (C', make_automata s' e') ∧
      List.length C < List.length C' ∧
      (∀ j, j < List.length C → getSt C' j = getSt C j) ∧
      GoodFrag C' (List.length C) (List.length C') (.nrng lo hi) s' e' := by
  obtain ⟨hw1, hw2, hw3⟩ := hwf
  have hcmin : cmin = 32 := rfl
  have hcmax : cmax = 126 := rfl
  simp only [build, add_state, length_addSt]
  set C4 : StateArray := List.append (List.append (List.append (List.append C
      [match_state]) [range_state cmin (lo - 1) (List.length C)])
      [range_state (hi + 1) cmax (List.length C)])
      [split_state (List.length C + 1) (List.length C + 2)] with hC4
  clear_value C4
  have hlen4 : List.length C4 = List.length C + 4 := by
    simp only [hC4, length_addSt]
  have hg4 : ∀ j, j < List.length C → getSt C4 j = getSt C j := by
    intro j hj
    rw [hC4, getSt_append_lt _ _ (by simp only [length_addSt]; omega),
      getSt_append_lt _ _ (by simp only [length_addSt]; omega),
      getSt_append_lt _ _ (by simp only [length_addSt]; omega),
      getSt_append_lt _ _ hj]
  have he4 : getSt C4 (List.length C) = match_state := by
    rw [hC4, getSt_append_lt _ _ (by simp only [length_addSt]; omega),
      getSt_append_lt _ _ (by simp only [length_addSt]; omega),
      getSt_append_lt _ _ (by simp only [length_addSt]; omega)]
    exact getSt_append_self C match_state
  have hl4 : getSt C4 (List.length C + 1) =
      range_state cmin (lo - 1) (List.length C) := by
    rw [hC4, getSt_append_lt _ _ (by simp only [length_addSt]; omega),
      getSt_append_lt _ _ (by simp only [length_addSt]; omega)]
    have h := getSt_append_self (List.append C [match_state])
      (range_state cmin (lo - 1) (List.length C))
    rw [length_addSt] at h
    exact h
  have hh4 : getSt C4 (List.length C + 2) =
      range_state (hi + 1) cmax (List.length C) := by
    rw [hC4, getSt_append_lt _ _ (by simp only [length_addSt]; omega)]
    have h := getSt_append_self
      (List.append (List.append C [match_state]) [range_state cmin (lo - 1) (List.length C)])
      (range_state (hi + 1) cmax (List.length C))
    rw [length_addSt, length_addSt] at h
    exact h
  have hf4 : getSt C4 (List.length C + 3) =
      split_state (List.length C + 1) (List.length C + 2) := by
    rw [hC4]
    have h := getSt_append_self
      (List.append (List.append (List.append C [match_state])
        [range_state cmin (lo - 1) (List.length C)])
        [range_state (hi + 1) cmax (List.length C)])
      (split_state (List.length C + 1) (List.length C + 2))
    rw [length_addSt, length_addSt, length_addSt] at h
    exact h
  refine ⟨C4, List.length C + 3, List.length C, by rw [hC4], by omega, hg4, ?_, ?_, ?_, ?_⟩
  · -- FragWF
    refine ⟨by omega, by omega, le_refl _, by omega, by omega, h0, le_refl _, he4, ?_⟩
    intro j hj1 hj2
    rw [hlen4] at hj2
    by_cases hjm : j = List.length C
    · rw [hjm, he4]
      simp only [match_state_next1, match_state_next2, NO_STATE]
      exact ⟨by simp, by simp⟩
    · by_cases hjl : j = List.length C + 1
      · rw [hjl, hl4]
        simp only [range_state_next1, range_state_next2, NO_STATE]
        exact ⟨Or.inr ⟨by omega, by omega⟩, by simp⟩
      · by_cases hjh : j = List.length C + 2
        · rw [hjh, hh4]
          simp only [range_state_next1, range_state_next2, NO_STATE]
          exact ⟨Or.inr ⟨by omega, by omega⟩, by simp⟩
        · have hjf : j = List.length C + 3 := by omega
          rw [hjf, hf4]
          simp only [split_state_next1, split_state_next2]
          omega
  · -- FragSem
    intro A hext
    have hAlen := hext.1
    rw [hlen4] at hAlen
    have hAl : getSt A (List.length C + 1) = range_state cmin (lo - 1) (List.length C) := by
      rw [hext.2 (List.length C + 1) (by omega) (by omega) (by omega), hl4]
    have hAh : getSt A (List.length C + 2) = range_state (hi + 1) cmax (List.length C) := by
      rw [hext.2 (List.length C + 2) (by omega) (by omega) (by omega), hh4]
    have hAf : getSt A (List.length C + 3) =
        split_state (List.length C + 1) (List.length C + 2) := by
      rw [hext.2 (List.length C + 3) (by omega) (by omega) (by omega), hf4]
    constructor
    · intro w t n hst hstop
      rcases hst.split_elim (by rw [hAf]; simp) with
        ⟨hw, ht, hn⟩ | ⟨m, hm, hnext⟩
      · have hmm := hstop.2.2
        rw [ht, hAf] at hmm
        simp [RMATCH, RSPLIT] at hmm
      · rw [hAf] at hnext
        simp only [split_state_next1, split_state_next2] at hnext
        rcases hnext with hnx | hnx
        · rcases hnx.range_elim
            (by rw [hAl]; simp only [range_state_min]; decide) with
            ⟨hw2, ht, hn2⟩ | ⟨c, w', m', hw2, hn2, hmin, hmax, hc, hrest⟩
          · have hmm := hstop.2.2
            rw [ht, hAl] at hmm
            simp only [range_state_min] at hmm
            exact absurd hmm (by decide)
          · rw [hAl] at hmin hmax hrest
            simp only [range_state_min, range_state_max, range_state_next1]
              at hmin hmax hrest
            exact ⟨[c], w', m', by simp [hw2], Lang.nrngLow hmin hmax, hrest, by omega⟩
        · rcases hnx.range_elim
            (by rw [hAh]; simp only [range_state_min, RSPLIT]; omega) with
            ⟨hw2, ht, hn2⟩ | ⟨c, w', m', hw2, hn2, hmin, hmax, hc, hrest⟩
          · have hmm := hstop.2.2
            rw [ht, hAh] at hmm
            simp only [range_state_min, RMATCH] at hmm
            omega
          · rw [hAh] at hmin hmax hrest
            simp only [range_state_min, range_state_max, range_state_next1]
              at hmin hmax hrest
            exact ⟨[c], w', m', by simp [hw2], Lang.nrngHigh hmin hmax, hrest, by omega⟩
    · intro w hw
      cases hw with
      | nrngLow hmin hmax =>
        rename_i c
        have hch : Steps A (List.length C + 1) ([c] ++ []) (List.length C) (0 + 1) :=
          Steps.char (by omega) (by omega)
            (by rw [hAl]; simpa using hmin)
            (by rw [hAl]; simpa using hmax) (by omega)
            (by rw [hAl]; exact Steps.refl _)
        refine ⟨2, ?_⟩
        have h := Steps.eps (by omega : List.length C + 3 ≠ 0) (by omega)
          (by rw [hAf]; simp) (Or.inl (by rw [hAf]; simp)) hch
        simpa using h
      | nrngHigh hmin hmax =>
        rename_i c
        have hch : Steps A (List.length C + 2) ([c] ++ []) (List.length C) (0 + 1) :=
          Steps.char (by omega) (by omega)
            (by rw [hAh]; simpa using hmin)
            (by rw [hAh]; simpa using hmax) (by omega)
            (by rw [hAh]; exact Steps.refl _)
        refine ⟨2, ?_⟩
        have h := Steps.eps (by omega : List.length C + 3 ≠ 0) (by omega)
          (by rw [hAf]; simp) (Or.inr (by rw [hAf]; simp)) hch
        simpa using h
  · -- is_trivial: the composite starts at the entry split state
    constructor
    · intro hh
      rw [is_trivial_iff] at hh
      rw [make_automata_start, hf4] at hh
      simp [RMATCH, RSPLIT] at hh
    · intro ⟨lo', hi', hr', _⟩
      cases hr'
  · -- printable bounds
    intro j hj1 hj2 hmm
    rw [hlen4] at hj2
    by_cases hjm : j = List.length C
    · rw [hjm, he4] at hmm
      simp [RMATCH] at hmm
    · by_cases hjl : j = List.length C + 1
      · rw [hjl, hl4]
        simp only [range_state_min, range_state_max]
        refine ⟨le_refl _, by omega⟩
      · by_cases hjh : j = List.length C + 2
        · rw [hjh, hh4]
          simp only [range_state_min, range_state_max]
          refine ⟨by omega, le_refl _⟩
        · have hjf : j = List.length C + 3 := by omega
          rw [hjf, hf4] at hmm
          simp [RMATCH, RSPLIT] at hmm

/-- Master construction lemma: building any well-formed AST on top of a
nonempty arena appends a good fragment and preserves the existing states. -/
theorem build_good : ∀ (r : RE) (C : List State), REwf r → 0 < List.length C →
    ∃ C' s' e', build C r = (C', make_automata s' e') ∧
      List.length C < List.length C' ∧
      (∀ j, j < List.length C → getSt C' j = getSt C j) ∧
      GoodFrag C' (List.length C) (List.length C') r s' e' := by
  intro r
  induction r with
  | rng lo hi =>
    intro C hwf h0
    exact rng_good h0 hwf
  | nrng lo hi =>
    intro C hwf h0
    exact nrng_good h0 hwf
  | cat a b iha ihb =>
    intro C hwf h0
    obtain ⟨hwfa, hwfb⟩ := hwf
    obtain ⟨C1, sa, ea, hba, hg1, hp1, hgood1⟩ := iha C hwfa h0
    obtain ⟨C2, sb, eb, hbb, hg2, hp2, hgood2⟩ := ihb C1 hwfb (by omega)
    have hgood1' : GoodFrag C2 (List.length C) (List.length C1) a sa ea :=
      GoodFrag_mono hgood1 (by omega) (fun j _ hj => hp2 j hj)
    obtain ⟨C3, heq, hlen3, hp3, hgood3⟩ := concatenate_good hgood1' hgood2
    refine ⟨C3, sa, eb, ?_, by omega, ?_, ?_⟩
    · simp only [build, hba, hbb]
      exact heq
    · intro j hj
      rw [hp3 j hj, hp2 j (by omega), hp1 j hj]
    · rw [hlen3]
      exact hgood3
  | alt a b iha ihb =>
    intro C hwf h0
    obtain ⟨hwfa, hwfb⟩ := hwf
    obtain ⟨C1, sa, ea, hba, hg1, hp1, hgood1⟩ := iha C hwfa h0
    obtain ⟨C2, sb, eb, hbb, hg2, hp2, hgood2⟩ := ihb C1 hwfb (by omega)
    have hgood1' : GoodFrag C2 (List.length C) (List.length C1) a sa ea :=
      GoodFrag_mono hgood1 (by omega) (fun j _ hj => hp2 j hj)
    obtain ⟨C3, s3, e3, heq, hlen3, hp3, hgood3⟩ := alternate_good hgood1' hgood2
    refine ⟨C3, s3, e3, ?_, by omega, ?_, hgood3⟩
    · simp only [build, hba, hbb]
      exact heq
    · intro j hj
      rw [hp3 j hj, hp2 j (by omega), hp1 j hj]
  | star a iha =>
    intro C hwf h0
    obtain ⟨C1, sa, ea, hba, hg1, hp1, hgood1⟩ := iha C hwf h0
    obtain ⟨C3, s3, e3, heq, hlen3, hp3, hgood3⟩ := star_good hgood1
    refine ⟨C3, s3, e3, ?_, by omega, ?_, ?_⟩
    · simp only [build, hba]
      exact heq
    · intro j hj
      rw [hp3 j hj, hp1 j hj]
    · exact GoodFrag_mono hgood3 (le_refl _) (fun j _ _ => rfl)
  | plus a iha =>
    intro C hwf h0
    obtain ⟨C1, sa, ea, hba, hg1, hp1, hgood1⟩ := iha C hwf h0
    obtain ⟨C3, s3, e3, heq, hlen3, hp3, hgood3⟩ := plus_good hgood1
    refine ⟨C3, s3, e3, ?_, by omega, ?_, ?_⟩
    · simp only [build, hba]
      exact heq
    · intro j hj
      rw [hp3 j hj, hp1 j hj]
    · exact GoodFrag_mono hgood3 (le_refl _) (fun j _ _ => rfl)
  | quest a iha =>
    intro C hwf h0
    obtain ⟨C1, sa, ea, hba, hg1, hp1, hgood1⟩ := iha C hwf h0
    obtain ⟨C3, s3, e3, heq, hlen3, hp3, hgood3⟩ := question_good hgood1
    refine ⟨C3, s3, e3, ?_, by omega, ?_, ?_⟩
    · simp only [build, hba]
      exact heq
    · intro j hj
      rw [hp3 j hj, hp1 j hj]
    · exact GoodFrag_mono hgood3 (le_refl _) (fun j _ _ => rfl)

/-! ### Well-formedness of parsed ASTs -/

/-- Well-formedness transported to a parse result. -/
def AWf : ARes → Prop
  | .ok r _ => REwf r
  | _ => True

/-- Well-formedness of every range read by the set loop. -/
def LWf : LRes → Prop
  | .ok rs _ => ∀ r ∈ rs, REwf r
  | _ => True

theorem is_special_printable {c : Nat} (h : is_special c = true) :
    cmin ≤ c ∧ c ≤ cmax := by
  simp only [is_special, Bool.or_eq_true, decide_eq_true_eq] at h
  simp only [cmin, cmax]
  omega

theorem read_escape_printable {i : Input} {c : Nat} {i' : Input}
    (h : read_escape i = .ok c i') : cmin ≤ c ∧ c ≤ cmax := by
  unfold read_escape at h
  by_cases hc : (is_special (peek (eat i)) || decide (peek (eat i) = 45)) = true
  · rw [if_pos hc] at h
    cases h
    simp only [Bool.or_eq_true, decide_eq_true_eq] at hc
    rcases hc with hc | hc
    · exact is_special_printable hc
    · rw [hc]
      exact ⟨by decide, by decide⟩
  · rw [if_neg hc] at h
    cases h

theorem read_char_printable {i : Input} {c : Nat} {i' : Input}
    (h : read_char i = .ok c i') : cmin ≤ c ∧ c ≤ cmax := by
  unfold read_char at h
  by_cases h0 : peek i = 0
  · rw [if_pos h0] at h; cases h
  · rw [if_neg h0] at h
    by_cases h92 : peek i = 92
    · rw [if_pos h92] at h
      exact read_escape_printable h
    · rw [if_neg h92] at h
      by_cases hsp : is_special (peek i) = true
      · rw [if_pos hsp] at h; cases h
      · rw [if_neg hsp] at h
        by_cases hpr : cmin ≤ peek i ∧ peek i ≤ cmax
        · rw [if_pos hpr] at h
          cases h
          exact hpr
        · rw [if_neg hpr] at h; cases h

theorem read_element_printable {i : Input} {c : Nat} {i' : Input}
    (h : read_element i = .ok c i') : cmin ≤ c ∧ c ≤ cmax := by
  unfold read_element at h
  by_cases h0 : peek i = 0
  · rw [if_pos h0] at h; cases h
  · rw [if_neg h0] at h
    by_cases h93 : peek i = 93
    · rw [if_pos h93] at h; cases h
    · rw [if_neg h93] at h
      by_cases h92 : peek i = 92
      · rw [if_pos h92] at h
        by_cases hb : peek (eat i) ≠ 93
        · rw [if_pos hb] at h; cases h
        · rw [if_neg hb] at h
          cases h
          simp only [ne_eq, not_not] at hb
          rw [hb]
          exact ⟨by decide, by decide⟩
      · rw [if_neg h92] at h
        by_cases hpr : cmin ≤ peek i ∧ peek i ≤ cmax
        · rw [if_pos hpr] at h
          cases h
          exact hpr
        · rw [if_neg hpr] at h; cases h

theorem parse_range_wf {i : Input} {neg : Bool} {r : RE} {i' : Input}
    (h : parse_range i neg = .ok r i') : REwf r := by
  unfold parse_range at h
  cases he : read_element i with
  | fail st i2 => rw [he] at h; cases h
  | ok mn i1 =>
    rw [he] at h
    have hmn := read_element_printable he
    simp only at h
    have hsecond : ∀ mx i2, (if peek i1 = 45 then
        if peekahead i1 ≠ 93 then read_element (eat i1) else .ok mn i1
        else .ok mn i1) = CharRes.ok mx i2 → cmin ≤ mx ∧ mx ≤ cmax := by
      intro mx i2 hs
      by_cases h45 : peek i1 = 45
      · rw [if_pos h45] at hs
        by_cases hpa : peekahead i1 ≠ 93
        · rw [if_pos hpa] at hs
          exact read_element_printable hs
        · rw [if_neg hpa] at hs
          cases hs
          exact hmn
      · rw [if_neg h45] at hs
        cases hs
        exact hmn
    cases hsec : (if peek i1 = 45 then
        if peekahead i1 ≠ 93 then read_element (eat i1) else .ok mn i1
        else .ok mn i1) with
    | fail st i2 => rw [hsec] at h; cases h
    | ok mx i2 =>
      rw [hsec] at h
      have hmx := hsecond mx i2 hsec
      simp only at h
      by_cases hord : mx < mn
      · rw [if_pos hord] at h; cases h
      · rw [if_neg hord] at h
        cases h
        cases neg with
        | true => exact ⟨hmn.1, by omega, hmx.2⟩
        | false => exact ⟨hmn.1, by omega, hmx.2⟩

theorem parse_setList_wf (fuel : Nat) :
    ∀ i neg, LWf (parse_setList fuel i neg) := by
  induction fuel with
  | zero => intro i neg; trivial
  | succ f ih =>
    intro i neg
    rw [parse_setList]
    by_cases h93 : peek i = 93
    · simp only [h93, if_true]
      intro r hr
      cases hr
    · simp only [h93, if_false]
      cases hr : parse_range i neg with
      | fail st i2 => trivial
      | out => trivial
      | ok r0 i1 =>
        have hwf0 := parse_range_wf hr
        simp only
        cases hl : parse_setList f i1 neg with
        | fail st i2 => trivial
        | out => trivial
        | ok rs i2 =>
          have hwfs := ih i1 neg
          rw [hl] at hwfs
          intro r hrm
          cases hrm with
          | head => exact hwf0
          | tail _ hmem => exact hwfs r hmem

theorem foldl_alt_wf : ∀ (rs : List RE) (r0 : RE), REwf r0 → (∀ r ∈ rs, REwf r) →
    REwf (List.foldl RE.alt r0 rs) := by
  intro rs
  induction rs with
  | nil => intro r0 h0 _; exact h0
  | cons r rs ih =>
    intro r0 h0 hall
    exact ih (RE.alt r0 r) ⟨h0, hall r (by simp)⟩
      (fun r' hr' => hall r' (by simp [hr']))

theorem parse_set_wf {fuel : Nat} {i : Input} {r : RE} {i' : Input}
    (h : parse_set fuel i = .ok r i') : REwf r := by
  unfold parse_set at h
  simp only at h
  cases hr0 : parse_range (if peek i = 94 then eat i else i) (decide (peek i = 94)) with
  | fail st i2 => rw [hr0] at h; cases h
  | out => rw [hr0] at h; cases h
  | ok r0 i2 =>
    rw [hr0] at h
    have hwf0 := parse_range_wf hr0
    simp only at h
    cases hl : parse_setList fuel i2 (decide (peek i = 94)) with
    | fail st i3 => rw [hl] at h; cases h
    | out => rw [hl] at h; cases h
    | ok rs i3 =>
      rw [hl] at h
      have hwfs := parse_setList_wf fuel i2 (decide (peek i = 94))
      rw [hl] at hwfs
      cases h
      exact foldl_alt_wf rs r0 hwf0 hwfs

theorem parse_wf (fuel : Nat) :
    (∀ i, AWf (parse_atom fuel i)) ∧
    (∀ i, AWf (parse_factor fuel i)) ∧
    (∀ i, AWf (parse_term fuel i)) ∧
    (∀ i, AWf (parse_expr fuel i)) := by
  induction fuel with
  | zero => exact ⟨fun _ => trivial, fun _ => trivial, fun _ => trivial, fun _ => trivial⟩
  | succ f ih =>
    obtain ⟨ihA, ihF, ihT, ihE⟩ := ih
    have hAtom : ∀ i, AWf (parse_atom (f + 1) i) := by
      intro i
      rw [parse_atom]
      by_cases h40 : peek i = 40
      · simp only [h40, if_true]
        cases he : parse_expr f (eat i) with
        | out => trivial
        | fail s i2 => trivial
        | ok r i2 =>
          have hwf := ihE (eat i)
          rw [he] at hwf
          simp only
          by_cases h41 : peek i2 ≠ 41
          · rw [if_pos h41]
            trivial
          · rw [if_neg h41]
            exact hwf
      · simp only [h40, if_false]
        by_cases h46 : peek i = 46
        · simp only [h46, if_true]
          exact ⟨by decide, by decide, by decide⟩
        · simp only [h46, if_false]
          by_cases h91 : peek i = 91
          · simp only [h91, if_true]
            cases hs : parse_set f (eat i) with
            | out => trivial
            | fail s i2 => trivial
            | ok r i2 => exact parse_set_wf hs
          · simp only [h91, if_false]
            cases hc : read_char i with
            | fail s i2 => trivial
            | ok ch i1 =>
              have hpr := read_char_printable hc
              exact ⟨hpr.1, le_refl _, hpr.2⟩
    have hFactor : ∀ i, AWf (parse_factor (f + 1) i) := by
      intro i
      rw [parse_factor]
      cases ha : parse_atom f i with
      | out => trivial
      | fail s i2 => trivial
      | ok r i1 =>
        have hwf := ihA i
        rw [ha] at hwf
        simp only
        by_cases h42 : peek i1 = 42
        · simp only [h42, if_true]; exact hwf
        · simp only [h42, if_false]
          by_cases h43 : peek i1 = 43
          · simp only [h43, if_true]; exact hwf
          · simp only [h43, if_false]
            by_cases h63 : peek i1 = 63
            · simp only [h63, if_true]; exact hwf
            · simp only [h63, if_false]; exact hwf
    have hTerm : ∀ i, AWf (parse_term (f + 1) i) := by
      intro i
      rw [parse_term]
      cases hf : parse_factor f i with
      | out => trivial
      | fail s i2 => trivial
      | ok r i1 =>
        have hwf := ihF i
        rw [hf] at hwf
        simp only
        by_cases hstop : peek i1 = 0 ∨ peek i1 = 41 ∨ peek i1 = 124
        · rw [if_pos hstop]; exact hwf
        · rw [if_neg hstop]
          cases ht : parse_term f i1 with
          | out => trivial
          | fail s i2 => trivial
          | ok r2 i2 =>
            have hwf2 := ihT i1
            rw [ht] at hwf2
            exact ⟨hwf, hwf2⟩
    have hExpr : ∀ i, AWf (parse_expr (f + 1) i) := by
      intro i
      rw [parse_expr]
      cases ht : parse_term f i with
      | out => trivial
      | fail s i2 => trivial
      | ok r i1 =>
        have hwf := ihT i
        rw [ht] at hwf
        simp only
        by_cases h124 : peek i1 = 124
        · simp only [h124, if_true]
          cases he : parse_expr f (eat i1) with
          | out => trivial
          | fail s i2 => trivial
          | ok r2 i2 =>
            have hwf2 := ihE (eat i1)
            rw [he] at hwf2
            exact ⟨hwf, hwf2⟩
        · simp only [h124, if_false]
          exact hwf
    exact ⟨hAtom, hFactor, hTerm, hExpr⟩

theorem parse_ok_wf {p : List Nat} {r : RE} {i' : Input}
    (h : parse p = .ok r i') : REwf r := by
  have hwf := (parse_wf (compileFuel p)).2.2.2 ⟨p, 0⟩
  unfold parse at h
  rw [h] at hwf
  exact hwf

/-! ### The compiled pattern: sentinel, good fragment, acceptance -/

/-- Unpacking of a successful compile: the arena is the sentinel plus a good
fragment of a well-formed parsed AST, entered at the returned start state. -/
theorem compiled_good {p : List Nat} {e : Nat} {pat : RerexPattern}
    (h : rerex_compile p = .ok e pat) :
    ∃ r i' en, parse p = .ok r i' ∧ REwf r ∧
      GoodFrag pat.states 1 (List.length pat.states) r pat.start en ∧
      getSt pat.states 0 = split_state 0 0 ∧
      1 < List.length pat.states := by
  obtain ⟨r, i', hp, _, _, hpat⟩ := compile_ok_elim h
  have hwf := parse_ok_wf hp
  obtain ⟨C', s', e', hbuild, hgrow, hpres, hgood⟩ :=
    build_good r [split_state NO_STATE NO_STATE] hwf (by decide)
  subst hpat
  simp only [hbuild, make_automata_start]
  refine ⟨r, i', e', hp, hwf, hgood, ?_, hgrow⟩
  rw [hpres 0 (by decide)]
  rfl

/-- In a compiled arena, every path from the start that lands on a matching
state lands on the fragment end and spells a word of the AST's language. -/
theorem GoodFrag_stop_eq {A : List State} {r : RE} {s en : Nat}
    (hg : GoodFrag A 1 (List.length A) r s en)
    (h0 : getSt A 0 = split_state 0 0) :
    ∀ w t n, Steps A s w t n → (getSt A t).min = RMATCH → t = en ∧ Lang r w := by
  intro w t n hst hmm
  have hsem := hg.2.1 A ⟨le_refl _, fun j _ _ _ => rfl⟩
  have ht0 : t ≠ 0 := by
    intro hz
    rw [hz, h0] at hmm
    simp [RMATCH, RSPLIT] at hmm
  have htlt : t < List.length A := by
    by_contra hc
    rw [getSt_out (by omega)] at hmm
    exact absurd hmm (by decide)
  obtain ⟨w1, w2, m, hw, hl, hs2, _⟩ := hsem.1 w t n hst ⟨ht0, htlt, hmm⟩
  have hme : (getSt A en).min = RMATCH := by
    rw [hg.1.2.2.2.2.2.2.2.1]
    rfl
  obtain ⟨hw2, ht2, _⟩ := hs2.match_elim hme
  subst hw
  rw [hw2]
  exact ⟨ht2, by simpa using hl⟩

/-- Path-level acceptance of a compiled arena is exactly the language of the
parsed AST. -/
theorem GoodFrag_accept_iff {A : List State} {r : RE} {s en : Nat}
    (hg : GoodFrag A 1 (List.length A) r s en)
    (h0 : getSt A 0 = split_state 0 0) (w : List Nat) :
    (∃ t n, Steps A s w t n ∧ (getSt A t).min = RMATCH) ↔ Lang r w := by
  constructor
  · rintro ⟨t, n, hst, hmm⟩
    exact (GoodFrag_stop_eq hg h0 w t n hst hmm).2
  · intro hl
    have hsem := hg.2.1 A ⟨le_refl _, fun j _ _ _ => rfl⟩
    obtain ⟨n, hn⟩ := hsem.2 w hl
    refine ⟨en, n, hn, ?_⟩
    rw [hg.1.2.2.2.2.2.2.2.1]
    rfl

/-! ### Simulation invariants of the matcher -/

/-- Epsilon reachability. -/
def EpsSteps (A : List State) (x t : Nat) : Prop := ∃ n, Steps A x [] t n

/-- `x` is covered by the step array: null, out of bounds, or marked at the
current step. -/
def Cov (la : List Nat) (step x : Nat) : Prop :=
  x = 0 ∨ List.length la ≤ x ∨ List.getD la x 0 = step

/-- Core invariant of an active list under construction: no duplicates, all
members real non-split marked in-bounds states, and every real non-split
marked state is a member. -/
def SimCore (A : List State) (step : Nat) (la lst : List Nat) : Prop :=
  List.Nodup lst ∧
  (∀ t ∈ lst, t ≠ 0 ∧ t < List.length la ∧ List.getD la t 0 = step ∧
    (getSt A t).min ≠ RSPLIT) ∧
  (∀ j, j ≠ 0 → j < List.length la → List.getD la j 0 = step →
    (getSt A j).min ≠ RSPLIT → j ∈ lst)

/-- Every real marked split state has both successors covered. -/
def SplitCov (A : List State) (step : Nat) (la : List Nat) : Prop :=
  ∀ j, j ≠ 0 → j < List.length la → List.getD la j 0 = step →
    (getSt A j).min = RSPLIT →
    Cov la step (getSt A j).next1 ∧ Cov la step (getSt A j).next2

/-- The state's label range contains the byte. -/
def Fires (A : List State) (c t : Nat) : Prop :=
  (getSt A t).min ≤ c ∧ c ≤ (getSt A t).max

/-- All step-array values are the reset value or at most the current index. -/
def LaVals (la : List Nat) (idx : Nat) : Prop :=
  ∀ j, j < List.length la → List.getD la j 0 = USIZE_MAX ∨ List.getD la j 0 ≤ idx

/-- The active list is exactly the set of real non-split states reached from
`s` by consuming `u`. -/
def StepSpec (A : List State) (s : Nat) (u lst : List Nat) : Prop :=
  ∀ t, t ∈ lst ↔ (t ≠ 0 ∧ t < List.length A ∧ (getSt A t).min ≠ RSPLIT ∧
    ∃ n, Steps A s u t n)

theorem getD_lt (la : List Nat) {i : Nat} (h : i < List.length la) (d1 d2 : Nat) :
    List.getD la i d1 = List.getD la i d2 := by
  simp [List.getD, List.getElem?_eq_getElem h]

theorem getD_set_ne (la : List Nat) (v : Nat) {j k : Nat} (h : j ≠ k) :
    List.getD (List.set la k v) j 0 = List.getD la j 0 := by
  simp [List.getD, List.getElem?_set_ne (Ne.symm h)]

theorem getD_set_self (la : List Nat) (v : Nat) {k : Nat} (h : k < List.length la) :
    List.getD (List.set la k v) k 0 = v := by
  simp [List.getD, List.getElem?_set_self, h]

theorem Cov_mono {la la' : List Nat} {step x : Nat}
    (hlen : List.length la' = List.length la)
    (hgrow : ∀ j, j < List.length la → List.getD la j 0 = step → List.getD la' j 0 = step)
    (h : Cov la step x) : Cov la' step x := by
  rcases h with h | h | h
  · exact Or.inl h
  · exact Or.inr (Or.inl (by omega))
  · by_cases hx : x < List.length la
    · exact Or.inr (Or.inr (hgrow x hx h))
    · exact Or.inr (Or.inl (by omega))

/-- Closure: with the invariants, every real non-split state epsilon-reachable
from a covered state is in the list. -/
theorem SimClosure {A : List State} {step : Nat} {la lst : List Nat}
    (hla : List.length la = List.length A)
    (hc : SimCore A step la lst) (hs : SplitCov A step la) :
    ∀ n x t, Cov la step x → Steps A x [] t n → t ≠ 0 →
      (getSt A t).min ≠ RSPLIT → t < List.length la → t ∈ lst := by
  intro n
  induction n with
  | zero =>
    intro x t hcov hst ht0 htns htlt
    cases hst with
    | refl =>
      rcases hcov with h | h | h
      · exact absurd h ht0
      · omega
      · exact hc.2.2 x ht0 htlt h htns
  | succ n ih =>
    intro x t hcov hst ht0 htns htlt
    cases hst with
    | eps hx0 hxlt hxsp hnx hrest =>
      rcases hcov with h | h | h
      · exact absurd h hx0
      · omega
      · have hsc := hs x hx0 (by omega) h hxsp
        rcases hnx with hnx | hnx
        · exact ih _ t (hnx ▸ hsc.1) hrest ht0 htns htlt
        · exact ih _ t (hnx ▸ hsc.2) hrest ht0 htns htlt

/-- Everything `enter_state` guarantees: length preservation, the exact mark
delta, mark growth, list growth, epsilon-soundness of the additions, the core
invariant, coverage of the entered state, and coverage of the successors of
newly marked splits. -/
def EnterSpec (A : List State) (step : Nat) (la lst : List Nat) (x : Nat)
    (la' lst' : List Nat) : Prop :=
  List.length la' = List.length la ∧
  (∀ j, List.getD la' j 0 = List.getD la j 0 ∨
    (j ≠ 0 ∧ j < List.length la ∧ List.getD la' j 0 = step ∧
      List.getD la j 0 ≠ step)) ∧
  (∀ j, j < List.length la → List.getD la j 0 = step → List.getD la' j 0 = step) ∧
  (∀ t ∈ lst, t ∈ lst') ∧
  (∀ t ∈ lst', t ∈ lst ∨ (EpsSteps A x t ∧ List.getD la t 0 ≠ step)) ∧
  SimCore A step la' lst' ∧
  Cov la' step x ∧
  (∀ j, j ≠ 0 → j < List.length la → List.getD la j 0 ≠ step →
    List.getD la' j 0 = step → (getSt A j).min = RSPLIT →
    Cov la' step (getSt A j).next1 ∧ Cov la' step (getSt A j).next2)

/-- The identity `EnterSpec`, for the arms that return the input unchanged. -/
theorem EnterSpec_id {A : List State} {step : Nat} {la lst : List Nat} {x : Nat}
    (hcore : SimCore A step la lst) (hcov : Cov la step x) :
    EnterSpec A step la lst x la lst :=
  ⟨rfl, fun _ => Or.inl rfl, fun _ _ h => h, fun _ ht => ht, fun _ ht => Or.inl ht,
    hcore, hcov, fun _ _ _ hne hmk _ => absurd hmk hne⟩

theorem enter_state_spec {A : List State} {step : Nat} :
    ∀ (fuel : Nat) (la lst : List Nat) (x : Nat) {la' lst' : List Nat},
    enter_state A step fuel la lst x = some (la', lst') →
    List.length la = List.length A →
    SimCore A step la lst →
    EnterSpec A step la lst x la' lst' := by
  intro fuel
  induction fuel with
  | zero =>
    intro la lst x la' lst' h
    cases h
  | succ f ih =>
    intro la lst x la' lst' h hla hcore
    cases x with
    | zero =>
      simp only [enter_state] at h
      cases h
      exact EnterSpec_id hcore (Or.inl rfl)
    | succ s =>
      simp only [enter_state] at h
      by_cases hmk : List.getD la (s + 1) step = step
      · rw [if_pos hmk] at h
        cases h
        refine EnterSpec_id hcore ?_
        by_cases hlt : s + 1 < List.length la
        · exact Or.inr (Or.inr (by rw [getD_lt la hlt 0 step]; exact hmk))
        · exact Or.inr (Or.inl (by omega))
      · rw [if_neg hmk] at h
        by_cases hlt : s + 1 < List.length la
        · rw [if_pos hlt] at h
          have hmk0 : List.getD la (s + 1) 0 ≠ step := by
            rw [getD_lt la hlt 0 step]
            exact hmk
          by_cases hsp : (getSt A (s + 1)).min = RSPLIT
          · rw [if_pos hsp] at h
            have hla1 : List.length (List.set la (s + 1) step) = List.length A := by
              rw [List.length_set]
              exact hla
            have hmemne : ∀ t ∈ lst, t ≠ s + 1 := by
              intro t ht he
              have := (hcore.2.1 t ht).2.2.1
              rw [he] at this
              exact hmk0 this
            have hcore1 : SimCore A step (List.set la (s + 1) step) lst := by
              refine ⟨hcore.1, ?_, ?_⟩
              · intro t ht
                obtain ⟨h1, h2, h3, h4⟩ := hcore.2.1 t ht
                exact ⟨h1, by rw [List.length_set]; omega,
                  by rw [getD_set_ne la step (hmemne t ht)]; exact h3, h4⟩
              · intro j hj0 hjlt hjmk hjns
                by_cases hje : j = s + 1
                · rw [hje] at hjns
                  exact absurd hsp hjns
                · rw [getD_set_ne la step hje] at hjmk
                  exact hcore.2.2 j hj0 (by rw [List.length_set] at hjlt; omega) hjmk hjns
            cases hrec1 : enter_state A step f (List.set la (s + 1) step) lst
                (getSt A (s + 1)).next1 with
            | none =>
              rw [hrec1] at h
              cases h
            | some pr =>
              obtain ⟨la2, lst2⟩ := pr
              rw [hrec1] at h
              simp only at h
              have hsub1 := ih (List.set la (s + 1) step) lst _ hrec1 hla1 hcore1
              have hla2 : List.length la2 = List.length A := by
                rw [hsub1.1, List.length_set]
                exact hla
              have hsub2 := ih la2 lst2 _ h hla2 hsub1.2.2.2.2.2.1
              obtain ⟨hl1, hm1, hg1, hs1, ha1, hc1, hv1, hn1⟩ := hsub1
              obtain ⟨hl2, hm2, hg2, hs2, ha2, hc2, hv2, hn2⟩ := hsub2
              rw [List.length_set] at hl1
              have hlen' : List.length la' = List.length la := by
                rw [hl2, hl1]
              -- marks of la1 relative to la
              have hm0 : ∀ j, List.getD (List.set la (s + 1) step) j 0 =
                  List.getD la j 0 ∨
                  (j ≠ 0 ∧ j < List.length la ∧
                    List.getD (List.set la (s + 1) step) j 0 = step ∧
                    List.getD la j 0 ≠ step) := by
                intro j
                by_cases hje : j = s + 1
                · rw [hje]
                  exact Or.inr ⟨by omega, hlt, getD_set_self la step hlt, hmk0⟩
                · exact Or.inl (getD_set_ne la step hje)
              have hg0 : ∀ j, j < List.length la → List.getD la j 0 = step →
                  List.getD (List.set la (s + 1) step) j 0 = step := by
                intro j hj hjm
                by_cases hje : j = s + 1
                · rw [hje]
                  exact getD_set_self la step hlt
                · rw [getD_set_ne la step hje]
                  exact hjm
              have hgrow : ∀ j, j < List.length la → List.getD la j 0 = step →
                  List.getD la' j 0 = step := by
                intro j hj hjm
                exact hg2 j (by omega) (hg1 j (by rw [List.length_set]; omega) (hg0 j hj hjm))
              have hx0 : (s : Nat) + 1 ≠ 0 := by omega
              have hxA : s + 1 < List.length A := by omega
              refine ⟨hlen', ?_, hgrow, ?_, ?_, hc2, ?_, ?_⟩
              · -- mark delta
                intro j
                rcases hm2 j with h2 | ⟨hj0, hjlt, hjs, hjne⟩
                · rcases hm1 j with h1 | ⟨hj0, hjlt, hjs, hjne⟩
                  · rcases hm0 j with h0 | ⟨hj0, hjlt, hjs, hjne⟩
                    · exact Or.inl (by rw [h2, h1, h0])
                    · exact Or.inr ⟨hj0, hjlt, by rw [h2, h1]; exact hjs, hjne⟩
                  · refine Or.inr ⟨hj0, by omega, by rw [h2]; exact hjs, ?_⟩
                    intro hc
                    exact hjne (hg0 j (by omega) hc)
                · refine Or.inr ⟨hj0, by omega, hjs, ?_⟩
                  intro hc
                  exact hjne (hg1 j (by omega)
                    (hg0 j (by omega) hc))
              · -- list growth
                intro t ht
                exact hs2 t (hs1 t ht)
              · -- epsilon soundness of additions
                have hG0 : ∀ j, List.getD la j 0 = step →
                    List.getD (List.set la (s + 1) step) j 0 = step := by
                  intro j hj
                  by_cases hjlt : j < List.length la
                  · exact hg0 j hjlt hj
                  · rw [List.getD_eq_default _ _ (by omega : List.length la ≤ j)] at hj
                    rw [List.getD_eq_default _ _
                      (by rw [List.length_set]; omega : List.length (List.set la (s + 1) step) ≤ j)]
                    exact hj
                have hG1 : ∀ j, List.getD (List.set la (s + 1) step) j 0 = step →
                    List.getD la2 j 0 = step := by
                  intro j hj
                  by_cases hjlt : j < List.length la
                  · exact hg1 j (by rw [List.length_set]; omega) hj
                  · rw [List.getD_eq_default _ _
                      (by rw [List.length_set]; omega : List.length (List.set la (s + 1) step) ≤ j)] at hj
                    rw [List.getD_eq_default _ _ (by omega : List.length la2 ≤ j)]
                    exact hj
                intro t ht
                rcases ha2 t ht with ht2 | ⟨⟨n, hn⟩, hne2⟩
                · rcases ha1 t ht2 with ht1 | ⟨⟨n, hn⟩, hne1⟩
                  · exact Or.inl ht1
                  · refine Or.inr ⟨⟨n + 1, Steps.eps hx0 hxA hsp (Or.inl rfl) hn⟩, ?_⟩
                    exact fun hc => hne1 (hG0 t hc)
                · refine Or.inr ⟨⟨n + 1, Steps.eps hx0 hxA hsp (Or.inr rfl) hn⟩, ?_⟩
                  exact fun hc => hne2 (hG1 t (hG0 t hc))
              · -- coverage of the entered split state
                have : List.getD la' (s + 1) 0 = step :=
                  hg2 (s + 1) (by omega) (hg1 (s + 1) (by rw [List.length_set]; omega)
                    (getD_set_self la step hlt))
                exact Or.inr (Or.inr this)
              · -- newly marked splits have covered successors
                intro j hj0 hjlt hjold hjnew hjsp
                by_cases hje : j = s + 1
                · subst hje
                  constructor
                  · exact Cov_mono hl2 (fun k hk hkm => hg2 k (by omega) hkm) hv1
                  · exact hv2
                · have hold1 : List.getD (List.set la (s + 1) step) j 0 ≠ step := by
                    rw [getD_set_ne la step hje]
                    exact hjold
                  by_cases hmid : List.getD la2 j 0 = step
                  · have hcv := hn1 j hj0 (by rw [List.length_set]; omega) hold1 hmid hjsp
                    exact ⟨Cov_mono hl2 (fun k hk hkm => hg2 k (by omega) hkm) hcv.1,
                      Cov_mono hl2 (fun k hk hkm => hg2 k (by omega) hkm) hcv.2⟩
                  · exact hn2 j hj0 (by omega) hmid hjnew hjsp
          · rw [if_neg hsp] at h
            cases h
            have hnodup : List.Nodup (List.append lst [s + 1]) := by
              rw [List.append_eq, List.nodup_append]
              exact ⟨hcore.1, List.nodup_singleton _,
                fun t ht => by
                  simp only [List.mem_singleton]
                  intro he
                  exact (by
                    have := (hcore.2.1 t ht).2.2.1
                    rw [he] at this
                    exact hmk0 this : False)⟩
            refine ⟨List.length_set la _ _, ?_, ?_, ?_, ?_, ?_, ?_, ?_⟩
            · intro j
              by_cases hje : j = s + 1
              · rw [hje]
                exact Or.inr ⟨by omega, hlt, getD_set_self la step hlt, hmk0⟩
              · exact Or.inl (getD_set_ne la step hje)
            · intro j hj hjm
              by_cases hje : j = s + 1
              · rw [hje]
                exact getD_set_self la step hlt
              · rw [getD_set_ne la step hje]
                exact hjm
            · intro t ht
              rw [List.append_eq]
              exact List.mem_append_left _ ht
            · intro t ht
              rw [List.append_eq, List.mem_append] at ht
              rcases ht with ht | ht
              · exact Or.inl ht
              · rw [List.mem_singleton] at ht
                subst ht
                exact Or.inr ⟨⟨0, Steps.refl _⟩, hmk0⟩
            · refine ⟨hnodup, ?_, ?_⟩
              · intro t ht
                rw [List.append_eq, List.mem_append] at ht
                rcases ht with ht | ht
                · obtain ⟨h1, h2, h3, h4⟩ := hcore.2.1 t ht
                  have htne : t ≠ s + 1 := by
                    intro he
                    rw [he] at h3
                    exact hmk0 h3
                  exact ⟨h1, by rw [List.length_set]; omega,
                    by rw [getD_set_ne la step htne]; exact h3, h4⟩
                · rw [List.mem_singleton] at ht
                  subst ht
                  exact ⟨by omega, by rw [List.length_set]; omega,
                    getD_set_self la step hlt, hsp⟩
              · intro j hj0 hjlt hjmk hjns
                rw [List.append_eq]
                by_cases hje : j = s + 1
                · rw [hje]
                  exact List.mem_append_right _ (by simp)
                · rw [getD_set_ne la step hje] at hjmk
                  rw [List.length_set] at hjlt
                  exact List.mem_append_left _ (hcore.2.2 j hj0 hjlt hjmk hjns)
            · exact Or.inr (Or.inr (getD_set_self la step hlt))
            · intro j hj0 hjlt hjold hjnew hjsp
              by_cases hje : j = s + 1
              · rw [hje] at hjsp
                exact absurd hjsp hsp
              · rw [getD_set_ne la step hje] at hjnew
                exact absurd hjnew hjold
        · rw [if_neg hlt] at h
          cases h
          exact EnterSpec_id hcore (Or.inr (Or.inl (by omega)))

/-- Marking an unmarked in-bounds position strictly decreases the number of
unmarked positions. -/
theorem cnt_set_lt {step : Nat} : ∀ (la : List Nat) (k : Nat), k < List.length la →
    List.getD la k 0 ≠ step →
    List.countP (fun v => decide (v ≠ step)) (List.set la k step) <
      List.countP (fun v => decide (v ≠ step)) la := by
  intro la
  induction la with
  | nil => intro k hk; simp at hk
  | cons a l ih =>
    intro k hk hne
    cases k with
    | zero =>
      rw [List.getD_cons_zero] at hne
      simp only [List.set, List.countP_cons, decide_eq_true_eq]
      rw [if_neg (fun hc : step ≠ step => hc rfl), if_pos hne]
      omega
    | succ k =>
      rw [List.getD_cons_succ] at hne
      simp only [List.set, List.countP_cons]
      have := ih k (by simpa using hk) hne
      omega

/-- Growing marks only toward the current step does not increase the number
of unmarked positions. -/
theorem cnt_mono_grow {step : Nat} : ∀ (l1 l2 : List Nat), List.length l2 = List.length l1 →
    (∀ j, j < List.length l1 → List.getD l2 j 0 = List.getD l1 j 0 ∨
      List.getD l2 j 0 = step) →
    List.countP (fun v => decide (v ≠ step)) l2 ≤
      List.countP (fun v => decide (v ≠ step)) l1 := by
  intro l1
  induction l1 with
  | nil =>
    intro l2 hl _
    rw [List.eq_nil_of_length_eq_zero hl]
  | cons a l ih =>
    intro l2 hl h
    cases l2 with
    | nil => simp at hl
    | cons b l2' =>
      simp only [List.length_cons] at hl
      have hb := h 0 (by simp)
      rw [List.getD_cons_zero, List.getD_cons_zero] at hb
      have htl := ih l2' (by omega) (fun j hj => by
        have := h (j + 1) (by simp only [List.length_cons]; omega)
        rw [List.getD_cons_succ, List.getD_cons_succ] at this
        exact this)
      simp only [List.countP_cons, decide_eq_true_eq]
      rcases hb with hb | hb
      · rw [hb]
        omega
      · rw [hb]
        rw [if_neg (by simp)]
        omega

/-- Mark the head of the recursion as a split, preserving the core invariant
(extracted for reuse). -/
theorem SimCore_mark_split {A : List State} {step : Nat} {la lst : List Nat} {s : Nat}
    (hcore : SimCore A step la lst) (hlt : s + 1 < List.length la)
    (hmk0 : List.getD la (s + 1) 0 ≠ step) (hsp : (getSt A (s + 1)).min = RSPLIT) :
    SimCore A step (List.set la (s + 1) step) lst := by
  refine ⟨hcore.1, ?_, ?_⟩
  · intro t ht
    obtain ⟨h1, h2, h3, h4⟩ := hcore.2.1 t ht
    have htne : t ≠ s + 1 := by
      intro he
      rw [he] at h3
      exact hmk0 h3
    exact ⟨h1, by rw [List.length_set]; omega,
      by rw [getD_set_ne la step htne]; exact h3, h4⟩
  · intro j hj0 hjlt hjmk hjns
    by_cases hje : j = s + 1
    · rw [hje] at hjns
      exact absurd hsp hjns
    · rw [getD_set_ne la step hje] at hjmk
      exact hcore.2.2 j hj0 (by rw [List.length_set] at hjlt; omega) hjmk hjns

/-- With more fuel than unmarked positions, `enter_state` succeeds. -/
theorem enter_state_isSome {A : List State} {step : Nat} :
    ∀ (fuel : Nat) (la lst : List Nat) (x : Nat),
    List.length la = List.length A → SimCore A step la lst →
    List.countP (fun v => decide (v ≠ step)) la < fuel →
    (enter_state A step fuel la lst x).isSome = true := by
  intro fuel
  induction fuel with
  | zero =>
    intro la lst x _ _ hcnt
    omega
  | succ f ih =>
    intro la lst x hla hcore hcnt
    cases x with
    | zero => simp [enter_state]
    | succ s =>
      simp only [enter_state]
      by_cases hmk : List.getD la (s + 1) step = step
      · rw [if_pos hmk]
        rfl
      · rw [if_neg hmk]
        by_cases hlt : s + 1 < List.length la
        · rw [if_pos hlt]
          have hmk0 : List.getD la (s + 1) 0 ≠ step := by
            rw [getD_lt la hlt 0 step]
            exact hmk
          have hla1 : List.length (List.set la (s + 1) step) = List.length A := by
            rw [List.length_set]
            exact hla
          have hcnt1 := @cnt_set_lt step la (s + 1) hlt hmk0
          by_cases hsp : (getSt A (s + 1)).min = RSPLIT
          · rw [if_pos hsp]
            have hcore1 := SimCore_mark_split hcore hlt hmk0 hsp
            cases hrec1 : enter_state A step f (List.set la (s + 1) step) lst
                (getSt A (s + 1)).next1 with
            | none =>
              have := ih (List.set la (s + 1) step) lst (getSt A (s + 1)).next1
                hla1 hcore1 (by omega)
              rw [hrec1] at this
              cases this
            | some pr =>
              obtain ⟨la2, lst2⟩ := pr
              simp only
              have hspec := enter_state_spec f (List.set la (s + 1) step) lst
                (getSt A (s + 1)).next1 hrec1 hla1 hcore1
              have hcnt2 : List.countP (fun v => decide (v ≠ step)) la2 ≤
                  List.countP (fun v => decide (v ≠ step)) (List.set la (s + 1) step) := by
                refine cnt_mono_grow _ la2 hspec.1 (fun j hj => ?_)
                rcases hspec.2.1 j with h | ⟨_, _, h, _⟩
                · exact Or.inl h
                · exact Or.inr h
              exact ih la2 lst2 (getSt A (s + 1)).next2
                (by rw [hspec.1]; exact hla1) hspec.2.2.2.2.2.1 (by omega)
          · rw [if_neg hsp]
            rfl
        · rw [if_neg hlt]
          rfl

/-- The total wrapper always satisfies the full specification. -/
theorem enterT_spec {A : List State} {step : Nat} (la lst : List Nat) (x : Nat)
    (hla : List.length la = List.length A) (hcore : SimCore A step la lst) :
    EnterSpec A step la lst x (enterT A step la lst x).1 (enterT A step la lst x).2 := by
  have hs := enter_state_isSome (List.length la + 1) la lst x hla hcore
    (by have := @List.countP_le_length Nat (fun v => decide (v ≠ step)) la; omega)
  obtain ⟨pr, hpr⟩ := Option.isSome_iff_exists.mp hs
  obtain ⟨la', lst'⟩ := pr
  unfold enterT
  rw [hpr]
  exact enter_state_spec _ la lst x hpr hla hcore

/-- `SplitCov` is preserved by any `EnterSpec` transition. -/
theorem SplitCov_enter {A : List State} {step : Nat} {la lst : List Nat} {x : Nat}
    {la' lst' : List Nat} (hsp : EnterSpec A step la lst x la' lst')
    (hcov : SplitCov A step la) : SplitCov A step la' := by
  obtain ⟨hlen, hm, hg, _, _, _, _, hn⟩ := hsp
  intro j hj0 hjlt hjmk hjsp
  rcases hm j with he | ⟨_, hjla, _, hne⟩
  · rw [he] at hjmk
    have hc := hcov j hj0 (by omega) hjmk hjsp
    exact ⟨Cov_mono hlen (fun k hk km => hg k hk km) hc.1,
      Cov_mono hlen (fun k hk km => hg k hk km) hc.2⟩
  · exact hn j hj0 hjla hne hjmk hjsp

/-- Specification of the fold inside `matchStep`: the produced list collects
exactly the epsilon-closures of the successors of firing states. -/
theorem matchStep_fold {A : List State} {c step : Nat} {la0 : List Nat} :
    ∀ (R laP lstP : List Nat) {la' lst' : List Nat},
    List.foldl (fun acc t =>
        let st := getSt A t
        if st.min ≤ c ∧ c ≤ st.max then enterT A step acc.1 acc.2 st.next1 else acc)
      (laP, lstP) R = (la', lst') →
    List.length laP = List.length A →
    SimCore A step laP lstP → SplitCov A step laP →
    (∀ j, List.getD laP j 0 = List.getD la0 j 0 ∨ List.getD laP j 0 = step) →
    List.length la' = List.length A ∧
    SimCore A step la' lst' ∧ SplitCov A step la' ∧
    (∀ j, List.getD la' j 0 = List.getD la0 j 0 ∨ List.getD la' j 0 = step) ∧
    (∀ j, j < List.length laP → List.getD laP j 0 = step → List.getD la' j 0 = step) ∧
    (∀ t ∈ lstP, t ∈ lst') ∧
    (∀ t ∈ lst', t ∈ lstP ∨ ∃ t0 ∈ R, Fires A c t0 ∧
      EpsSteps A (getSt A t0).next1 t) ∧
    (∀ t0 ∈ R, Fires A c t0 → Cov la' step (getSt A t0).next1) := by
  intro R
  induction R with
  | nil =>
    intro laP lstP la' lst' h hla hcore hsplit hmk
    rw [List.foldl_nil] at h
    cases h
    exact ⟨hla, hcore, hsplit, hmk, fun j _ hj => hj, fun t ht => ht,
      fun t ht => Or.inl ht, fun t0 ht0 => absurd ht0 (List.not_mem_nil t0)⟩
  | cons t0 R' ih =>
    intro laP lstP la' lst' h hla hcore hsplit hmk
    rw [List.foldl_cons] at h
    simp only at h
    by_cases hf : (getSt A t0).min ≤ c ∧ c ≤ (getSt A t0).max
    · rw [if_pos hf] at h
      have hsp := @enterT_spec A step laP lstP (getSt A t0).next1 hla hcore
      obtain ⟨hlen1, hm1, hg1, hs1, ha1, hc1, hv1, hn1⟩ := hsp
      have hsplit1 : SplitCov A step (enterT A step laP lstP (getSt A t0).next1).1 :=
        SplitCov_enter ⟨hlen1, hm1, hg1, hs1, ha1, hc1, hv1, hn1⟩ hsplit
      have hmk1 : ∀ j, List.getD (enterT A step laP lstP (getSt A t0).next1).1 j 0 =
          List.getD la0 j 0 ∨
          List.getD (enterT A step laP lstP (getSt A t0).next1).1 j 0 = step := by
        intro j
        rcases hm1 j with he | ⟨_, _, he, _⟩
        · rw [he]
          exact hmk j
        · exact Or.inr he
      rw [show enterT A step laP lstP (getSt A t0).next1 =
        ((enterT A step laP lstP (getSt A t0).next1).1,
         (enterT A step laP lstP (getSt A t0).next1).2) from rfl] at h
      obtain ⟨hlen', hcore', hsplit', hmk', hgrow', hsub', hadd', hcov'⟩ :=
        ih _ _ h (by rw [hlen1]; exact hla) hc1 hsplit1 hmk1
      refine ⟨hlen', hcore', hsplit', hmk', ?_, ?_, ?_, ?_⟩
      · intro j hj hjm
        exact hgrow' j (by omega) (hg1 j hj hjm)
      · intro t ht
        exact hsub' t (hs1 t ht)
      · intro t ht
        rcases hadd' t ht with ht1 | ⟨t1, ht1, hfire1, heps1⟩
        · rcases ha1 t ht1 with ht2 | ⟨heps, _⟩
          · exact Or.inl ht2
          · exact Or.inr ⟨t0, List.mem_cons_self t0 R', hf, heps⟩
        · exact Or.inr ⟨t1, List.mem_cons_of_mem t0 ht1, hfire1, heps1⟩
      · intro t1 ht1 hfire1
        rcases List.mem_cons.mp ht1 with he | ht1'
        · subst he
          exact Cov_mono (by rw [hlen', hlen1, hla]) (fun k hk km => hgrow' k hk km) hv1
        · exact hcov' t1 ht1' hfire1
    · rw [if_neg hf] at h
      obtain ⟨hlen', hcore', hsplit', hmk', hgrow', hsub', hadd', hcov'⟩ :=
        ih _ _ h hla hcore hsplit hmk
      refine ⟨hlen', hcore', hsplit', hmk', hgrow', hsub', ?_, ?_⟩
      · intro t ht
        rcases hadd' t ht with ht1 | ⟨t1, ht1, hfire1, heps1⟩
        · exact Or.inl ht1
        · exact Or.inr ⟨t1, List.mem_cons_of_mem t0 ht1, hfire1, heps1⟩
      · intro t1 ht1 hfire1
        rcases List.mem_cons.mp ht1 with he | ht1'
        · subst he
          exact absurd hfire1 hf
        · exact hcov' t1 ht1' hfire1

/-- Peeling the final labelled step off a path that consumes `u ++ [c]`. -/
theorem Steps_snoc {A : List State} {c : Nat} :
    ∀ {s w t n}, Steps A s w t n → ∀ u, w = u ++ [c] →
    ∃ t0 n1 n2, Steps A s u t0 n1 ∧ t0 ≠ 0 ∧ t0 < List.length A ∧
      (getSt A t0).min ≤ c ∧ c ≤ (getSt A t0).max ∧ c ≤ 255 ∧
      Steps A (getSt A t0).next1 [] t n2 := by
  intro s w t n h
  induction h with
  | refl s =>
    intro u hu
    exact absurd hu (by simp)
  | eps hs0 hslt hsp hnx hrest ih =>
    intro u hu
    obtain ⟨t0, n1, n2, h1, h2, h3, h4, h5, h6, h7⟩ := ih u hu
    exact ⟨t0, n1 + 1, n2, Steps.eps hs0 hslt hsp hnx h1, h2, h3, h4, h5, h6, h7⟩
  | char hs0 hslt hmin hmax hle hrest ih =>
    rename_i s' u' c0 w0 n0
    intro u hu
    cases u with
    | nil =>
      simp only [List.nil_append, List.cons.injEq] at hu
      obtain ⟨hc0, hw0⟩ := hu
      subst hc0
      subst hw0
      exact ⟨s', 0, n0, Steps.refl s', hs0, hslt, hmin, hmax, hle, hrest⟩
    | cons u0 u2 =>
      simp only [List.cons_append, List.cons.injEq] at hu
      obtain ⟨hc0, hw0⟩ := hu
      subst hc0
      obtain ⟨t0, n1, n2, h1, h2, h3, h4, h5, h6, h7⟩ := ih u2 hw0
      exact ⟨t0, n1 + 1, n2, Steps.char hs0 hslt hmin hmax hle h1, h2, h3, h4, h5, h6, h7⟩

/-- One character of simulation: `matchStep` turns the active list for `u`
into the active list for `u ++ [c]`. -/
theorem StepSpec_step {A : List State} {sstart : Nat} {u : List Nat} {c : Nat}
    {idx : Nat} {la lst : List Nat} {la' lst' : List Nat}
    (hms : matchStep A c (idx + 1) la lst = (la', lst'))
    (hla : List.length la = List.length A)
    (hfresh : ∀ j, j < List.length la → List.getD la j 0 ≠ idx + 1)
    (hspec : StepSpec A sstart u lst)
    (hc255 : c ≤ 255) :
    StepSpec A sstart (u ++ [c]) lst' ∧ List.length la' = List.length A ∧
    SimCore A (idx + 1) la' lst' ∧
    (∀ j, List.getD la' j 0 = List.getD la j 0 ∨ List.getD la' j 0 = idx + 1) := by
  have hcore0 : SimCore A (idx + 1) la [] := by
    refine ⟨List.nodup_nil, by simp, ?_⟩
    intro j hj0 hjlt hjmk _
    exact absurd hjmk (hfresh j hjlt)
  have hsplit0 : SplitCov A (idx + 1) la := by
    intro j hj0 hjlt hjmk _
    exact absurd hjmk (hfresh j hjlt)
  unfold matchStep at hms
  obtain ⟨hlen', hcore', hsplit', hmk', hgrow', hsub', hadd', hcov'⟩ :=
    @matchStep_fold A c (idx + 1) la lst la [] _ _ hms hla hcore0 hsplit0
      (fun j => Or.inl rfl)
  refine ⟨?_, hlen', hcore', hmk'⟩
  intro t
  constructor
  · intro ht
    rcases hadd' t ht with ht1 | ⟨t0, ht0, hfire, ⟨n2, hn2⟩⟩
    · exact absurd ht1 (List.not_mem_nil t)
    · obtain ⟨ht00, ht0lt, _, n0, hn0⟩ := (hspec t0).mp ht0
      obtain ⟨h1, h2, _, h4⟩ := hcore'.2.1 t ht
      refine ⟨h1, by omega, h4, n0 + (n2 + 1), ?_⟩
      exact hn0.trans (Steps.char ht00 ht0lt hfire.1 hfire.2 hc255 hn2)
  · rintro ⟨ht0, htlt, htns, k, hst⟩
    obtain ⟨t0, n1, n2, h1, h2, h3, h4, h5, h6, h7⟩ := Steps_snoc hst u rfl
    have ht0mem : t0 ∈ lst := (hspec t0).mpr ⟨h2, h3, by
      intro hc
      rw [hc] at h4
      simp only [RSPLIT] at h4
      omega, n1, h1⟩
    have hcv := hcov' t0 ht0mem ⟨h4, h5⟩
    exact SimClosure hlen' hcore' hsplit' n2 _ t hcv h7 ht0 htns (by omega)

/-- The per-character loop: `matchLoop` accepts exactly when some path from
the start consumes the whole input and lands on a matching state. -/
theorem matchLoop_spec {A : List State} {sstart : Nat}
    (h0 : getSt A 0 = split_state 0 0) :
    ∀ (v : List Nat) (idx : Nat) (la lst : List Nat) (u : List Nat),
    List.length la = List.length A →
    LaVals la idx →
    StepSpec A sstart u lst →
    (∀ c ∈ v, c ≤ 255) →
    idx + List.length v < USIZE_MAX →
    (matchLoop A v idx la lst = true ↔
      ∃ t k, Steps A sstart (u ++ v) t k ∧ (getSt A t).min = RMATCH) := by
  intro v
  induction v with
  | nil =>
    intro idx la lst u hla hvals hspec _ _
    simp only [matchLoop, List.append_nil]
    constructor
    · intro h
      obtain ⟨t, ht, hdec⟩ := List.any_eq_true.mp h
      rw [decide_eq_true_eq] at hdec
      obtain ⟨_, _, _, n, hn⟩ := (hspec t).mp ht
      exact ⟨t, n, hn, hdec⟩
    · rintro ⟨t, k, hst, hmm⟩
      refine List.any_eq_true.mpr ⟨t, ?_, by rw [decide_eq_true_eq]; exact hmm⟩
      refine (hspec t).mpr ⟨?_, ?_, ?_, k, hst⟩
      · intro hz
        rw [hz, h0] at hmm
        simp [RMATCH, RSPLIT] at hmm
      · by_contra hc
        rw [getSt_out (by omega)] at hmm
        exact absurd hmm (by decide)
      · rw [hmm]
        simp [RMATCH, RSPLIT]
  | cons c v' ih =>
    intro idx la lst u hla hvals hspec hval hlen
    have hfresh : ∀ j, j < List.length la → List.getD la j 0 ≠ idx + 1 := by
      intro j hj
      simp only [List.length_cons] at hlen
      rcases hvals j hj with h | h <;> omega
    have hstep := StepSpec_step
      (show matchStep A c (idx + 1) la lst =
        ((matchStep A c (idx + 1) la lst).1, (matchStep A c (idx + 1) la lst).2) from rfl)
      hla hfresh hspec (hval c (by simp))
    have hloop := ih (idx + 1) (matchStep A c (idx + 1) la lst).1
      (matchStep A c (idx + 1) la lst).2 (u ++ [c]) hstep.2.1 ?_ hstep.1
      (fun b hb => hval b (by simp [hb])) ?_
    · have hshow : matchLoop A (c :: v') idx la lst =
          matchLoop A v' (idx + 1) (matchStep A c (idx + 1) la lst).1
            (matchStep A c (idx + 1) la lst).2 := rfl
      rw [hshow, hloop]
      constructor
      · rintro ⟨t, k, hst, hmm⟩
        exact ⟨t, k, by rw [List.append_assoc] at hst; simpa using hst, hmm⟩
      · rintro ⟨t, k, hst, hmm⟩
        refine ⟨t, k, ?_, hmm⟩
        rw [List.append_assoc]
        simpa using hst
    · intro j hj
      rcases hstep.2.2.2 j with h | h
      · rw [h]
        rcases hvals j (by rw [hla, ← hstep.2.1]; exact hj) with h2 | h2
        · exact Or.inl h2
        · exact Or.inr (by omega)
      · exact Or.inr (by omega)
    · simp only [List.length_cons] at hlen
      omega

/-- The matcher simulation is faithful to the path semantics: `rerex_match`
accepts exactly the inputs that reach a matching state from the start.  (The
step-counter freshness argument needs the input shorter than `SIZE_MAX`.) -/
theorem rerex_match_steps_iff {pat : RerexPattern} {w : List Nat}
    (h0 : getSt pat.states 0 = split_state 0 0)
    (hval : ValidStr w) (hwlen : List.length w < USIZE_MAX) :
    (rerex_match pat w = true ↔
      ∃ t k, Steps pat.states pat.start w t k ∧ (getSt pat.states t).min = RMATCH) := by
  have hUM0 : USIZE_MAX ≠ 0 := by decide
  have hla0 : List.length (List.replicate (List.length pat.states) USIZE_MAX) =
      List.length pat.states := List.length_replicate _ _
  have hrep : ∀ j, j < List.length pat.states →
      List.getD (List.replicate (List.length pat.states) USIZE_MAX) j 0 = USIZE_MAX := by
    intro j hj
    rw [List.getD_eq_getElem _ _ (by rw [hla0]; exact hj)]
    simp
  have hcore0 : SimCore pat.states 0 (List.replicate (List.length pat.states) USIZE_MAX)
      [] := by
    refine ⟨List.nodup_nil, by simp, ?_⟩
    intro j hj0 hjlt hjmk _
    rw [hla0] at hjlt
    rw [hrep j hjlt] at hjmk
    exact absurd hjmk hUM0
  have hsplit0 : SplitCov pat.states 0
      (List.replicate (List.length pat.states) USIZE_MAX) := by
    intro j hj0 hjlt hjmk _
    rw [hla0] at hjlt
    rw [hrep j hjlt] at hjmk
    exact absurd hjmk hUM0
  have hT : EnterSpec pat.states 0 (List.replicate (List.length pat.states) USIZE_MAX)
      [] pat.start
      (enterT pat.states 0 (List.replicate (List.length pat.states) USIZE_MAX) []
        pat.start).1
      (enterT pat.states 0 (List.replicate (List.length pat.states) USIZE_MAX) []
        pat.start).2 :=
    enterT_spec _ _ _ hla0 hcore0
  have hsplit1 := SplitCov_enter hT hsplit0
  obtain ⟨hlen1, hm1, hg1, _, ha1, hc1, hv1, hn1⟩ := hT
  have hspec0 : StepSpec pat.states pat.start []
      (enterT pat.states 0 (List.replicate (List.length pat.states) USIZE_MAX) []
        pat.start).2 := by
    intro t
    constructor
    · intro ht
      rcases ha1 t ht with ht1 | ⟨⟨n, hn⟩, _⟩
      · exact absurd ht1 (List.not_mem_nil t)
      · obtain ⟨h1, h2, _, h4⟩ := hc1.2.1 t ht
        exact ⟨h1, by omega, h4, n, hn⟩
    · rintro ⟨ht0, htlt, htns, n, hn⟩
      exact SimClosure (by rw [hlen1]; exact hla0) hc1 hsplit1 n _ t hv1 hn ht0 htns
        (by omega)
  have hvals1 : LaVals (enterT pat.states 0
      (List.replicate (List.length pat.states) USIZE_MAX) [] pat.start).1 0 := by
    intro j hj
    rcases hm1 j with h | ⟨_, hjlt, h, _⟩
    · rw [h]
      rw [hlen1, hla0] at hj
      rw [hrep j hj]
      exact Or.inl rfl
    · exact Or.inr (by omega)
  have hloop := matchLoop_spec h0 w 0
    (enterT pat.states 0 (List.replicate (List.length pat.states) USIZE_MAX) []
      pat.start).1
    (enterT pat.states 0 (List.replicate (List.length pat.states) USIZE_MAX) []
      pat.start).2
    [] (by rw [hlen1]; exact hla0) hvals1 hspec0 hval (by omega)
  have hshow : rerex_match pat w = matchLoop pat.states w 0
      (enterT pat.states 0 (List.replicate (List.length pat.states) USIZE_MAX) []
        pat.start).1
      (enterT pat.states 0 (List.replicate (List.length pat.states) USIZE_MAX) []
        pat.start).2 := rfl
  rw [hshow, hloop]
  simp

/-- Crux: a successfully compiled pattern matches exactly the language of its
parsed AST (for inputs of bytes, shorter than `SIZE_MAX`). -/
theorem compiled_match_iff {p : List Nat} {e : Nat} {pat : RerexPattern} {r : RE}
    {i' : Input} (h : rerex_compile p = .ok e pat) (hp : parse p = .ok r i')
    {w : List Nat} (hval : ValidStr w) (hwlen : List.length w < USIZE_MAX) :
    (rerex_match pat w = true ↔ Lang r w) := by
  obtain ⟨r2, i2, en, hp2, hwf, hgood, h0, hlen⟩ := compiled_good h
  rw [hp] at hp2
  injection hp2 with hr hi
  subst hr
  rw [rerex_match_steps_iff h0 hval hwlen]
  exact GoodFrag_accept_iff hgood h0 w

/-- Words of a well-formed AST's language consist of printable bytes. -/
theorem Lang_printable : ∀ {r : RE} {w : List Nat}, REwf r → Lang r w →
    ∀ c ∈ w, cmin ≤ c ∧ c ≤ cmax := by
  intro r w hwf hl
  induction hl with
  | rng hmin hmax hle =>
    intro b hb
    rw [List.mem_singleton] at hb
    subst hb
    obtain ⟨h1, h2, h3⟩ := hwf
    exact ⟨by omega, by omega⟩
  | nrngLow hmin hmax =>
    intro b hb
    rw [List.mem_singleton] at hb
    subst hb
    obtain ⟨h1, h2, h3⟩ := hwf
    have hcc : cmin ≤ cmax := by decide
    exact ⟨hmin, by omega⟩
  | nrngHigh hmin hmax =>
    intro b hb
    rw [List.mem_singleton] at hb
    subst hb
    obtain ⟨h1, h2, h3⟩ := hwf
    exact ⟨by omega, hmax⟩
  | cat h1 h2 ih1 ih2 =>
    intro b hb
    rw [List.mem_append] at hb
    rcases hb with hb | hb
    · exact ih1 hwf.1 b hb
    · exact ih2 hwf.2 b hb
  | altL h1 ih1 => exact ih1 hwf.1
  | altR h1 ih1 => exact ih1 hwf.2
  | starNil => intro b hb; cases hb
  | starCons h1 h2 ih1 ih2 =>
    intro b hb
    rw [List.mem_append] at hb
    rcases hb with hb | hb
    · exact ih1 hwf b hb
    · exact ih2 hwf b hb
  | plusOne h1 ih1 => exact ih1 hwf
  | plusCons h1 h2 ih1 ih2 =>
    intro b hb
    rw [List.mem_append] at hb
    rcases hb with hb | hb
    · exact ih1 hwf b hb
    · exact ih2 hwf b hb
  | questNil => intro b hb; cases hb
  | questOne h1 ih1 => exact ih1 hwf

/-- A duplicate-free list of indices below `n` has at most `n` elements. -/
theorem nodup_bounded_length {l : List Nat} {n : Nat} (hnd : List.Nodup l)
    (hb : ∀ t ∈ l, t < n) : List.length l ≤ n := by
  have hsub : l ⊆ List.range n := fun t ht => List.mem_range.mpr (hb t ht)
  have := List.Subperm.length_le (List.subperm_of_subset hnd hsub)
  simpa using this

/-- Every active list of the per-character loop is duplicate-free, in bounds,
and no longer than the arena. -/
theorem activeListsLoop_bounded {A : List State} :
    ∀ (v : List Nat) (idx : Nat) (la lst : List Nat),
    List.length la = List.length A →
    LaVals la idx →
    idx + List.length v < USIZE_MAX →
    List.Nodup lst → (∀ t ∈ lst, t < List.length A) →
    ∀ l ∈ activeListsLoop A v idx la lst,
      List.Nodup l ∧ (∀ t ∈ l, t < List.length A) ∧
        List.length l ≤ List.length A := by
  intro v
  induction v with
  | nil =>
    intro idx la lst hla hvals hlen hnd hb l hl
    simp only [activeListsLoop, List.mem_singleton] at hl
    subst hl
    exact ⟨hnd, hb, nodup_bounded_length hnd hb⟩
  | cons c v' ih =>
    intro idx la lst hla hvals hlen hnd hb l hl
    have hfresh : ∀ j, j < List.length la → List.getD la j 0 ≠ idx + 1 := by
      intro j hj
      simp only [List.length_cons] at hlen
      rcases hvals j hj with h | h <;> omega
    have hcore0 : SimCore A (idx + 1) la [] := by
      refine ⟨List.nodup_nil, by simp, ?_⟩
      intro j hj0 hjlt hjmk _
      exact absurd hjmk (hfresh j hjlt)
    have hsplit0 : SplitCov A (idx + 1) la := by
      intro j hj0 hjlt hjmk _
      exact absurd hjmk (hfresh j hjlt)
    have hms : List.foldl (fun acc t =>
        let st := getSt A t
        if st.min ≤ c ∧ c ≤ st.max then enterT A (idx + 1) acc.1 acc.2 st.next1 else acc)
        (la, []) lst = ((matchStep A c (idx + 1) la lst).1,
          (matchStep A c (idx + 1) la lst).2) := rfl
    obtain ⟨hlen', hcore', hsplit', hmk', _, _, _, _⟩ :=
      @matchStep_fold A c (idx + 1) la lst la [] _ _ hms hla hcore0 hsplit0
        (fun j => Or.inl rfl)
    have hshow : activeListsLoop A (c :: v') idx la lst =
        lst :: activeListsLoop A v' (idx + 1) (matchStep A c (idx + 1) la lst).1
          (matchStep A c (idx + 1) la lst).2 := rfl
    rw [hshow] at hl
    rcases List.mem_cons.mp hl with he | hl'
    · subst he
      exact ⟨hnd, hb, nodup_bounded_length hnd hb⟩
    · refine ih (idx + 1) _ _ hlen' ?_ ?_ hcore'.1 ?_ l hl'
      · intro j hj
        rcases hmk' j with h | h
        · rw [h]
          rcases hvals j (by rw [hla, ← hlen']; exact hj) with h2 | h2
          · exact Or.inl h2
          · exact Or.inr (by omega)
        · exact Or.inr (by omega)
      · simp only [List.length_cons] at hlen
        omega
      · intro t ht
        exact (hcore'.2.1 t ht).2.1.trans_le (le_of_eq hlen')

/-- C9: in every `rerex_match` run (on an input shorter than `SIZE_MAX`, the
reset value of the step counters), the `last_active` deduplication ensures
that every active list — the initial one and the one after each character —
contains each state index at most once and only in-bounds indices, so its
length never exceeds the arena size, the capacity `rerex_new_matcher`
allocates per list. -/
theorem active_lists_bounded (pat : RerexPattern) (w : List Nat)
    (hwlen : List.length w < USIZE_MAX) :
    ∀ l ∈ activeLists pat w, List.Nodup l ∧
      (∀ t ∈ l, t < List.length pat.states) ∧
      List.length l ≤ List.length pat.states := by
  have hUM0 : USIZE_MAX ≠ 0 := by decide
  have hla0 : List.length (List.replicate (List.length pat.states) USIZE_MAX) =
      List.length pat.states := List.length_replicate _ _
  have hrep : ∀ j, j < List.length pat.states →
      List.getD (List.replicate (List.length pat.states) USIZE_MAX) j 0 = USIZE_MAX := by
    intro j hj
    rw [List.getD_eq_getElem _ _ (by rw [hla0]; exact hj)]
    simp
  have hcore0 : SimCore pat.states 0 (List.replicate (List.length pat.states) USIZE_MAX)
      [] := by
    refine ⟨List.nodup_nil, by simp, ?_⟩
    intro j hj0 hjlt hjmk _
    rw [hla0] at hjlt
    rw [hrep j hjlt] at hjmk
    exact absurd hjmk hUM0
  have hT : EnterSpec pat.states 0 (List.replicate (List.length pat.states) USIZE_MAX)
      [] pat.start
      (enterT pat.states 0 (List.replicate (List.length pat.states) USIZE_MAX) []
        pat.start).1
      (enterT pat.states 0 (List.replicate (List.length pat.states) USIZE_MAX) []
        pat.start).2 :=
    enterT_spec _ _ _ hla0 hcore0
  obtain ⟨hlen1, hm1, _, _, _, hc1, _, _⟩ := hT
  have hshow : activeLists pat w = activeListsLoop pat.states w 0
      (enterT pat.states 0 (List.replicate (List.length pat.states) USIZE_MAX) []
        pat.start).1
      (enterT pat.states 0 (List.replicate (List.length pat.states) USIZE_MAX) []
        pat.start).2 := rfl
  rw [hshow]
  refine activeListsLoop_bounded w 0 _ _ (by rw [hlen1]; exact hla0) ?_
    (by simpa using hwlen) hc1.1 ?_
  · intro j hj
    rcases hm1 j with h | ⟨_, hjlt, h, _⟩
    · rw [h]
      rw [hlen1, hla0] at hj
      rw [hrep j hj]
      exact Or.inl rfl
    · exact Or.inr (by omega)
  · intro t ht
    have := (hc1.2.1 t ht).2.1
    omega

/-- C9 witness: the bound holds concretely for the pattern `a` on input `ab`. -/
theorem active_lists_bounded_witness :
    List.length (bytes "ab") < USIZE_MAX ∧
      ∀ l ∈ activeLists ⟨[split_state 0 0, match_state, range_state 97 97 1], 2⟩
        (bytes "ab"), List.Nodup l ∧
        (∀ t ∈ l, t < List.length
          ([split_state 0 0, match_state, range_state 97 97 1] : List State)) ∧
        List.length l ≤ List.length
          ([split_state 0 0, match_state, range_state 97 97 1] : List State) :=
  ⟨by decide, active_lists_bounded _ _ (by decide)⟩

/-- C10: every labelled state of a compiled arena has printable label bounds
(`0x20 ≤ min` and `max ≤ 0x7E`), and consequently the matcher rejects every
input containing a byte outside the printable interval (negated classes
included; inputs are byte strings shorter than `SIZE_MAX`). -/
theorem printable_ranges_reject {p : List Nat} {e : Nat} {pat : RerexPattern}
    (h : rerex_compile p = .ok e pat) :
    (∀ j, j < List.length pat.states → (getSt pat.states j).min < RMATCH →
      cmin ≤ (getSt pat.states j).min ∧ (getSt pat.states j).max ≤ cmax) ∧
    (∀ w : List Nat, ValidStr w → List.length w < USIZE_MAX →
      (∃ c ∈ w, ¬(cmin ≤ c ∧ c ≤ cmax)) → rerex_match pat w = false) := by
  obtain ⟨r, i', en, hp, hwf, hgood, h0, hlen⟩ := compiled_good h
  constructor
  · intro j hj hjm
    by_cases hj0 : j = 0
    · rw [hj0, h0] at hjm
      simp [RMATCH, RSPLIT] at hjm
    · exact hgood.2.2.2 j (by omega) hj hjm
  · rintro w hval hwlen ⟨c, hc, hnc⟩
    by_contra hm
    rw [Bool.not_eq_false] at hm
    rw [compiled_match_iff h hp hval hwlen] at hm
    exact hnc (Lang_printable hwf hm c hc)

/-- C10 witness: for the compiled pattern `[^a]` the bounds hold and the
tab-containing input `\t` is rejected. -/
theorem printable_ranges_reject_witness :
    rerex_compile (bytes "a") =
      .ok 1 ⟨[split_state 0 0, match_state, range_state 97 97 1], 2⟩ ∧
    rerex_match ⟨[split_state 0 0, match_state, range_state 97 97 1], 2⟩ [9] = false ∧
    (∀ j, j < List.length
        ([split_state 0 0, match_state, range_state 97 97 1] : List State) →
      (getSt [split_state 0 0, match_state, range_state 97 97 1] j).min < RMATCH →
      cmin ≤ (getSt [split_state 0 0, match_state, range_state 97 97 1] j).min ∧
        (getSt [split_state 0 0, match_state, range_state 97 97 1] j).max ≤ cmax) := by
  have hc : rerex_compile (bytes "a") =
      .ok 1 ⟨[split_state 0 0, match_state, range_state 97 97 1], 2⟩ := by decide
  have hspec := printable_ranges_reject hc
  exact ⟨hc, hspec.2 [9] (fun c hcm => by
    rw [List.mem_singleton] at hcm
    omega) (by decide) ⟨9, by decide, by decide⟩, hspec.1⟩

/-- C2 (amended): after a successful compile, all matching states reachable
from the start state coincide — the accepting end of the whole pattern is the
unique reachable `Match` state (dead placeholders may remain unreachable in
the arena). -/
theorem reachable_match_unique {p : List Nat} {e : Nat} {pat : RerexPattern}
    (h : rerex_compile p = .ok e pat) :
    ∀ t1 t2 w1 w2 n1 n2, Steps pat.states pat.start w1 t1 n1 →
      (getSt pat.states t1).min = RMATCH →
      Steps pat.states pat.start w2 t2 n2 →
      (getSt pat.states t2).min = RMATCH → t1 = t2 := by
  obtain ⟨r, i', en, hp, hwf, hgood, h0, hlen⟩ := compiled_good h
  intro t1 t2 w1 w2 n1 n2 h1 hm1 h2 hm2
  rw [(GoodFrag_stop_eq hgood h0 w1 t1 n1 h1 hm1).1,
    (GoodFrag_stop_eq hgood h0 w2 t2 n2 h2 hm2).1]

/-- C2 witness: for the compiled pattern `ab`, the two match landings of the
path for `ab` coincide. -/
theorem reachable_match_unique_witness :
    rerex_compile (bytes "ab") = .ok 2
      ⟨[split_state 0 0, match_state, range_state 97 97 4, match_state,
        range_state 98 98 3], 2⟩ ∧
    (3 : Nat) = 3 := by
  have hc : rerex_compile (bytes "ab") = .ok 2
      ⟨[split_state 0 0, match_state, range_state 97 97 4, match_state,
        range_state 98 98 3], 2⟩ := by decide
  have hpath : Steps [split_state 0 0, match_state, range_state 97 97 4, match_state,
      range_state 98 98 3] 2 [97, 98] 3 2 :=
    Steps.char (by decide) (by decide) (by decide) (by decide) (by decide)
      (Steps.char (by decide) (by decide) (by decide) (by decide) (by decide)
        (Steps.refl 3))
  exact ⟨hc, reachable_match_unique hc 3 3 [97, 98] [97, 98] 2 2 hpath (by decide)
    hpath (by decide)⟩

/-! ### Negated classes: rendering and semantics (claim C1) -/

/-- A range whose endpoints are plain printable bytes (no `\\`, no `]`), so
that a three-byte `lo-hi` rendering is read back verbatim by the parser. -/
abbrev PlainRange (r : Nat × Nat) : Prop :=
  cmin ≤ r.1 ∧ r.1 ≤ r.2 ∧ r.2 ≤ cmax ∧ r.1 ≠ 92 ∧ r.1 ≠ 93 ∧ r.2 ≠ 92 ∧ r.2 ≠ 93

/-- The three-byte renderings of a list of ranges. -/
def rangesBytes : List (Nat × Nat) → List Nat
  | [] => []
  | r :: rest => r.1 :: 45 :: r.2 :: rangesBytes rest

/-- The pattern `[^…]` listing the given ranges. -/
def negClassPattern (rs : List (Nat × Nat)) : List Nat :=
  91 :: 94 :: rangesBytes rs ++ [93]

theorem getD_drop (l : List Nat) (n i d : Nat) :
    List.getD l (n + i) d = List.getD (List.drop n l) i d := by
  simp [List.getD, List.getElem?_drop]

theorem read_element_render {p : List Nat} {off b : Nat}
    (h0 : List.getD p off 0 = b) (h1 : cmin ≤ b) (h2 : b ≤ cmax)
    (h3 : b ≠ 92) (h4 : b ≠ 93) :
    read_element ⟨p, off⟩ = .ok b ⟨p, off + 1⟩ := by
  have hcmin : cmin = 32 := rfl
  have hcmax : cmax = 126 := rfl
  unfold read_element
  simp only [peek, eat]
  rw [h0]
  rw [if_neg (by omega), if_neg h4, if_neg h3, if_pos ⟨h1, h2⟩]

theorem parse_range_render {p : List Nat} {off lo hi : Nat} (neg : Bool)
    (h0 : List.getD p off 0 = lo) (h1 : List.getD p (off + 1) 0 = 45)
    (h2 : List.getD p (off + 2) 0 = hi) (hpl : PlainRange (lo, hi)) :
    parse_range ⟨p, off⟩ neg =
      .ok (if neg then RE.nrng lo hi else RE.rng lo hi) ⟨p, off + 3⟩ := by
  obtain ⟨hp1, hp2, hp3, hp4, hp5, hp6, hp7⟩ := hpl
  have hcmin : cmin = 32 := rfl
  have hcmax : cmax = 126 := rfl
  have hre1 : read_element ⟨p, off⟩ = .ok lo ⟨p, off + 1⟩ :=
    read_element_render h0 hp1 (by omega) hp4 hp5
  have hre2 : read_element ⟨p, off + 2⟩ = .ok hi ⟨p, off + 3⟩ := by
    have h := read_element_render h2 (by omega) hp3 hp6 hp7
    rwa [show off + 2 + 1 = off + 3 from by omega] at h
  unfold parse_range
  rw [hre1]
  simp only [peek, peekahead, eat]
  rw [h1, if_pos rfl]
  rw [show off + 1 + 1 = off + 2 from by omega, h2, if_pos hp7]
  rw [show (⟨p, off + 1 + 1⟩ : Input) = ⟨p, off + 2⟩ from by
    simp only [show off + 1 + 1 = off + 2 from by omega]]
  rw [hre2]
  simp only
  rw [if_neg (by omega)]

theorem parse_setList_render : ∀ (bs : List (Nat × Nat)) (fuel : Nat) (p : List Nat)
    (off : Nat), List.length bs + 1 ≤ fuel →
    List.drop off p = rangesBytes bs ++ [93] →
    (∀ r ∈ bs, PlainRange r) →
    parse_setList fuel ⟨p, off⟩ true =
      .ok (List.map (fun r => RE.nrng r.1 r.2) bs) ⟨p, off + 3 * List.length bs⟩ := by
  intro bs
  induction bs with
  | nil =>
    intro fuel p off hfuel hdrop hpl
    obtain ⟨f, rfl⟩ : ∃ f, fuel = f + 1 := ⟨fuel - 1, by omega⟩
    rw [parse_setList]
    have hpk : peek ⟨p, off⟩ = 93 := by
      show List.getD p off 0 = 93
      have h := getD_drop p off 0 0
      rw [hdrop] at h
      simpa using h
    rw [hpk, if_pos rfl]
    simp [rangesBytes]
  | cons b bs' ih =>
    intro fuel p off hfuel hdrop hpl
    obtain ⟨f, rfl⟩ : ∃ f, fuel = f + 1 := ⟨fuel - 1, by omega⟩
    have hpl0 := hpl b (List.mem_cons_self b bs')
    have h0 : List.getD p off 0 = b.1 := by
      have h := getD_drop p off 0 0
      rw [hdrop] at h
      simpa [rangesBytes] using h
    have h1 : List.getD p (off + 1) 0 = 45 := by
      have h := getD_drop p off 1 0
      rw [hdrop] at h
      simpa [rangesBytes] using h
    have h2 : List.getD p (off + 2) 0 = b.2 := by
      have h := getD_drop p off 2 0
      rw [hdrop] at h
      simpa [rangesBytes] using h
    have hdrop' : List.drop (off + 3) p = rangesBytes bs' ++ [93] := by
      have h := List.drop_drop 3 off p
      rw [hdrop] at h
      simp only [rangesBytes, List.cons_append, List.drop_succ_cons,
        List.drop_zero] at h
      exact h.symm
    rw [parse_setList]
    have hpk : peek ⟨p, off⟩ = b.1 := h0
    have hne93 : ¬ (peek ⟨p, off⟩ = 93) := by
      rw [hpk]
      exact hpl0.2.2.2.2.1
    rw [if_neg hne93]
    rw [parse_range_render true h0 h1 h2 hpl0]
    simp only
    rw [ih f p (off + 3) (by simp only [List.length_cons] at hfuel; omega) hdrop'
      (fun r hr => hpl r (List.mem_cons_of_mem b hr))]
    simp only [List.map_cons, List.length_cons]
    have : off + 3 + 3 * List.length bs' = off + 3 * (List.length bs' + 1) := by ring
    rw [this]
    simp

theorem rangesBytes_length : ∀ rs : List (Nat × Nat),
    List.length (rangesBytes rs) = 3 * List.length rs := by
  intro rs
  induction rs with
  | nil => rfl
  | cons r rest ih =>
    simp only [rangesBytes, List.length_cons, ih]
    ring

/-- The rendered negated class parses to exactly the alternated per-range
negated AST, consuming the whole pattern. -/
theorem parse_negclass {b0 : Nat × Nat} {bs : List (Nat × Nat)}
    (hpl : ∀ r ∈ b0 :: bs, PlainRange r) :
    parse (negClassPattern (b0 :: bs)) =
      .ok (negClassRE b0 bs)
        ⟨negClassPattern (b0 :: bs), List.length (negClassPattern (b0 :: bs))⟩ := by
  have hpl0 := hpl b0 (List.mem_cons_self b0 bs)
  have hlenp : List.length (negClassPattern (b0 :: bs)) = 3 * List.length bs + 6 := by
    simp only [negClassPattern, List.length_cons, List.length_append,
      rangesBytes_length, List.length_cons, List.length_singleton, List.length_nil]
    ring
  have hdrop2 : List.drop 2 (negClassPattern (b0 :: bs)) =
      rangesBytes (b0 :: bs) ++ [93] := rfl
  have h0 : List.getD (negClassPattern (b0 :: bs)) 2 0 = b0.1 := by
    have h := getD_drop (negClassPattern (b0 :: bs)) 2 0 0
    rw [hdrop2] at h
    simpa [rangesBytes] using h
  have h1 : List.getD (negClassPattern (b0 :: bs)) 3 0 = 45 := by
    have h := getD_drop (negClassPattern (b0 :: bs)) 2 1 0
    rw [hdrop2] at h
    simpa [rangesBytes] using h
  have h2 : List.getD (negClassPattern (b0 :: bs)) 4 0 = b0.2 := by
    have h := getD_drop (negClassPattern (b0 :: bs)) 2 2 0
    rw [hdrop2] at h
    simpa [rangesBytes] using h
  have hdrop5 : List.drop 5 (negClassPattern (b0 :: bs)) =
      rangesBytes bs ++ [93] := by
    simp [negClassPattern, rangesBytes]
  have hrange : parse_range ⟨negClassPattern (b0 :: bs), 2⟩ true =
      .ok (RE.nrng b0.1 b0.2) ⟨negClassPattern (b0 :: bs), 5⟩ := by
    have h := parse_range_render true h0 (by simpa using h1) (by simpa using h2) hpl0
    simpa using h
  have hsetF : ∀ F, List.length bs + 1 ≤ F →
      parse_set F ⟨negClassPattern (b0 :: bs), 1⟩ =
        .ok (negClassRE b0 bs)
          ⟨negClassPattern (b0 :: bs), 3 * List.length bs + 5⟩ := by
    intro F hF
    have hpk1 : peek ⟨negClassPattern (b0 :: bs), 1⟩ = 94 := rfl
    have hd : decide (peek ⟨negClassPattern (b0 :: bs), 1⟩ = 94) = true := by
      rw [hpk1]
      decide
    have hif : (if peek ⟨negClassPattern (b0 :: bs), 1⟩ = 94
        then eat ⟨negClassPattern (b0 :: bs), 1⟩
        else ⟨negClassPattern (b0 :: bs), 1⟩) = ⟨negClassPattern (b0 :: bs), 2⟩ := by
      rw [if_pos hpk1]
      rfl
    unfold parse_set
    simp only [hd, hif]
    rw [hrange]
    simp only
    rw [parse_setList_render bs F _ 5 hF hdrop5
      (fun r hr => hpl r (List.mem_cons_of_mem b0 hr))]
    simp only [List.foldl_map]
    rw [show 5 + 3 * List.length bs = 3 * List.length bs + 5 from by ring]
    rfl
  have hatomF : ∀ F, List.length bs + 2 ≤ F →
      parse_atom F ⟨negClassPattern (b0 :: bs), 0⟩ =
        .ok (negClassRE b0 bs)
          ⟨negClassPattern (b0 :: bs), 3 * List.length bs + 6⟩ := by
    intro F hF
    obtain ⟨f, rfl⟩ : ∃ f, F = f + 1 := ⟨F - 1, by omega⟩
    rw [parse_atom]
    have hpk0 : peek ⟨negClassPattern (b0 :: bs), 0⟩ = 91 := rfl
    simp only [hpk0, eat]
    norm_num
    rw [hsetF f (by omega)]
  have hpkE : peek ⟨negClassPattern (b0 :: bs), 3 * List.length bs + 6⟩ = 0 := by
    show List.getD (negClassPattern (b0 :: bs)) (3 * List.length bs + 6) 0 = 0
    rw [List.getD_eq_default]
    omega
  have hfactorF : ∀ F, List.length bs + 3 ≤ F →
      parse_factor F ⟨negClassPattern (b0 :: bs), 0⟩ =
        .ok (negClassRE b0 bs)
          ⟨negClassPattern (b0 :: bs), 3 * List.length bs + 6⟩ := by
    intro F hF
    obtain ⟨f, rfl⟩ : ∃ f, F = f + 1 := ⟨F - 1, by omega⟩
    rw [parse_factor, hatomF f (by omega)]
    simp only [hpkE]
    rw [if_neg (by omega), if_neg (by omega), if_neg (by omega)]
  have htermF : ∀ F, List.length bs + 4 ≤ F →
      parse_term F ⟨negClassPattern (b0 :: bs), 0⟩ =
        .ok (negClassRE b0 bs)
          ⟨negClassPattern (b0 :: bs), 3 * List.length bs + 6⟩ := by
    intro F hF
    obtain ⟨f, rfl⟩ : ∃ f, F = f + 1 := ⟨F - 1, by omega⟩
    rw [parse_term, hfactorF f (by omega)]
    simp only [hpkE]
    rw [if_pos (by simp)]
  have hexprF : ∀ F, List.length bs + 5 ≤ F →
      parse_expr F ⟨negClassPattern (b0 :: bs), 0⟩ =
        .ok (negClassRE b0 bs)
          ⟨negClassPattern (b0 :: bs), 3 * List.length bs + 6⟩ := by
    intro F hF
    obtain ⟨f, rfl⟩ : ∃ f, F = f + 1 := ⟨F - 1, by omega⟩
    rw [parse_expr, htermF f (by omega)]
    simp only [hpkE]
    rw [if_neg (by omega)]
  unfold parse
  rw [hexprF (compileFuel (negClassPattern (b0 :: bs)))
    (by simp only [compileFuel, hlenp]; omega)]
  rw [hlenp]

theorem Lang_alt_iff {a b : RE} {w : List Nat} :
    Lang (RE.alt a b) w ↔ Lang a w ∨ Lang b w := by
  constructor
  · intro h
    cases h with
    | altL h1 => exact Or.inl h1
    | altR h1 => exact Or.inr h1
  · rintro (h | h)
    · exact Lang.altL h
    · exact Lang.altR h

theorem Lang_foldl_alt : ∀ (rs : List RE) (r0 : RE) (w : List Nat),
    Lang (List.foldl RE.alt r0 rs) w ↔ Lang r0 w ∨ ∃ r ∈ rs, Lang r w := by
  intro rs
  induction rs with
  | nil =>
    intro r0 w
    simp
  | cons r rest ih =>
    intro r0 w
    rw [List.foldl_cons, ih, Lang_alt_iff]
    constructor
    · rintro ((h | h) | ⟨r', hr', h⟩)
      · exact Or.inl h
      · exact Or.inr ⟨r, by simp, h⟩
      · exact Or.inr ⟨r', by simp [hr'], h⟩
    · rintro (h | ⟨r', hr', h⟩)
      · exact Or.inl (Or.inl h)
      · rcases List.mem_cons.mp hr' with he | hm
        · subst he
          exact Or.inl (Or.inr h)
        · exact Or.inr ⟨r', hm, h⟩

theorem Lang_nrng_iff {lo hi c : Nat} :
    Lang (RE.nrng lo hi) [c] ↔ (cmin ≤ c ∧ c ≤ lo - 1) ∨ (hi + 1 ≤ c ∧ c ≤ cmax) := by
  constructor
  · intro h
    cases h with
    | nrngLow h1 h2 => exact Or.inl ⟨h1, h2⟩
    | nrngHigh h1 h2 => exact Or.inr ⟨h1, h2⟩
  · rintro (⟨h1, h2⟩ | ⟨h1, h2⟩)
    · exact Lang.nrngLow h1 h2
    · exact Lang.nrngHigh h1 h2

/-- C1 (corrected): a negated class `[^…]` with one or more plain ranges
compiles, and on a printable one-byte input `c` it matches iff `c` lies
outside SOME of the ranges — the alternation of per-range complements, i.e.
the complement of the intersection, not of the union.  (For a multi-range
class this differs from "belongs to none of the ranges": see the recorded
counterexample `[^az]` matching `a`.) -/
theorem negclass_semantics {b0 : Nat × Nat} {bs : List (Nat × Nat)}
    (hpl : ∀ r ∈ b0 :: bs, PlainRange r) :
    ∃ pat, rerex_compile (negClassPattern (b0 :: bs)) =
        .ok (List.length (negClassPattern (b0 :: bs))) pat ∧
      ∀ c, cmin ≤ c → c ≤ cmax →
        (rerex_match pat [c] = true ↔ ∃ r ∈ b0 :: bs, c < r.1 ∨ r.2 < c) := by
  have hcmin : cmin = 32 := rfl
  have hcmax : cmax = 126 := rfl
  have hp := parse_negclass hpl
  have habs := compile_abs (negClassPattern (b0 :: bs))
  rw [hp] at habs
  refine ⟨_, habs, ?_⟩
  intro c hc1 hc2
  have hval : ValidStr [c] := by
    intro b hb
    rw [List.mem_singleton] at hb
    omega
  rw [compiled_match_iff habs hp hval (by norm_num [USIZE_MAX])]
  unfold negClassRE
  rw [show (List.foldl (fun a p => RE.alt a (RE.nrng p.1 p.2))
      (RE.nrng b0.1 b0.2) bs) =
    List.foldl RE.alt (RE.nrng b0.1 b0.2) (List.map (fun r => RE.nrng r.1 r.2) bs)
    from by rw [List.foldl_map]]
  rw [Lang_foldl_alt]
  constructor
  · rintro (h | ⟨r', hr', h⟩)
    · rw [Lang_nrng_iff] at h
      have hplb := hpl b0 (by simp)
      refine ⟨b0, by simp, ?_⟩
      obtain ⟨hq1, hq2, _⟩ := hplb
      rcases h with ⟨h1, h2⟩ | ⟨h1, h2⟩
      · exact Or.inl (by omega)
      · exact Or.inr (by omega)
    · rw [List.mem_map] at hr'
      obtain ⟨r, hrm, he⟩ := hr'
      rw [← he] at h
      rw [Lang_nrng_iff] at h
      have hplr := hpl r (by simp [hrm])
      refine ⟨r, by simp [hrm], ?_⟩
      obtain ⟨hq1, hq2, _⟩ := hplr
      rcases h with ⟨h1, h2⟩ | ⟨h1, h2⟩
      · exact Or.inl (by omega)
      · exact Or.inr (by omega)
  · rintro ⟨r, hr, hcase⟩
    rcases List.mem_cons.mp hr with he | hm
    · subst he
      refine Or.inl (Lang_nrng_iff.mpr ?_)
      obtain ⟨hq1, hq2, _⟩ := hpl r (by simp)
      rcases hcase with h | h
      · exact Or.inl ⟨hc1, by omega⟩
      · exact Or.inr ⟨by omega, hc2⟩
    · refine Or.inr ⟨RE.nrng r.1 r.2, List.mem_map.mpr ⟨r, hm, rfl⟩,
        Lang_nrng_iff.mpr ?_⟩
      obtain ⟨hq1, hq2, _⟩ := hpl r (by simp [hm])
      rcases hcase with h | h
      · exact Or.inl ⟨hc1, by omega⟩
      · exact Or.inr ⟨by omega, hc2⟩

/-- C1 witness: the two-range class `[^az]` compiles and obeys the
some-complement semantics on every printable byte. -/
theorem negclass_semantics_witness :
    ∃ pat, rerex_compile (negClassPattern [(97, 97), (122, 122)]) =
        .ok (List.length (negClassPattern [(97, 97), (122, 122)])) pat ∧
      ∀ c, cmin ≤ c → c ≤ cmax →
        (rerex_match pat [c] = true ↔
          ∃ r ∈ [((97 : Nat), (97 : Nat)), (122, 122)], c < r.1 ∨ r.2 < c) :=
  negclass_semantics (by decide)

/-! ### Fuel irrelevance of the pure parser -/

theorem parse_setList_mono : ∀ (fuel : Nat) (i : Input) (neg : Bool),
    parse_setList fuel i neg ≠ .out →
    parse_setList (fuel + 1) i neg = parse_setList fuel i neg := by
  intro fuel
  induction fuel with
  | zero =>
    intro i neg h
    exact absurd rfl h
  | succ f ih =>
    intro i neg h
    rw [parse_setList] at h ⊢
    conv_rhs => rw [parse_setList]
    by_cases h93 : peek i = 93
    · rw [if_pos h93, if_pos h93]
    · rw [if_neg h93] at h
      rw [if_neg h93, if_neg h93]
      cases hr : parse_range i neg with
      | fail st i2 => rfl
      | out => rw [hr] at h
      | ok r0 i1 =>
        rw [hr] at h
        simp only at h ⊢
        cases hl : parse_setList f i1 neg with
        | fail st i2 => rw [ih i1 neg (by rw [hl]; simp), hl]
        | out =>
          rw [hl] at h
          exact absurd rfl h
        | ok rs i2 => rw [ih i1 neg (by rw [hl]; simp), hl]

theorem parse_set_mono (fuel : Nat) (i : Input) (h : parse_set fuel i ≠ .out) :
    parse_set (fuel + 1) i = parse_set fuel i := by
  unfold parse_set at h ⊢
  simp only at h ⊢
  cases hr : parse_range (if peek i = 94 then eat i else i) (decide (peek i = 94)) with
  | fail st i2 => rfl
  | out => rw [hr] at h
  | ok r0 i1 =>
    rw [hr] at h
    simp only at h ⊢
    cases hl : parse_setList fuel i1 (decide (peek i = 94)) with
    | fail st i2 => rw [parse_setList_mono fuel i1 _ (by rw [hl]; simp), hl]
    | out =>
      rw [hl] at h
      exact absurd rfl h
    | ok rs i2 => rw [parse_setList_mono fuel i1 _ (by rw [hl]; simp), hl]

theorem parse_mono : ∀ (fuel : Nat),
    (∀ i, parse_atom fuel i ≠ .out → parse_atom (fuel + 1) i = parse_atom fuel i) ∧
    (∀ i, parse_factor fuel i ≠ .out →
      parse_factor (fuel + 1) i = parse_factor fuel i) ∧
    (∀ i, parse_term fuel i ≠ .out → parse_term (fuel + 1) i = parse_term fuel i) ∧
    (∀ i, parse_expr fuel i ≠ .out → parse_expr (fuel + 1) i = parse_expr fuel i) := by
  intro fuel
  induction fuel with
  | zero =>
    refine ⟨?_, ?_, ?_, ?_⟩ <;> (intro i h; exact absurd rfl h)
  | succ f ih =>
    obtain ⟨ihA, ihF, ihT, ihE⟩ := ih
    have hAtom : ∀ i, parse_atom (f + 1) i ≠ .out →
        parse_atom (f + 2) i = parse_atom (f + 1) i := by
      intro i h
      rw [parse_atom] at h ⊢
      conv_rhs => rw [parse_atom]
      by_cases h40 : peek i = 40
      · simp only [h40, if_true] at h ⊢
        cases he : parse_expr f (eat i) with
        | fail st i2 => rw [ihE (eat i) (by rw [he]; simp), he]
        | out =>
          rw [he] at h
          exact absurd rfl h
        | ok r i2 => rw [ihE (eat i) (by rw [he]; simp), he]
      · simp only [h40, if_false] at h ⊢
        by_cases h46 : peek i = 46
        · simp only [h46, if_true]
        · simp only [h46, if_false] at h ⊢
          by_cases h91 : peek i = 91
          · simp only [h91, if_true] at h ⊢
            cases hs : parse_set f (eat i) with
            | fail st i2 => rw [parse_set_mono f (eat i) (by rw [hs]; simp), hs]
            | out =>
              rw [hs] at h
              exact absurd rfl h
            | ok r i2 => rw [parse_set_mono f (eat i) (by rw [hs]; simp), hs]
          · simp only [h91, if_false]
    have hFactor : ∀ i, parse_factor (f + 1) i ≠ .out →
        parse_factor (f + 2) i = parse_factor (f + 1) i := by
      intro i h
      rw [parse_factor] at h ⊢
      conv_rhs => rw [parse_factor]
      cases ha : parse_atom f i with
      | fail st i2 => rw [ihA i (by rw [ha]; simp), ha]
      | out =>
        rw [ha] at h
        exact absurd rfl h
      | ok r i1 => rw [ihA i (by rw [ha]; simp), ha]
    have hTerm : ∀ i, parse_term (f + 1) i ≠ .out →
        parse_term (f + 2) i = parse_term (f + 1) i := by
      intro i h
      rw [parse_term] at h ⊢
      conv_rhs => rw [parse_term]
      cases hf : parse_factor f i with
      | fail st i2 => rw [ihF i (by rw [hf]; simp), hf]
      | out =>
        rw [hf] at h
        exact absurd rfl h
      | ok r i1 =>
        rw [hf] at h
        rw [ihF i (by rw [hf]; simp), hf]
        simp only at h ⊢
        by_cases hstop : peek i1 = 0 ∨ peek i1 = 41 ∨ peek i1 = 124
        · rw [if_pos hstop, if_pos hstop]
        · rw [if_neg hstop] at h
          rw [if_neg hstop, if_neg hstop]
          cases ht : parse_term f i1 with
          | fail st i2 => rw [ihT i1 (by rw [ht]; simp), ht]
          | out =>
            rw [ht] at h
            exact absurd rfl h
          | ok r2 i2 => rw [ihT i1 (by rw [ht]; simp), ht]
    have hExpr : ∀ i, parse_expr (f + 1) i ≠ .out →
        parse_expr (f + 2) i = parse_expr (f + 1) i := by
      intro i h
      rw [parse_expr] at h ⊢
      conv_rhs => rw [parse_expr]
      cases ht : parse_term f i with
      | fail st i2 => rw [ihT i (by rw [ht]; simp), ht]
      | out =>
        rw [ht] at h
        exact absurd rfl h
      | ok r i1 =>
        rw [ht] at h
        rw [ihT i (by rw [ht]; simp), ht]
        simp only at h ⊢
        by_cases h124 : peek i1 = 124
        · simp only [h124, if_true] at h ⊢
          cases he : parse_expr f (eat i1) with
          | fail st i2 => rw [ihE (eat i1) (by rw [he]; simp), he]
          | out =>
            rw [he] at h
            exact absurd rfl h
          | ok r2 i2 => rw [ihE (eat i1) (by rw [he]; simp), he]
        · simp only [h124, if_false]
    exact ⟨hAtom, hFactor, hTerm, hExpr⟩

/-- Any sufficient fuel computes the same successful expression parse. -/
theorem parse_expr_fuel_le {f1 f2 : Nat} (hle : f1 ≤ f2) (i : Input)
    (h : parse_expr f1 i ≠ .out) : parse_expr f2 i = parse_expr f1 i := by
  induction f2, hle using Nat.le_induction with
  | base => rfl
  | succ n hn ih =>
    rw [← ih] at h
    rw [(parse_mono n).2.2.2 i h, ih]

/-- Any sufficient fuel computes the same successful term parse. -/
theorem parse_term_fuel_le {f1 f2 : Nat} (hle : f1 ≤ f2) (i : Input)
    (h : parse_term f1 i ≠ .out) : parse_term f2 i = parse_term f1 i := by
  induction f2, hle using Nat.le_induction with
  | base => rfl
  | succ n hn ih =>
    rw [← ih] at h
    rw [(parse_mono n).2.2.1 i h, ih]

/-! ### Shift invariance: parsing a suffix is position independent -/

theorem peek_shift (Q B : List Nat) (off : Nat) :
    peek ⟨Q ++ B, List.length Q + off⟩ = peek ⟨B, off⟩ := by
  simp [peek, List.getD, List.getElem?_append_right]

theorem peekahead_shift (Q B : List Nat) (off : Nat) :
    peekahead ⟨Q ++ B, List.length Q + off⟩ = peekahead ⟨B, off⟩ := by
  show List.getD (Q ++ B) (List.length Q + off + 1) 0 = List.getD B (off + 1) 0
  rw [Nat.add_assoc]
  simp [List.getD, List.getElem?_append_right]

theorem Input_eta {i : Input} {B : List Nat} (h : i.str = B) : i = ⟨B, i.offset⟩ := by
  cases i with
  | mk s o =>
    have h2 : s = B := h
    rw [h2]

theorem read_escape_shift {Q B : List Nat} {off : Nat} {c j : Nat}
    (h : read_escape ⟨B, off⟩ = .ok c ⟨B, j⟩) :
    read_escape ⟨Q ++ B, List.length Q + off⟩ = .ok c ⟨Q ++ B, List.length Q + j⟩ := by
  unfold read_escape at h ⊢
  simp only [eat] at h ⊢
  simp only [Nat.add_assoc]
  rw [peek_shift]
  by_cases hc : (is_special (peek ⟨B, off + 1⟩) || decide (peek ⟨B, off + 1⟩ = 45)) = true
  · rw [if_pos hc] at h
    rw [if_pos hc]
    cases h
    norm_num
  · rw [if_neg hc] at h
    cases h

theorem read_char_shift {Q B : List Nat} {off : Nat} {c j : Nat}
    (h : read_char ⟨B, off⟩ = .ok c ⟨B, j⟩) :
    read_char ⟨Q ++ B, List.length Q + off⟩ = .ok c ⟨Q ++ B, List.length Q + j⟩ := by
  unfold read_char at h ⊢
  simp only [peek_shift]
  by_cases h0 : peek ⟨B, off⟩ = 0
  · rw [if_pos h0] at h
    cases h
  · rw [if_neg h0] at h ⊢
    by_cases h92 : peek ⟨B, off⟩ = 92
    · rw [if_pos h92] at h ⊢
      exact read_escape_shift h
    · rw [if_neg h92] at h ⊢
      by_cases hsp : is_special (peek ⟨B, off⟩) = true
      · rw [if_pos hsp] at h
        cases h
      · rw [if_neg hsp] at h ⊢
        by_cases hpr : cmin ≤ peek ⟨B, off⟩ ∧ peek ⟨B, off⟩ ≤ cmax
        · rw [if_pos hpr] at h
          rw [if_pos hpr]
          cases h
          simp only [eat]
          rw [Nat.add_assoc]
        · rw [if_neg hpr] at h
          cases h

theorem read_element_shift {Q B : List Nat} {off : Nat} {c j : Nat}
    (h : read_element ⟨B, off⟩ = .ok c ⟨B, j⟩) :
    read_element ⟨Q ++ B, List.length Q + off⟩ =
      .ok c ⟨Q ++ B, List.length Q + j⟩ := by
  unfold read_element at h ⊢
  simp only [peek_shift, eat] at h ⊢
  by_cases h0 : peek ⟨B, off⟩ = 0
  · rw [if_pos h0] at h
    cases h
  · rw [if_neg h0] at h ⊢
    by_cases h93 : peek ⟨B, off⟩ = 93
    · rw [if_pos h93] at h
      cases h
    · rw [if_neg h93] at h ⊢
      by_cases h92 : peek ⟨B, off⟩ = 92
      · rw [if_pos h92] at h ⊢
        rw [show List.length Q + off + 1 = List.length Q + (off + 1) from by omega,
          peek_shift]
        by_cases hb : peek ⟨B, off + 1⟩ ≠ 93
        · rw [if_pos hb] at h
          cases h
        · rw [if_neg hb] at h ⊢
          cases h
          rw [show List.length Q + (off + 1) + 1 = List.length Q + (off + 1 + 1)
            from by omega]
      · rw [if_neg h92] at h ⊢
        by_cases hpr : cmin ≤ peek ⟨B, off⟩ ∧ peek ⟨B, off⟩ ≤ cmax
        · rw [if_pos hpr] at h
          rw [if_pos hpr]
          cases h
          rw [Nat.add_assoc]
        · rw [if_neg hpr] at h
          cases h

theorem parse_range_shift {Q B : List Nat} {off : Nat} {neg : Bool} {r : RE}
    {j : Nat} (h : parse_range ⟨B, off⟩ neg = .ok r ⟨B, j⟩) :
    parse_range ⟨Q ++ B, List.length Q + off⟩ neg =
      .ok r ⟨Q ++ B, List.length Q + j⟩ := by
  unfold parse_range at h ⊢
  cases he : read_element ⟨B, off⟩ with
  | fail st i2 =>
    rw [he] at h
    cases h
  | ok mn i1 =>
    have hsh := read_element_shape ⟨B, off⟩
    rw [he] at hsh
    obtain ⟨hstr, _, _⟩ := hsh
    have he' : read_element ⟨B, off⟩ = .ok mn ⟨B, i1.offset⟩ := by
      rw [he, ← Input_eta (show i1.str = B from hstr)]
    rw [read_element_shift he']
    rw [he'] at h
    simp only [peek_shift, peekahead_shift, eat] at h ⊢
    by_cases h45 : peek ⟨B, i1.offset⟩ = 45
    · rw [if_pos h45] at h ⊢
      by_cases hpa : peekahead ⟨B, i1.offset⟩ ≠ 93
      · rw [if_pos hpa] at h ⊢
        cases he2 : read_element ⟨B, i1.offset + 1⟩ with
        | fail st i2 =>
          rw [he2] at h
          cases h
        | ok mx i2 =>
          have hsh2 := read_element_shape ⟨B, i1.offset + 1⟩
          rw [he2] at hsh2
          obtain ⟨hstr2, _, _⟩ := hsh2
          have he2' : read_element ⟨B, i1.offset + 1⟩ = .ok mx ⟨B, i2.offset⟩ := by
            rw [he2, ← Input_eta (show i2.str = B from hstr2)]
          rw [show List.length Q + i1.offset + 1 = List.length Q + (i1.offset + 1)
            from by omega]
          rw [read_element_shift he2']
          rw [he2'] at h
          simp only at h ⊢
          by_cases hord : mx < mn
          · rw [if_pos hord] at h
            cases h
          · rw [if_neg hord] at h ⊢
            cases h
            rfl
      · rw [if_neg hpa] at h ⊢
        simp only at h ⊢
        by_cases hord : mn < mn
        · omega
        · rw [if_neg hord] at h ⊢
          cases h
          rfl
    · rw [if_neg h45] at h ⊢
      simp only at h ⊢
      by_cases hord : mn < mn
      · omega
      · rw [if_neg hord] at h ⊢
        cases h
        rfl

theorem parse_setList_shift {Q B : List Nat} : ∀ {fuel : Nat} {off : Nat} {neg : Bool}
    {rs : List RE} {j : Nat},
    parse_setList fuel ⟨B, off⟩ neg = .ok rs ⟨B, j⟩ →
    parse_setList fuel ⟨Q ++ B, List.length Q + off⟩ neg =
      .ok rs ⟨Q ++ B, List.length Q + j⟩ := by
  intro fuel
  induction fuel with
  | zero =>
    intro off neg rs j h
    cases h
  | succ f ih =>
    intro off neg rs j h
    rw [parse_setList] at h ⊢
    rw [peek_shift]
    by_cases h93 : peek ⟨B, off⟩ = 93
    · rw [if_pos h93] at h ⊢
      cases h
      rfl
    · rw [if_neg h93] at h ⊢
      cases hr : parse_range ⟨B, off⟩ neg with
      | fail st i2 =>
        rw [hr] at h
        cases h
      | out =>
        rw [hr] at h
        cases h
      | ok r0 i1 =>
        have hsh := parse_range_shape ⟨B, off⟩ neg
        rw [hr] at hsh
        obtain ⟨hstr, _, _⟩ := hsh
        have hr' : parse_range ⟨B, off⟩ neg = .ok r0 ⟨B, i1.offset⟩ := by
          rw [hr, ← Input_eta (show i1.str = B from hstr)]
        rw [parse_range_shift hr']
        rw [hr'] at h
        simp only at h ⊢
        cases hl : parse_setList f ⟨B, i1.offset⟩ neg with
        | fail st i2 =>
          rw [hl] at h
          cases h
        | out =>
          rw [hl] at h
          cases h
        | ok rs2 i2 =>
          have hsh2 := parse_setList_shape f ⟨B, i1.offset⟩ neg
          rw [hl] at hsh2
          obtain ⟨hstr2, _, _⟩ := hsh2
          have hl' : parse_setList f ⟨B, i1.offset⟩ neg = .ok rs2 ⟨B, i2.offset⟩ := by
            rw [hl, ← Input_eta (show i2.str = B from hstr2)]
          rw [ih hl']
          rw [hl'] at h
          cases h
          rfl

theorem parse_set_shift {Q B : List Nat} {fuel : Nat} {off : Nat} {r : RE} {j : Nat}
    (h : parse_set fuel ⟨B, off⟩ = .ok r ⟨B, j⟩) :
    parse_set fuel ⟨Q ++ B, List.length Q + off⟩ = .ok r ⟨Q ++ B, List.length Q + j⟩ := by
  unfold parse_set at h ⊢
  simp only [peek_shift, eat] at h ⊢
  have hsplit : (if peek ⟨B, off⟩ = 94
      then (⟨Q ++ B, List.length Q + off + 1⟩ : Input)
      else ⟨Q ++ B, List.length Q + off⟩) =
      ⟨Q ++ B, List.length Q + (if peek ⟨B, off⟩ = 94 then off + 1 else off)⟩ := by
    by_cases h94 : peek ⟨B, off⟩ = 94
    · rw [if_pos h94, if_pos h94]
      simp only [Nat.add_assoc]
    · rw [if_neg h94, if_neg h94]
  rw [hsplit]
  cases hr : parse_range (if peek ⟨B, off⟩ = 94 then (⟨B, off + 1⟩ : Input) else ⟨B, off⟩)
      (decide (peek ⟨B, off⟩ = 94)) with
  | fail st i2 =>
    rw [hr] at h
    cases h
  | out =>
    rw [hr] at h
    cases h
  | ok r0 i1 =>
    have hin : (if peek ⟨B, off⟩ = 94 then (⟨B, off + 1⟩ : Input) else ⟨B, off⟩) =
        ⟨B, if peek ⟨B, off⟩ = 94 then off + 1 else off⟩ := by
      by_cases h94 : peek ⟨B, off⟩ = 94
      · rw [if_pos h94, if_pos h94]
      · rw [if_neg h94, if_neg h94]
    rw [hin] at hr
    have hsh := parse_range_shape ⟨B, if peek ⟨B, off⟩ = 94 then off + 1 else off⟩
      (decide (peek ⟨B, off⟩ = 94))
    rw [hr] at hsh
    obtain ⟨hstr, _, _⟩ := hsh
    have hr' : parse_range ⟨B, if peek ⟨B, off⟩ = 94 then off + 1 else off⟩
        (decide (peek ⟨B, off⟩ = 94)) = .ok r0 ⟨B, i1.offset⟩ := by
      rw [hr, ← Input_eta (show i1.str = B from hstr)]
    rw [parse_range_shift hr']
    rw [hin, hr'] at h
    simp only at h ⊢
    cases hl : parse_setList fuel ⟨B, i1.offset⟩ (decide (peek ⟨B, off⟩ = 94)) with
    | fail st i2 =>
      rw [hl] at h
      cases h
    | out =>
      rw [hl] at h
      cases h
    | ok rs i2 =>
      have hsh2 := parse_setList_shape fuel ⟨B, i1.offset⟩ (decide (peek ⟨B, off⟩ = 94))
      rw [hl] at hsh2
      obtain ⟨hstr2, _, _⟩ := hsh2
      have hl' : parse_setList fuel ⟨B, i1.offset⟩ (decide (peek ⟨B, off⟩ = 94)) =
          .ok rs ⟨B, i2.offset⟩ := by
        rw [hl, ← Input_eta (show i2.str = B from hstr2)]
      rw [parse_setList_shift hl']
      rw [hl'] at h
      cases h
      rfl

/-- Shift invariance of the mutual parser: a successful run on `B` replays at
the same relative position inside `Q ++ B`. -/
theorem parse_shift {Q B : List Nat} : ∀ (fuel : Nat),
    (∀ off r j, parse_atom fuel ⟨B, off⟩ = .ok r ⟨B, j⟩ →
      parse_atom fuel ⟨Q ++ B, List.length Q + off⟩ =
        .ok r ⟨Q ++ B, List.length Q + j⟩) ∧
    (∀ off r j, parse_factor fuel ⟨B, off⟩ = .ok r ⟨B, j⟩ →
      parse_factor fuel ⟨Q ++ B, List.length Q + off⟩ =
        .ok r ⟨Q ++ B, List.length Q + j⟩) ∧
    (∀ off r j, parse_term fuel ⟨B, off⟩ = .ok r ⟨B, j⟩ →
      parse_term fuel ⟨Q ++ B, List.length Q + off⟩ =
        .ok r ⟨Q ++ B, List.length Q + j⟩) ∧
    (∀ off r j, parse_expr fuel ⟨B, off⟩ = .ok r ⟨B, j⟩ →
      parse_expr fuel ⟨Q ++ B, List.length Q + off⟩ =
        .ok r ⟨Q ++ B, List.length Q + j⟩) := by
  intro fuel
  induction fuel with
  | zero =>
    refine ⟨?_, ?_, ?_, ?_⟩ <;> (intro off r j h; cases h)
  | succ f ih =>
    obtain ⟨ihA, ihF, ihT, ihE⟩ := ih
    have hAtom : ∀ off r j, parse_atom (f + 1) ⟨B, off⟩ = .ok r ⟨B, j⟩ →
        parse_atom (f + 1) ⟨Q ++ B, List.length Q + off⟩ =
          .ok r ⟨Q ++ B, List.length Q + j⟩ := by
      intro off r j h
      rw [parse_atom] at h ⊢
      simp only [peek_shift, eat] at h ⊢
      by_cases h40 : peek ⟨B, off⟩ = 40
      · simp only [h40, if_true] at h ⊢
        cases he : parse_expr f ⟨B, off + 1⟩ with
        | fail st i2 =>
          rw [he] at h
          cases h
        | out =>
          rw [he] at h
          cases h
        | ok r2 i2 =>
          have hsh := (parse_shape f).2.2.2 ⟨B, off + 1⟩
          rw [he] at hsh
          obtain ⟨hstr, _, _⟩ := hsh
          have he' : parse_expr f ⟨B, off + 1⟩ = .ok r2 ⟨B, i2.offset⟩ := by
            rw [he, ← Input_eta (show i2.str = B from hstr)]
          rw [show List.length Q + off + 1 = List.length Q + (off + 1) from by omega]
          rw [ihE (off + 1) r2 i2.offset he']
          rw [he'] at h
          simp only [peek_shift, eat] at h ⊢
          by_cases h41 : peek ⟨B, i2.offset⟩ ≠ 41
          · rw [if_pos h41] at h
            cases h
          · rw [if_neg h41] at h ⊢
            cases h
            simp only [Nat.add_assoc]
      · simp only [h40, if_false] at h ⊢
        by_cases h46 : peek ⟨B, off⟩ = 46
        · simp only [h46, if_true] at h ⊢
          cases h
          simp only [Nat.add_assoc]
        · simp only [h46, if_false] at h ⊢
          by_cases h91 : peek ⟨B, off⟩ = 91
          · simp only [h91, if_true] at h ⊢
            cases hs : parse_set f ⟨B, off + 1⟩ with
            | fail st i2 =>
              rw [hs] at h
              cases h
            | out =>
              rw [hs] at h
              cases h
            | ok r2 i2 =>
              have hsh := parse_set_shape f ⟨B, off + 1⟩
              rw [hs] at hsh
              obtain ⟨hstr, _, _⟩ := hsh
              have hs' : parse_set f ⟨B, off + 1⟩ = .ok r2 ⟨B, i2.offset⟩ := by
                rw [hs, ← Input_eta (show i2.str = B from hstr)]
              rw [show List.length Q + off + 1 = List.length Q + (off + 1) from by omega]
              rw [parse_set_shift hs']
              rw [hs'] at h
              cases h
              simp only [Nat.add_assoc]
          · simp only [h91, if_false] at h ⊢
            cases hc : read_char ⟨B, off⟩ with
            | fail st i2 =>
              rw [hc] at h
              cases h
            | ok ch i1 =>
              have hsh := read_char_shape ⟨B, off⟩
              rw [hc] at hsh
              obtain ⟨hstr, _, _⟩ := hsh
              have hc' : read_char ⟨B, off⟩ = .ok ch ⟨B, i1.offset⟩ := by
                rw [hc, ← Input_eta (show i1.str = B from hstr)]
              rw [read_char_shift hc']
              rw [hc'] at h
              cases h
              rfl
    have hFactor : ∀ off r j, parse_factor (f + 1) ⟨B, off⟩ = .ok r ⟨B, j⟩ →
        parse_factor (f + 1) ⟨Q ++ B, List.length Q + off⟩ =
          .ok r ⟨Q ++ B, List.length Q + j⟩ := by
      intro off r j h
      rw [parse_factor] at h ⊢
      cases ha : parse_atom f ⟨B, off⟩ with
      | fail st i2 =>
        rw [ha] at h
        cases h
      | out =>
        rw [ha] at h
        cases h
      | ok r1 i1 =>
        have hsh := (parse_shape f).1 ⟨B, off⟩
        rw [ha] at hsh
        obtain ⟨hstr, _, _⟩ := hsh
        have ha' : parse_atom f ⟨B, off⟩ = .ok r1 ⟨B, i1.offset⟩ := by
          rw [ha, ← Input_eta (show i1.str = B from hstr)]
        rw [ihA off r1 i1.offset ha']
        rw [ha'] at h
        simp only [peek_shift, eat] at h ⊢
        by_cases h42 : peek ⟨B, i1.offset⟩ = 42
        · simp only [h42, if_true] at h ⊢
          cases h
          simp only [Nat.add_assoc]
        · simp only [h42, if_false] at h ⊢
          by_cases h43 : peek ⟨B, i1.offset⟩ = 43
          · simp only [h43, if_true] at h ⊢
            cases h
            simp only [Nat.add_assoc]
          · simp only [h43, if_false] at h ⊢
            by_cases h63 : peek ⟨B, i1.offset⟩ = 63
            · simp only [h63, if_true] at h ⊢
              cases h
              simp only [Nat.add_assoc]
            · simp only [h63, if_false] at h ⊢
              cases h
              rfl
    have hTerm : ∀ off r j, parse_term (f + 1) ⟨B, off⟩ = .ok r ⟨B, j⟩ →
        parse_term (f + 1) ⟨Q ++ B, List.length Q + off⟩ =
          .ok r ⟨Q ++ B, List.length Q + j⟩ := by
      intro off r j h
      rw [parse_term] at h ⊢
      cases hf2 : parse_factor f ⟨B, off⟩ with
      | fail st i2 =>
        rw [hf2] at h
        cases h
      | out =>
        rw [hf2] at h
        cases h
      | ok r1 i1 =>
        have hsh := (parse_shape f).2.1 ⟨B, off⟩
        rw [hf2] at hsh
        obtain ⟨hstr, _, _⟩ := hsh
        have hf2' : parse_factor f ⟨B, off⟩ = .ok r1 ⟨B, i1.offset⟩ := by
          rw [hf2, ← Input_eta (show i1.str = B from hstr)]
        rw [ihF off r1 i1.offset hf2']
        rw [hf2'] at h
        simp only [peek_shift] at h ⊢
        by_cases hstop : peek ⟨B, i1.offset⟩ = 0 ∨ peek ⟨B, i1.offset⟩ = 41 ∨
            peek ⟨B, i1.offset⟩ = 124
        · rw [if_pos hstop] at h ⊢
          cases h
          rfl
        · rw [if_neg hstop] at h ⊢
          cases ht : parse_term f ⟨B, i1.offset⟩ with
          | fail st i2 =>
            rw [ht] at h
            cases h
          | out =>
            rw [ht] at h
            cases h
          | ok r2 i2 =>
            have hsh2 := (parse_shape f).2.2.1 ⟨B, i1.offset⟩
            rw [ht] at hsh2
            obtain ⟨hstr2, _, _⟩ := hsh2
            have ht' : parse_term f ⟨B, i1.offset⟩ = .ok r2 ⟨B, i2.offset⟩ := by
              rw [ht, ← Input_eta (show i2.str = B from hstr2)]
            rw [ihT i1.offset r2 i2.offset ht']
            rw [ht'] at h
            cases h
            rfl
    have hExpr : ∀ off r j, parse_expr (f + 1) ⟨B, off⟩ = .ok r ⟨B, j⟩ →
        parse_expr (f + 1) ⟨Q ++ B, List.length Q + off⟩ =
          .ok r ⟨Q ++ B, List.length Q + j⟩ := by
      intro off r j h
      rw [parse_expr] at h ⊢
      cases ht : parse_term f ⟨B, off⟩ with
      | fail st i2 =>
        rw [ht] at h
        cases h
      | out =>
        rw [ht] at h
        cases h
      | ok r1 i1 =>
        have hsh := (parse_shape f).2.2.1 ⟨B, off⟩
        rw [ht] at hsh
        obtain ⟨hstr, _, _⟩ := hsh
        have ht' : parse_term f ⟨B, off⟩ = .ok r1 ⟨B, i1.offset⟩ := by
          rw [ht, ← Input_eta (show i1.str = B from hstr)]
        rw [ihT off r1 i1.offset ht']
        rw [ht'] at h
        simp only [peek_shift, eat] at h ⊢
        by_cases h124 : peek ⟨B, i1.offset⟩ = 124
        · simp only [h124, if_true] at h ⊢
          cases he : parse_expr f ⟨B, i1.offset + 1⟩ with
          | fail st i2 =>
            rw [he] at h
            cases h
          | out =>
            rw [he] at h
            cases h
          | ok r2 i2 =>
            have hsh2 := (parse_shape f).2.2.2 ⟨B, i1.offset + 1⟩
            rw [he] at hsh2
            obtain ⟨hstr2, _, _⟩ := hsh2
            have he' : parse_expr f ⟨B, i1.offset + 1⟩ = .ok r2 ⟨B, i2.offset⟩ := by
              rw [he, ← Input_eta (show i2.str = B from hstr2)]
            rw [show List.length Q + i1.offset + 1 = List.length Q + (i1.offset + 1)
              from by omega]
            rw [ihE (i1.offset + 1) r2 i2.offset he']
            rw [he'] at h
            cases h
            rfl
        · simp only [h124, if_false] at h ⊢
          cases h
          rfl
    exact ⟨hAtom, hFactor, hTerm, hExpr⟩

/-! ### Replay on an extended string: a full parse of `A` replays inside
`A ++ s` as long as the junction byte cannot change the boundary decisions -/

theorem peek_ext_lt {A s : List Nat} {k : Nat} (h : k < List.length A) :
    peek ⟨A ++ s, k⟩ = peek ⟨A, k⟩ := by
  show List.getD (A ++ s) k 0 = List.getD A k 0
  exact List.getD_append A s 0 k h

theorem peek_ext_nz {A s : List Nat} {k : Nat} (h : peek ⟨A, k⟩ ≠ 0) :
    peek ⟨A ++ s, k⟩ = peek ⟨A, k⟩ :=
  peek_ext_lt (peek_ne_zero h)

theorem read_escape_replay {A s : List Nat} {off c j : Nat}
    (h : read_escape ⟨A, off⟩ = .ok c ⟨A, j⟩) :
    read_escape ⟨A ++ s, off⟩ = .ok c ⟨A ++ s, j⟩ := by
  unfold read_escape at h ⊢
  simp only [eat] at h ⊢
  by_cases hc : (is_special (peek ⟨A, off + 1⟩) ||
      decide (peek ⟨A, off + 1⟩ = 45)) = true
  · rw [if_pos hc] at h
    cases h
    have hnz : peek ⟨A, off + 1⟩ ≠ 0 := by
      intro hz
      rw [hz] at hc
      simp [is_special] at hc
    simp only [peek_ext_nz hnz]
    rw [if_pos hc]
  · rw [if_neg hc] at h
    cases h

theorem read_char_replay {A s : List Nat} {off c j : Nat}
    (h : read_char ⟨A, off⟩ = .ok c ⟨A, j⟩) :
    read_char ⟨A ++ s, off⟩ = .ok c ⟨A ++ s, j⟩ := by
  unfold read_char at h ⊢
  by_cases h0 : peek ⟨A, off⟩ = 0
  · rw [if_pos h0] at h
    cases h
  · rw [if_neg h0] at h
    rw [peek_ext_nz h0, if_neg h0]
    by_cases h92 : peek ⟨A, off⟩ = 92
    · rw [if_pos h92] at h
      rw [if_pos h92]
      exact read_escape_replay h
    · rw [if_neg h92] at h
      rw [if_neg h92]
      by_cases hsp : is_special (peek ⟨A, off⟩) = true
      · rw [if_pos hsp] at h
        cases h
      · rw [if_neg hsp] at h
        rw [if_neg hsp]
        by_cases hpr : cmin ≤ peek ⟨A, off⟩ ∧ peek ⟨A, off⟩ ≤ cmax
        · rw [if_pos hpr] at h
          rw [if_pos hpr]
          cases h
          rfl
        · rw [if_neg hpr] at h
          cases h

theorem read_element_replay {A s : List Nat} {off c j : Nat}
    (h : read_element ⟨A, off⟩ = .ok c ⟨A, j⟩) :
    read_element ⟨A ++ s, off⟩ = .ok c ⟨A ++ s, j⟩ := by
  unfold read_element at h ⊢
  by_cases h0 : peek ⟨A, off⟩ = 0
  · rw [if_pos h0] at h
    cases h
  · rw [if_neg h0] at h
    rw [peek_ext_nz h0, if_neg h0]
    by_cases h93 : peek ⟨A, off⟩ = 93
    · rw [if_pos h93] at h
      cases h
    · rw [if_neg h93] at h
      rw [if_neg h93]
      by_cases h92 : peek ⟨A, off⟩ = 92
      · rw [if_pos h92] at h
        rw [if_pos h92]
        simp only [eat] at h ⊢
        by_cases hb : peek ⟨A, off + 1⟩ ≠ 93
        · rw [if_pos hb] at h
          cases h
        · rw [if_neg hb] at h
          cases h
          simp only [ne_eq, not_not] at hb
          have hnz : peek ⟨A, off + 1⟩ ≠ 0 := by
            rw [hb]
            omega
          rw [peek_ext_nz hnz]
          rw [if_neg (by rw [hb]; simp)]
      · rw [if_neg h92] at h
        rw [if_neg h92]
        by_cases hpr : cmin ≤ peek ⟨A, off⟩ ∧ peek ⟨A, off⟩ ≤ cmax
        · rw [if_pos hpr] at h
          rw [if_pos hpr]
          cases h
          rfl
        · rw [if_neg hpr] at h
          cases h

theorem parse_range_replay {A s : List Nat} {off : Nat} {neg : Bool} {r : RE}
    {j : Nat} (h : parse_range ⟨A, off⟩ neg = .ok r ⟨A, j⟩)
    (hj : j < List.length A) :
    parse_range ⟨A ++ s, off⟩ neg = .ok r ⟨A ++ s, j⟩ := by
  unfold parse_range at h ⊢
  cases he : read_element ⟨A, off⟩ with
  | fail st i2 =>
    rw [he] at h
    cases h
  | ok mn i1 =>
    have hsh := read_element_shape ⟨A, off⟩
    rw [he] at hsh
    obtain ⟨hstr, _, _⟩ := hsh
    have he' : read_element ⟨A, off⟩ = .ok mn ⟨A, i1.offset⟩ := by
      rw [he, ← Input_eta (show i1.str = A from hstr)]
    rw [read_element_replay he']
    rw [he'] at h
    simp only [peek, peekahead, eat] at h ⊢
    by_cases h45 : List.getD A i1.offset 0 = 45
    · have hi1lt : i1.offset < List.length A := by
        by_contra hc
        rw [List.getD_eq_default _ _ (by omega)] at h45
        omega
      rw [List.getD_append A s 0 i1.offset hi1lt, if_pos h45]
      rw [if_pos h45] at h
      by_cases hpa : List.getD A (i1.offset + 1) 0 ≠ 93
      · rw [if_pos hpa] at h
        cases he2 : read_element ⟨A, i1.offset + 1⟩ with
        | fail st i2 =>
          rw [he2] at h
          cases h
        | ok mx i2 =>
          have hsh2 := read_element_shape ⟨A, i1.offset + 1⟩
          rw [he2] at hsh2
          obtain ⟨hstr2, hlt2, hle2⟩ := hsh2
          have he2' : read_element ⟨A, i1.offset + 1⟩ = .ok mx ⟨A, i2.offset⟩ := by
            rw [he2, ← Input_eta (show i2.str = A from hstr2)]
          rw [he2'] at h
          simp only at h
          by_cases hord : mx < mn
          · rw [if_pos hord] at h
            cases h
          · rw [if_neg hord] at h
            cases h
            have hpa' : List.getD (A ++ s) (i1.offset + 1) 0 ≠ 93 := by
              have hlt : i1.offset + 1 < List.length A := by
                have hx : i1.offset + 1 < i2.offset := hlt2
                have hy : i2.offset ≤ List.length A := hle2
                omega
              rw [List.getD_append A s 0 _ hlt]
              exact hpa
            rw [if_pos hpa']
            rw [read_element_replay he2']
            simp only
            rw [if_neg hord]
      · rw [if_neg hpa] at h
        simp only at h
        by_cases hord : mn < mn
        · omega
        · rw [if_neg hord] at h
          cases h
          have hpa' : ¬ List.getD (A ++ s) (i1.offset + 1) 0 ≠ 93 := by
            simp only [ne_eq, not_not] at hpa ⊢
            have hlt : i1.offset + 1 < List.length A := by
              by_contra hc
              rw [List.getD_eq_default _ _ (by omega)] at hpa
              omega
            rw [List.getD_append A s 0 _ hlt]
            exact hpa
          rw [if_neg hpa']
          simp only
          rw [if_neg hord]
    · have h45' : ¬ List.getD (A ++ s) i1.offset 0 = 45 := by
        by_cases hi1lt : i1.offset < List.length A
        · rw [List.getD_append A s 0 _ hi1lt]
          exact h45
        · rw [if_neg h45] at h
          simp only at h
          by_cases hord : mn < mn
          · omega
          · rw [if_neg hord] at h
            cases h
            omega
      rw [if_neg h45] at h
      rw [if_neg h45']
      simp only at h ⊢
      by_cases hord : mn < mn
      · omega
      · rw [if_neg hord] at h
        cases h
        rw [if_neg hord]

theorem peek_ext_end {A s : List Nat} :
    peek ⟨A ++ s, List.length A⟩ = List.getD s 0 0 := by
  show List.getD (A ++ s) (List.length A) 0 = List.getD s 0 0
  induction A with
  | nil => rfl
  | cons a t ih => simpa using ih

theorem parse_setList_replay {A s : List Nat} : ∀ {fuel off : Nat} {neg : Bool}
    {rs : List RE} {j : Nat},
    parse_setList fuel ⟨A, off⟩ neg = .ok rs ⟨A, j⟩ →
    parse_setList fuel ⟨A ++ s, off⟩ neg = .ok rs ⟨A ++ s, j⟩ := by
  intro fuel
  induction fuel with
  | zero =>
    intro off neg rs j h
    rw [parse_setList] at h
    cases h
  | succ f ih =>
    intro off neg rs j h
    rw [parse_setList] at h ⊢
    by_cases h93 : peek ⟨A, off⟩ = 93
    · rw [if_pos h93] at h
      cases h
      rw [peek_ext_nz (show peek ⟨A, off⟩ ≠ 0 by rw [h93]; omega), if_pos h93]
    · rw [if_neg h93] at h
      cases hr : parse_range ⟨A, off⟩ neg with
      | fail st i1 =>
        rw [hr] at h
        cases h
      | out =>
        rw [hr] at h
        cases h
      | ok r i1 =>
        have hsh := parse_range_shape ⟨A, off⟩ neg
        rw [hr] at hsh
        obtain ⟨hstr, hlt, hle⟩ := hsh
        have hr' : parse_range ⟨A, off⟩ neg = .ok r ⟨A, i1.offset⟩ := by
          rw [hr, ← Input_eta (show i1.str = A from hstr)]
        rw [hr'] at h
        simp only at h
        cases hl : parse_setList f ⟨A, i1.offset⟩ neg with
        | fail st i2 =>
          rw [hl] at h
          cases h
        | out =>
          rw [hl] at h
          cases h
        | ok rs2 i2 =>
          have hsh2 := parse_setList_shape f ⟨A, i1.offset⟩ neg
          rw [hl] at hsh2
          obtain ⟨hstr2, hle2, hpk2⟩ := hsh2
          have hl' : parse_setList f ⟨A, i1.offset⟩ neg = .ok rs2 ⟨A, i2.offset⟩ := by
            rw [hl, ← Input_eta (show i2.str = A from hstr2)]
          rw [hl'] at h
          cases h
          have hpk2' : peek ⟨A, i2.offset⟩ = 93 := by
            rw [← Input_eta (show i2.str = A from hstr2)]
            exact hpk2
          have hjlt : i2.offset < List.length A := peek_ne_zero
            (show peek ⟨A, i2.offset⟩ ≠ 0 by rw [hpk2']; omega)
          have hle2' : i1.offset ≤ i2.offset := hle2
          have hlt' : off < i1.offset := hlt
          rw [peek_ext_lt (show off < List.length A by omega), if_neg h93]
          rw [parse_range_replay hr' (by omega)]
          simp only
          rw [ih hl']

theorem parse_set_replay {A s : List Nat} {fuel off : Nat} {r : RE} {j : Nat}
    (h : parse_set fuel ⟨A, off⟩ = .ok r ⟨A, j⟩) :
    parse_set fuel ⟨A ++ s, off⟩ = .ok r ⟨A ++ s, j⟩ := by
  unfold parse_set at h ⊢
  simp only [eat] at h ⊢
  have hin : (if peek ⟨A, off⟩ = 94 then (⟨A, off + 1⟩ : Input) else ⟨A, off⟩) =
      ⟨A, if peek ⟨A, off⟩ = 94 then off + 1 else off⟩ := by
    by_cases h94 : peek ⟨A, off⟩ = 94
    · rw [if_pos h94, if_pos h94]
    · rw [if_neg h94, if_neg h94]
  rw [hin] at h
  cases hr : parse_range ⟨A, if peek ⟨A, off⟩ = 94 then off + 1 else off⟩
      (decide (peek ⟨A, off⟩ = 94)) with
  | fail st i1 =>
    rw [hr] at h
    cases h
  | out =>
    rw [hr] at h
    cases h
  | ok r0 i1 =>
    have hsh := parse_range_shape ⟨A, if peek ⟨A, off⟩ = 94 then off + 1 else off⟩
      (decide (peek ⟨A, off⟩ = 94))
    rw [hr] at hsh
    obtain ⟨hstr, hlt, hle⟩ := hsh
    have hr' : parse_range ⟨A, if peek ⟨A, off⟩ = 94 then off + 1 else off⟩
        (decide (peek ⟨A, off⟩ = 94)) = .ok r0 ⟨A, i1.offset⟩ := by
      rw [hr, ← Input_eta (show i1.str = A from hstr)]
    rw [hr'] at h
    simp only at h
    cases hl : parse_setList fuel ⟨A, i1.offset⟩ (decide (peek ⟨A, off⟩ = 94)) with
    | fail st i2 =>
      rw [hl] at h
      cases h
    | out =>
      rw [hl] at h
      cases h
    | ok rs i2 =>
      have hsh2 := parse_setList_shape fuel ⟨A, i1.offset⟩ (decide (peek ⟨A, off⟩ = 94))
      rw [hl] at hsh2
      obtain ⟨hstr2, hle2, hpk2⟩ := hsh2
      have hl' : parse_setList fuel ⟨A, i1.offset⟩ (decide (peek ⟨A, off⟩ = 94)) =
          .ok rs ⟨A, i2.offset⟩ := by
        rw [hl, ← Input_eta (show i2.str = A from hstr2)]
      rw [hl'] at h
      cases h
      have hpk2' : peek ⟨A, i2.offset⟩ = 93 := by
        rw [← Input_eta (show i2.str = A from hstr2)]
        exact hpk2
      have hjlt : i2.offset < List.length A := peek_ne_zero
        (show peek ⟨A, i2.offset⟩ ≠ 0 by rw [hpk2']; omega)
      have hle2' : i1.offset ≤ i2.offset := hle2
      have hofflt : off < List.length A := by
        by_cases h94 : peek ⟨A, off⟩ = 94
        · exact peek_ne_zero (show peek ⟨A, off⟩ ≠ 0 by rw [h94]; omega)
        · have hlt' : (if peek ⟨A, off⟩ = 94 then off + 1 else off) < i1.offset := hlt
          rw [if_neg h94] at hlt'
          omega
      rw [peek_ext_lt hofflt]
      have hsplit : (if peek ⟨A, off⟩ = 94
          then (⟨A ++ s, off + 1⟩ : Input)
          else ⟨A ++ s, off⟩) =
          ⟨A ++ s, if peek ⟨A, off⟩ = 94 then off + 1 else off⟩ := by
        by_cases h94 : peek ⟨A, off⟩ = 94
        · rw [if_pos h94, if_pos h94]
        · rw [if_neg h94, if_neg h94]
      rw [hsplit]
      rw [parse_range_replay hr' (by omega)]
      simp only
      rw [parse_setList_replay hl']

/-- Replay on an extended string for the mutual parser: a successful parse of a
prefix `A` replays inside `A ++ s`, provided the junction byte at the start of
`s` cannot change a boundary decision (never a postfix operator; for `term` at
the very end, a stop byte; `expr` is only replayed strictly inside `A`). -/
theorem parse_replay {A s : List Nat}
    (hops : List.getD s 0 0 ≠ 42 ∧ List.getD s 0 0 ≠ 43 ∧ List.getD s 0 0 ≠ 63) :
    ∀ (fuel : Nat),
    (∀ off r j, parse_atom fuel ⟨A, off⟩ = .ok r ⟨A, j⟩ →
      parse_atom fuel ⟨A ++ s, off⟩ = .ok r ⟨A ++ s, j⟩) ∧
    (∀ off r j, parse_factor fuel ⟨A, off⟩ = .ok r ⟨A, j⟩ →
      parse_factor fuel ⟨A ++ s, off⟩ = .ok r ⟨A ++ s, j⟩) ∧
    (∀ off r j, (j < List.length A ∨ List.getD s 0 0 = 0 ∨ List.getD s 0 0 = 41 ∨
        List.getD s 0 0 = 124) →
      parse_term fuel ⟨A, off⟩ = .ok r ⟨A, j⟩ →
      parse_term fuel ⟨A ++ s, off⟩ = .ok r ⟨A ++ s, j⟩) ∧
    (∀ off r j, j < List.length A →
      parse_expr fuel ⟨A, off⟩ = .ok r ⟨A, j⟩ →
      parse_expr fuel ⟨A ++ s, off⟩ = .ok r ⟨A ++ s, j⟩) := by
  intro fuel
  induction fuel with
  | zero =>
    refine ⟨?_, ?_, ?_, ?_⟩
    · intro off r j h; cases h
    · intro off r j h; cases h
    · intro off r j _ h; cases h
    · intro off r j _ h; cases h
  | succ f ih =>
    obtain ⟨ihA, ihF, ihT, ihE⟩ := ih
    have hAtom : ∀ off r j, parse_atom (f + 1) ⟨A, off⟩ = .ok r ⟨A, j⟩ →
        parse_atom (f + 1) ⟨A ++ s, off⟩ = .ok r ⟨A ++ s, j⟩ := by
      intro off r j h
      rw [parse_atom] at h ⊢
      simp only [eat] at h ⊢
      by_cases h40 : peek ⟨A, off⟩ = 40
      · simp only [h40, if_true] at h
        cases he : parse_expr f ⟨A, off + 1⟩ with
        | fail st i2 =>
          rw [he] at h
          cases h
        | out =>
          rw [he] at h
          cases h
        | ok r2 i2 =>
          have hsh := (parse_shape f).2.2.2 ⟨A, off + 1⟩
          rw [he] at hsh
          obtain ⟨hstr, hlt2, hle2⟩ := hsh
          have hlt2' : off + 1 < i2.offset := hlt2
          have hle2' : i2.offset ≤ List.length A := hle2
          have he' : parse_expr f ⟨A, off + 1⟩ = .ok r2 ⟨A, i2.offset⟩ := by
            rw [he, ← Input_eta (show i2.str = A from hstr)]
          rw [he'] at h
          simp only at h
          by_cases h41 : peek ⟨A, i2.offset⟩ ≠ 41
          · rw [if_pos h41] at h
            cases h
          · rw [if_neg h41] at h
            cases h
            have h41' : peek ⟨A, i2.offset⟩ = 41 := not_not.mp h41
            have hi2 : i2.offset < List.length A := peek_ne_zero
              (show peek ⟨A, i2.offset⟩ ≠ 0 by rw [h41']; omega)
            have hoff : off < List.length A := by omega
            rw [peek_ext_lt hoff, if_pos h40]
            rw [ihE (off + 1) _ i2.offset hi2 he']
            simp only
            rw [peek_ext_lt hi2, if_neg h41]
      · simp only [h40, if_false] at h
        by_cases h46 : peek ⟨A, off⟩ = 46
        · simp only [h46, if_true] at h
          cases h
          have hoff : off < List.length A := peek_ne_zero
            (show peek ⟨A, off⟩ ≠ 0 by rw [h46]; omega)
          rw [peek_ext_lt hoff, if_neg h40, if_pos h46]
        · simp only [h46, if_false] at h
          by_cases h91 : peek ⟨A, off⟩ = 91
          · simp only [h91, if_true] at h
            cases hs2 : parse_set f ⟨A, off + 1⟩ with
            | fail st i2 =>
              rw [hs2] at h
              cases h
            | out =>
              rw [hs2] at h
              cases h
            | ok r2 i2 =>
              have hsh := parse_set_shape f ⟨A, off + 1⟩
              rw [hs2] at hsh
              obtain ⟨hstr, _, _⟩ := hsh
              have hs2' : parse_set f ⟨A, off + 1⟩ = .ok r2 ⟨A, i2.offset⟩ := by
                rw [hs2, ← Input_eta (show i2.str = A from hstr)]
              rw [hs2'] at h
              cases h
              have hoff : off < List.length A := peek_ne_zero
                (show peek ⟨A, off⟩ ≠ 0 by rw [h91]; omega)
              rw [peek_ext_lt hoff, if_neg h40, if_neg h46, if_pos h91]
              rw [parse_set_replay hs2']
          · simp only [h91, if_false] at h
            cases hc : read_char ⟨A, off⟩ with
            | fail st i2 =>
              rw [hc] at h
              cases h
            | ok ch i1 =>
              have hsh := read_char_shape ⟨A, off⟩
              rw [hc] at hsh
              obtain ⟨hstr, hlt1, hle1⟩ := hsh
              have hlt1' : off < i1.offset := hlt1
              have hle1' : i1.offset ≤ List.length A := hle1
              have hc' : read_char ⟨A, off⟩ = .ok ch ⟨A, i1.offset⟩ := by
                rw [hc, ← Input_eta (show i1.str = A from hstr)]
              rw [hc'] at h
              cases h
              have hoff : off < List.length A := by omega
              rw [peek_ext_lt hoff, if_neg h40, if_neg h46, if_neg h91]
              rw [read_char_replay hc']
    have hFactor : ∀ off r j, parse_factor (f + 1) ⟨A, off⟩ = .ok r ⟨A, j⟩ →
        parse_factor (f + 1) ⟨A ++ s, off⟩ = .ok r ⟨A ++ s, j⟩ := by
      intro off r j h
      rw [parse_factor] at h ⊢
      cases ha : parse_atom f ⟨A, off⟩ with
      | fail st i2 =>
        rw [ha] at h
        cases h
      | out =>
        rw [ha] at h
        cases h
      | ok r1 i1 =>
        have hsh := (parse_shape f).1 ⟨A, off⟩
        rw [ha] at hsh
        obtain ⟨hstr, hlt1, hle1⟩ := hsh
        have hle1' : i1.offset ≤ List.length A := hle1
        have ha' : parse_atom f ⟨A, off⟩ = .ok r1 ⟨A, i1.offset⟩ := by
          rw [ha, ← Input_eta (show i1.str = A from hstr)]
        rw [ihA off r1 i1.offset ha']
        rw [ha'] at h
        simp only [eat] at h ⊢
        by_cases hi1 : i1.offset < List.length A
        · rw [peek_ext_lt hi1]
          by_cases h42 : peek ⟨A, i1.offset⟩ = 42
          · simp only [h42, if_true] at h ⊢
            cases h
            rfl
          · simp only [h42, if_false] at h ⊢
            by_cases h43 : peek ⟨A, i1.offset⟩ = 43
            · simp only [h43, if_true] at h ⊢
              cases h
              rfl
            · simp only [h43, if_false] at h ⊢
              by_cases h63 : peek ⟨A, i1.offset⟩ = 63
              · simp only [h63, if_true] at h ⊢
                cases h
                rfl
              · simp only [h63, if_false] at h ⊢
                cases h
                rfl
        · have hieq : i1.offset = List.length A := by omega
          have hpk0 : peek ⟨A, i1.offset⟩ = 0 := by
            show List.getD A i1.offset 0 = 0
            exact List.getD_eq_default _ _ (by omega)
          have hpkE : peek ⟨A ++ s, i1.offset⟩ = List.getD s 0 0 := by
            rw [hieq]
            exact peek_ext_end
          rw [if_neg (show ¬ peek ⟨A, i1.offset⟩ = 42 by rw [hpk0]; omega),
            if_neg (show ¬ peek ⟨A, i1.offset⟩ = 43 by rw [hpk0]; omega),
            if_neg (show ¬ peek ⟨A, i1.offset⟩ = 63 by rw [hpk0]; omega)] at h
          cases h
          rw [hpkE, if_neg hops.1, if_neg hops.2.1, if_neg hops.2.2]
    have hTerm : ∀ off r j,
        (j < List.length A ∨ List.getD s 0 0 = 0 ∨ List.getD s 0 0 = 41 ∨
          List.getD s 0 0 = 124) →
        parse_term (f + 1) ⟨A, off⟩ = .ok r ⟨A, j⟩ →
        parse_term (f + 1) ⟨A ++ s, off⟩ = .ok r ⟨A ++ s, j⟩ := by
      intro off r j hj h
      rw [parse_term] at h ⊢
      cases hf2 : parse_factor f ⟨A, off⟩ with
      | fail st i2 =>
        rw [hf2] at h
        cases h
      | out =>
        rw [hf2] at h
        cases h
      | ok r1 i1 =>
        have hsh := (parse_shape f).2.1 ⟨A, off⟩
        rw [hf2] at hsh
        obtain ⟨hstr, hlt1, hle1⟩ := hsh
        have hle1' : i1.offset ≤ List.length A := hle1
        have hf2' : parse_factor f ⟨A, off⟩ = .ok r1 ⟨A, i1.offset⟩ := by
          rw [hf2, ← Input_eta (show i1.str = A from hstr)]
        rw [ihF off r1 i1.offset hf2']
        rw [hf2'] at h
        simp only at h ⊢
        by_cases hstop : peek ⟨A, i1.offset⟩ = 0 ∨ peek ⟨A, i1.offset⟩ = 41 ∨
            peek ⟨A, i1.offset⟩ = 124
        · rw [if_pos hstop] at h
          cases h
          by_cases hi1 : i1.offset < List.length A
          · rw [peek_ext_lt hi1, if_pos hstop]
          · have hieq : i1.offset = List.length A := by omega
            have hpkE : peek ⟨A ++ s, i1.offset⟩ = List.getD s 0 0 := by
              rw [hieq]
              exact peek_ext_end
            have hstop_s : List.getD s 0 0 = 0 ∨ List.getD s 0 0 = 41 ∨
                List.getD s 0 0 = 124 := by
              rcases hj with hj | hj
              · omega
              · exact hj
            rw [hpkE, if_pos hstop_s]
        · rw [if_neg hstop] at h
          have hi1 : i1.offset < List.length A := peek_ne_zero
            (fun h0 => hstop (Or.inl h0))
          rw [peek_ext_lt hi1, if_neg hstop]
          cases ht : parse_term f ⟨A, i1.offset⟩ with
          | fail st i2 =>
            rw [ht] at h
            cases h
          | out =>
            rw [ht] at h
            cases h
          | ok r2 i2 =>
            have hsh2 := (parse_shape f).2.2.1 ⟨A, i1.offset⟩
            rw [ht] at hsh2
            obtain ⟨hstr2, _, _⟩ := hsh2
            have ht' : parse_term f ⟨A, i1.offset⟩ = .ok r2 ⟨A, i2.offset⟩ := by
              rw [ht, ← Input_eta (show i2.str = A from hstr2)]
            rw [ht'] at h
            simp only at h
            cases h
            rw [ihT i1.offset r2 i2.offset hj ht']
    have hExpr : ∀ off r j, j < List.length A →
        parse_expr (f + 1) ⟨A, off⟩ = .ok r ⟨A, j⟩ →
        parse_expr (f + 1) ⟨A ++ s, off⟩ = .ok r ⟨A ++ s, j⟩ := by
      intro off r j hj h
      rw [parse_expr] at h ⊢
      cases ht : parse_term f ⟨A, off⟩ with
      | fail st i2 =>
        rw [ht] at h
        cases h
      | out =>
        rw [ht] at h
        cases h
      | ok r1 i1 =>
        have hsh := (parse_shape f).2.2.1 ⟨A, off⟩
        rw [ht] at hsh
        obtain ⟨hstr, hlt1, hle1⟩ := hsh
        have ht' : parse_term f ⟨A, off⟩ = .ok r1 ⟨A, i1.offset⟩ := by
          rw [ht, ← Input_eta (show i1.str = A from hstr)]
        rw [ht'] at h
        simp only [eat] at h ⊢
        by_cases h124 : peek ⟨A, i1.offset⟩ = 124
        · have hi1 : i1.offset < List.length A := peek_ne_zero
            (show peek ⟨A, i1.offset⟩ ≠ 0 by rw [h124]; omega)
          rw [ihT off r1 i1.offset (Or.inl hi1) ht']
          simp only [eat]
          rw [peek_ext_lt hi1]
          simp only [h124, if_true] at h ⊢
          cases he : parse_expr f ⟨A, i1.offset + 1⟩ with
          | fail st i2 =>
            rw [he] at h
            cases h
          | out =>
            rw [he] at h
            cases h
          | ok r2 i2 =>
            have hsh2 := (parse_shape f).2.2.2 ⟨A, i1.offset + 1⟩
            rw [he] at hsh2
            obtain ⟨hstr2, _, _⟩ := hsh2
            have he' : parse_expr f ⟨A, i1.offset + 1⟩ = .ok r2 ⟨A, i2.offset⟩ := by
              rw [he, ← Input_eta (show i2.str = A from hstr2)]
            rw [he'] at h
            simp only at h
            cases h
            rw [ihE (i1.offset + 1) r2 i2.offset hj he']
        · rw [if_neg h124] at h
          cases h
          rw [ihT off _ i1.offset (Or.inl hj) ht']
          simp only
          rw [peek_ext_lt hj, if_neg h124]
    exact ⟨hAtom, hFactor, hTerm, hExpr⟩

/-- Splicing two complete expression parses with a `|` byte: the combined
pattern parses to completion and its language is the union. -/
theorem expr_splice {A B : List Nat} {rB : RE} {fB : Nat}
    (hB : parse_expr fB ⟨B, 0⟩ = .ok rB ⟨B, List.length B⟩) :
    ∀ (f : Nat) (off : Nat) (r : RE),
    parse_expr f ⟨A, off⟩ = .ok r ⟨A, List.length A⟩ →
    ∃ R, parse_expr (f + fB) ⟨A ++ 124 :: B, off⟩ =
        .ok R ⟨A ++ 124 :: B, List.length A + 1 + List.length B⟩ ∧
      ∀ w, Lang R w ↔ (Lang r w ∨ Lang rB w) := by
  have hcons : List.getD (124 :: B) 0 0 = 124 := List.getD_cons_zero
  have hops : List.getD (124 :: B) 0 0 ≠ 42 ∧ List.getD (124 :: B) 0 0 ≠ 43 ∧
      List.getD (124 :: B) 0 0 ≠ 63 :=
    ⟨by rw [hcons]; omega, by rw [hcons]; omega, by rw [hcons]; omega⟩
  intro f
  induction f with
  | zero =>
    intro off r h
    cases h
  | succ f ihf =>
    intro off r h
    rw [parse_expr] at h
    cases ht : parse_term f ⟨A, off⟩ with
    | fail st i1 =>
      rw [ht] at h
      cases h
    | out =>
      rw [ht] at h
      cases h
    | ok r1 i1 =>
      have hsh := (parse_shape f).2.2.1 ⟨A, off⟩
      rw [ht] at hsh
      obtain ⟨hstr, hlt1, hle1⟩ := hsh
      have hle1' : i1.offset ≤ List.length A := hle1
      have ht' : parse_term f ⟨A, off⟩ = .ok r1 ⟨A, i1.offset⟩ := by
        rw [ht, ← Input_eta (show i1.str = A from hstr)]
      rw [ht'] at h
      simp only [eat] at h
      have htermE : parse_term f ⟨A ++ 124 :: B, off⟩ =
          .ok r1 ⟨A ++ 124 :: B, i1.offset⟩ :=
        (parse_replay hops f).2.2.1 off r1 i1.offset (Or.inr (by rw [hcons]; omega)) ht'
      have htermNE : parse_term f ⟨A ++ 124 :: B, off⟩ ≠ .out := by
        rw [htermE]
        intro hx
        cases hx
      have htermF : parse_term (f + fB) ⟨A ++ 124 :: B, off⟩ =
          .ok r1 ⟨A ++ 124 :: B, i1.offset⟩ := by
        rw [parse_term_fuel_le (show f ≤ f + fB by omega) _ htermNE, htermE]
      by_cases h124 : peek ⟨A, i1.offset⟩ = 124
      · rw [if_pos h124] at h
        cases he : parse_expr f ⟨A, i1.offset + 1⟩ with
        | fail st i2 =>
          rw [he] at h
          cases h
        | out =>
          rw [he] at h
          cases h
        | ok r2 i2 =>
          have hsh2 := (parse_shape f).2.2.2 ⟨A, i1.offset + 1⟩
          rw [he] at hsh2
          obtain ⟨hstr2, _, _⟩ := hsh2
          have he' : parse_expr f ⟨A, i1.offset + 1⟩ = .ok r2 ⟨A, i2.offset⟩ := by
            rw [he, ← Input_eta (show i2.str = A from hstr2)]
          rw [he'] at h
          simp only [ARes.ok.injEq, Input.mk.injEq] at h
          obtain ⟨hralt, _, hend⟩ := h
          subst hralt
          rw [hend] at he'
          obtain ⟨R, hR, hLang⟩ := ihf (i1.offset + 1) r2 he'
          have hi1 : i1.offset < List.length A := peek_ne_zero
            (show peek ⟨A, i1.offset⟩ ≠ 0 by rw [h124]; omega)
          have hcomp : parse_expr (f + 1 + fB) ⟨A ++ 124 :: B, off⟩ =
              .ok (RE.alt r1 R) ⟨A ++ 124 :: B,
                List.length A + 1 + List.length B⟩ := by
            rw [show f + 1 + fB = f + fB + 1 from by omega, parse_expr]
            rw [htermF]
            simp only [eat]
            rw [peek_ext_lt hi1, if_pos h124]
            rw [hR]
          exact ⟨RE.alt r1 R, hcomp, fun w => by
            rw [Lang_alt_iff, hLang w, Lang_alt_iff]
            tauto⟩
      · rw [if_neg h124] at h
        simp only [ARes.ok.injEq, Input.mk.injEq] at h
        obtain ⟨hr1, _, hend⟩ := h
        subst hr1
        have hBshift := @parse_shift (A ++ [124]) B fB
        have hBext := hBshift.2.2.2 0 rB (List.length B) hB
        have hassoc : (A ++ [124]) ++ B = A ++ 124 :: B := by
          rw [List.append_assoc]
          rfl
        have hlenQ : List.length (A ++ [124]) = List.length A + 1 := by
          rw [List.length_append]
          rfl
        rw [hassoc, hlenQ] at hBext
        have hBNE : parse_expr fB ⟨A ++ 124 :: B, List.length A + 1 + 0⟩ ≠ .out := by
          rw [hBext]
          intro hx
          cases hx
        have hBF : parse_expr (f + fB) ⟨A ++ 124 :: B, List.length A + 1 + 0⟩ =
            .ok rB ⟨A ++ 124 :: B, List.length A + 1 + List.length B⟩ := by
          rw [parse_expr_fuel_le (show fB ≤ f + fB by omega) _ hBNE, hBext]
        have hcomp : parse_expr (f + 1 + fB) ⟨A ++ 124 :: B, off⟩ =
            .ok (RE.alt r1 rB) ⟨A ++ 124 :: B,
              List.length A + 1 + List.length B⟩ := by
          rw [show f + 1 + fB = f + fB + 1 from by omega, parse_expr]
          rw [htermF]
          simp only [eat]
          rw [hend, peek_ext_end, hcons, if_pos rfl]
          rw [show List.length A + 1 = List.length A + 1 + 0 from by omega, hBF]
        exact ⟨RE.alt r1 rB, hcomp, fun w => Lang_alt_iff⟩

/-- C3: alternation symmetry.  For all well-formed subpatterns `A` and `B`
(patterns that compile successfully consuming all their bytes) and every
matchable input string `s`, the pattern `A|B` (the bytes of `A`, then `0x7C`,
then the bytes of `B`) compiles successfully, and matching `s` against it
returns true if and only if matching `s` against compiled `A` returns true or
matching `s` against compiled `B` returns true. -/
theorem alternation_symmetric {A B : List Nat} {patA patB : RerexPattern}
    (hA : rerex_compile A = .ok (List.length A) patA)
    (hB : rerex_compile B = .ok (List.length B) patB)
    {s : List Nat} (hval : ValidStr s) (hslen : List.length s < USIZE_MAX) :
    ∃ pat, rerex_compile (A ++ 124 :: B) =
        .ok (List.length A + 1 + List.length B) pat ∧
      (rerex_match pat s = true ↔
        (rerex_match patA s = true ∨ rerex_match patB s = true)) := by
  obtain ⟨rA, iA, hpA, hoffA, hstrA, hpatA⟩ := compile_ok_elim hA
  obtain ⟨rB, iB, hpB, hoffB, hstrB, hpatB⟩ := compile_ok_elim hB
  have hiA : iA = ⟨A, List.length A⟩ := by
    have h1 := Input_eta (show iA.str = A from hstrA)
    rw [hoffA] at h1
    exact h1
  have hiB : iB = ⟨B, List.length B⟩ := by
    have h1 := Input_eta (show iB.str = B from hstrB)
    rw [hoffB] at h1
    exact h1
  rw [hiA] at hpA
  rw [hiB] at hpB
  have hpA' : parse_expr (compileFuel A) ⟨A, 0⟩ = .ok rA ⟨A, List.length A⟩ := hpA
  have hpB' : parse_expr (compileFuel B) ⟨B, 0⟩ = .ok rB ⟨B, List.length B⟩ := hpB
  obtain ⟨R, hR, hLang⟩ := expr_splice hpB' (compileFuel A) 0 rA hpA'
  have hlenP : List.length (A ++ 124 :: B) = List.length A + 1 + List.length B := by
    rw [List.length_append, List.length_cons]
    omega
  have hfle : compileFuel (A ++ 124 :: B) ≤ compileFuel A + compileFuel B := by
    simp only [compileFuel]
    rw [hlenP]
    omega
  have hneP : parse_expr (compileFuel (A ++ 124 :: B)) ⟨A ++ 124 :: B, 0⟩ ≠ .out :=
    parse_ne_out (A ++ 124 :: B)
  have hparseP : parse (A ++ 124 :: B) =
      .ok R ⟨A ++ 124 :: B, List.length A + 1 + List.length B⟩ := by
    show parse_expr (compileFuel (A ++ 124 :: B)) ⟨A ++ 124 :: B, 0⟩ = _
    rw [← parse_expr_fuel_le hfle _ hneP]
    exact hR
  have hcompP := compile_abs (A ++ 124 :: B)
  rw [hparseP] at hcompP
  simp only at hcompP
  refine ⟨_, hcompP, ?_⟩
  rw [compiled_match_iff hcompP hparseP hval hslen]
  rw [compiled_match_iff hA hpA hval hslen]
  rw [compiled_match_iff hB hpB hval hslen]
  exact hLang s

theorem alternation_symmetric_witness :
    (rerex_compile [97] = .ok (List.length [97])
        ⟨[⟨0, 0, 57345, 0⟩, ⟨0, 0, 57344, 0⟩, ⟨1, 0, 97, 97⟩], 2⟩) ∧
    (rerex_compile [98] = .ok (List.length [98])
        ⟨[⟨0, 0, 57345, 0⟩, ⟨0, 0, 57344, 0⟩, ⟨1, 0, 98, 98⟩], 2⟩) ∧
    ValidStr [97] ∧ List.length [97] < USIZE_MAX ∧
    ∃ pat, rerex_compile ([97] ++ 124 :: [98]) =
        .ok (List.length [97] + 1 + List.length [98]) pat ∧
      (rerex_match pat [97] = true ↔
        (rerex_match ⟨[⟨0, 0, 57345, 0⟩, ⟨0, 0, 57344, 0⟩, ⟨1, 0, 97, 97⟩], 2⟩
            [97] = true ∨
         rerex_match ⟨[⟨0, 0, 57345, 0⟩, ⟨0, 0, 57344, 0⟩, ⟨1, 0, 98, 98⟩], 2⟩
            [97] = true)) :=
  ⟨by decide, by decide,
    fun c hcm => by rw [List.mem_singleton] at hcm; omega,
    by norm_num [USIZE_MAX],
    alternation_symmetric (by decide) (by decide)
      (fun c hcm => by rw [List.mem_singleton] at hcm; omega)
      (by norm_num [USIZE_MAX])⟩

/-- Any sufficient fuel computes the same successful factor parse. -/
theorem parse_factor_fuel_le {f1 f2 : Nat} (hle : f1 ≤ f2) (i : Input)
    (h : parse_factor f1 i ≠ .out) : parse_factor f2 i = parse_factor f1 i := by
  induction f2, hle using Nat.le_induction with
  | base => rfl
  | succ n hn ih =>
    rw [← ih] at h
    rw [(parse_mono n).2.1 i h, ih]

theorem Lang_cat_iff {a b : RE} {w : List Nat} :
    Lang (RE.cat a b) w ↔ ∃ u v, w = u ++ v ∧ Lang a u ∧ Lang b v := by
  constructor
  · intro h
    cases h with
    | cat h1 h2 => exact ⟨_, _, rfl, h1, h2⟩
  · rintro ⟨u, v, rfl, h1, h2⟩
    exact Lang.cat h1 h2

/-- The first byte of a successfully parsed atom is neither a terminator nor
an operator byte. -/
theorem atom_first_byte : ∀ {fuel : Nat} {p : List Nat} {off : Nat} {r : RE}
    {i' : Input}, parse_atom fuel ⟨p, off⟩ = .ok r i' →
    peek ⟨p, off⟩ ≠ 0 ∧ peek ⟨p, off⟩ ≠ 41 ∧ peek ⟨p, off⟩ ≠ 42 ∧
    peek ⟨p, off⟩ ≠ 43 ∧ peek ⟨p, off⟩ ≠ 63 ∧ peek ⟨p, off⟩ ≠ 124 := by
  intro fuel p off r i' h
  match fuel with
  | 0 => cases h
  | f + 1 =>
    rw [parse_atom] at h
    by_cases h40 : peek ⟨p, off⟩ = 40
    · rw [h40]
      exact ⟨by omega, by omega, by omega, by omega, by omega, by omega⟩
    · simp only [h40, if_false] at h
      by_cases h46 : peek ⟨p, off⟩ = 46
      · rw [h46]
        exact ⟨by omega, by omega, by omega, by omega, by omega, by omega⟩
      · simp only [h46, if_false] at h
        by_cases h91 : peek ⟨p, off⟩ = 91
        · rw [h91]
          exact ⟨by omega, by omega, by omega, by omega, by omega, by omega⟩
        · simp only [h91, if_false] at h
          cases hc : read_char ⟨p, off⟩ with
          | fail st i2 =>
            rw [hc] at h
            cases h
          | ok ch i1 =>
            unfold read_char at hc
            simp only at hc
            by_cases h0 : peek ⟨p, off⟩ = 0
            · rw [if_pos h0] at hc
              cases hc
            · rw [if_neg h0] at hc
              by_cases h92 : peek ⟨p, off⟩ = 92
              · rw [h92]
                exact ⟨by omega, by omega, by omega, by omega, by omega, by omega⟩
              · rw [if_neg h92] at hc
                by_cases hsp : is_special (peek ⟨p, off⟩) = true
                · rw [if_pos hsp] at hc
                  cases hc
                · simp only [is_special, Bool.or_eq_true, decide_eq_true_eq,
                    not_or] at hsp
                  obtain ⟨⟨⟨⟨⟨⟨⟨⟨⟨⟨⟨_, s41⟩, s42⟩, s43⟩, _⟩, s63⟩, _⟩, _⟩,
                    _⟩, _⟩, s124⟩, _⟩ := hsp
                  exact ⟨h0, s41, s42, s43, s63, s124⟩

/-- The first byte of a successfully parsed factor. -/
theorem factor_first_byte {fuel : Nat} {p : List Nat} {off : Nat} {r : RE}
    {i' : Input} (h : parse_factor fuel ⟨p, off⟩ = .ok r i') :
    peek ⟨p, off⟩ ≠ 0 ∧ peek ⟨p, off⟩ ≠ 41 ∧ peek ⟨p, off⟩ ≠ 42 ∧
    peek ⟨p, off⟩ ≠ 43 ∧ peek ⟨p, off⟩ ≠ 63 ∧ peek ⟨p, off⟩ ≠ 124 := by
  match fuel with
  | 0 => cases h
  | f + 1 =>
    rw [parse_factor] at h
    cases ha : parse_atom f ⟨p, off⟩ with
    | fail st i2 =>
      rw [ha] at h
      cases h
    | out =>
      rw [ha] at h
      cases h
    | ok r1 i1 => exact atom_first_byte ha

/-- The first byte of a successfully parsed term. -/
theorem term_first_byte {fuel : Nat} {p : List Nat} {off : Nat} {r : RE}
    {i' : Input} (h : parse_term fuel ⟨p, off⟩ = .ok r i') :
    peek ⟨p, off⟩ ≠ 0 ∧ peek ⟨p, off⟩ ≠ 41 ∧ peek ⟨p, off⟩ ≠ 42 ∧
    peek ⟨p, off⟩ ≠ 43 ∧ peek ⟨p, off⟩ ≠ 63 ∧ peek ⟨p, off⟩ ≠ 124 := by
  match fuel with
  | 0 => cases h
  | f + 1 =>
    rw [parse_term] at h
    cases hf1 : parse_factor f ⟨p, off⟩ with
    | fail st i2 =>
      rw [hf1] at h
      cases h
    | out =>
      rw [hf1] at h
      cases h
    | ok r1 i1 => exact factor_first_byte hf1

/-- Splicing two complete term parses: the concatenated pattern parses to
completion as one term whose language is the concatenation of languages. -/
theorem term_splice {A B : List Nat} {rB : RE} {fB : Nat}
    (hB : parse_term fB ⟨B, 0⟩ = .ok rB ⟨B, List.length B⟩) :
    ∀ (f off : Nat) (r : RE),
    parse_term f ⟨A, off⟩ = .ok r ⟨A, List.length A⟩ →
    ∃ R, parse_term (f + fB) ⟨A ++ B, off⟩ =
        .ok R ⟨A ++ B, List.length A + List.length B⟩ ∧
      ∀ w, Lang R w ↔ ∃ u v, w = u ++ v ∧ Lang r u ∧ Lang rB v := by
  have hfb := term_first_byte hB
  have hops : List.getD B 0 0 ≠ 42 ∧ List.getD B 0 0 ≠ 43 ∧ List.getD B 0 0 ≠ 63 :=
    ⟨hfb.2.2.1, hfb.2.2.2.1, hfb.2.2.2.2.1⟩
  have hBshift := @parse_shift A B fB
  have hBext := hBshift.2.2.1 0 rB (List.length B) hB
  intro f
  induction f with
  | zero =>
    intro off r h
    cases h
  | succ f ihf =>
    intro off r h
    rw [parse_term] at h
    cases hf1 : parse_factor f ⟨A, off⟩ with
    | fail st i1 =>
      rw [hf1] at h
      cases h
    | out =>
      rw [hf1] at h
      cases h
    | ok r1 i1 =>
      have hsh := (parse_shape f).2.1 ⟨A, off⟩
      rw [hf1] at hsh
      obtain ⟨hstr, hlt1, hle1⟩ := hsh
      have hf1' : parse_factor f ⟨A, off⟩ = .ok r1 ⟨A, i1.offset⟩ := by
        rw [hf1, ← Input_eta (show i1.str = A from hstr)]
      rw [hf1'] at h
      simp only at h
      have hfacE : parse_factor f ⟨A ++ B, off⟩ = .ok r1 ⟨A ++ B, i1.offset⟩ :=
        (parse_replay hops f).2.1 off r1 i1.offset hf1'
      have hfacNE : parse_factor f ⟨A ++ B, off⟩ ≠ .out := by
        rw [hfacE]
        intro hx
        cases hx
      have hfacF : parse_factor (f + fB) ⟨A ++ B, off⟩ =
          .ok r1 ⟨A ++ B, i1.offset⟩ := by
        rw [parse_factor_fuel_le (show f ≤ f + fB by omega) _ hfacNE, hfacE]
      by_cases hstop : peek ⟨A, i1.offset⟩ = 0 ∨ peek ⟨A, i1.offset⟩ = 41 ∨
          peek ⟨A, i1.offset⟩ = 124
      · rw [if_pos hstop] at h
        simp only [ARes.ok.injEq, Input.mk.injEq] at h
        obtain ⟨hr1, _, hend⟩ := h
        subst hr1
        have hBext' : parse_term fB ⟨A ++ B, List.length A⟩ =
            .ok rB ⟨A ++ B, List.length A + List.length B⟩ := hBext
        have hBNE : parse_term fB ⟨A ++ B, List.length A⟩ ≠ .out := by
          rw [hBext']
          intro hx
          cases hx
        have hBF : parse_term (f + fB) ⟨A ++ B, List.length A⟩ =
            .ok rB ⟨A ++ B, List.length A + List.length B⟩ := by
          rw [parse_term_fuel_le (show fB ≤ f + fB by omega) _ hBNE, hBext']
        have hcomp : parse_term (f + 1 + fB) ⟨A ++ B, off⟩ =
            .ok (RE.cat r1 rB) ⟨A ++ B, List.length A + List.length B⟩ := by
          rw [show f + 1 + fB = f + fB + 1 from by omega, parse_term]
          rw [hfacF]
          simp only
          rw [hend, peek_ext_end]
          rw [if_neg (show ¬ (List.getD B 0 0 = 0 ∨ List.getD B 0 0 = 41 ∨
            List.getD B 0 0 = 124) from by
              push_neg
              exact ⟨hfb.1, hfb.2.1, hfb.2.2.2.2.2⟩)]
          rw [hBF]
        exact ⟨RE.cat r1 rB, hcomp, fun w => Lang_cat_iff⟩
      · rw [if_neg hstop] at h
        cases ht2 : parse_term f ⟨A, i1.offset⟩ with
        | fail st i2 =>
          rw [ht2] at h
          cases h
        | out =>
          rw [ht2] at h
          cases h
        | ok r2 i2 =>
          have hsh2 := (parse_shape f).2.2.1 ⟨A, i1.offset⟩
          rw [ht2] at hsh2
          obtain ⟨hstr2, _, _⟩ := hsh2
          have ht2' : parse_term f ⟨A, i1.offset⟩ = .ok r2 ⟨A, i2.offset⟩ := by
            rw [ht2, ← Input_eta (show i2.str = A from hstr2)]
          rw [ht2'] at h
          simp only [ARes.ok.injEq, Input.mk.injEq] at h
          obtain ⟨hralt, _, hend⟩ := h
          subst hralt
          rw [hend] at ht2'
          obtain ⟨R2, hR2, hLang2⟩ := ihf i1.offset r2 ht2'
          have hi1 : i1.offset < List.length A := peek_ne_zero
            (fun h0 => hstop (Or.inl h0))
          have hcomp : parse_term (f + 1 + fB) ⟨A ++ B, off⟩ =
              .ok (RE.cat r1 R2) ⟨A ++ B, List.length A + List.length B⟩ := by
            rw [show f + 1 + fB = f + fB + 1 from by omega, parse_term]
            rw [hfacF]
            simp only
            rw [peek_ext_lt hi1, if_neg hstop]
            rw [hR2]
          refine ⟨RE.cat r1 R2, hcomp, fun w => ?_⟩
          rw [Lang_cat_iff]
          constructor
          · rintro ⟨u, v, rfl, h1, hv⟩
            obtain ⟨x, y, hv2, h2, h3⟩ := (hLang2 v).mp hv
            exact ⟨u ++ x, y, by rw [hv2, List.append_assoc], Lang.cat h1 h2, h3⟩
          · rintro ⟨u, v, rfl, hu, hv⟩
            obtain ⟨x, y, rfl, h1, h2⟩ := Lang_cat_iff.mp hu
            exact ⟨x, y ++ v, by rw [List.append_assoc], h1,
              (hLang2 (y ++ v)).mpr ⟨y, v, rfl, h2, hv⟩⟩

/-- A pattern that parses as one complete term also parses as a complete
expression (the expression level finds no `|` at the end of input). -/
theorem parse_of_full_term {p : List Nat} {r : RE}
    (h : parse_term (compileFuel p) ⟨p, 0⟩ = .ok r ⟨p, List.length p⟩) :
    parse p = .ok r ⟨p, List.length p⟩ := by
  have hm : parse_term (4 * List.length p + 7) ⟨p, 0⟩ ≠ .out :=
    (parse_noOut (4 * List.length p + 7)).2.2.2.1 ⟨p, 0⟩
      (by simp only [rem]; omega)
  have h1 : parse_term (compileFuel p) ⟨p, 0⟩ =
      parse_term (4 * List.length p + 7) ⟨p, 0⟩ :=
    parse_term_fuel_le (by simp only [compileFuel]; omega) _ hm
  rw [h1] at h
  show parse_expr (compileFuel p) ⟨p, 0⟩ = _
  rw [show compileFuel p = 4 * List.length p + 7 + 1 from by
    simp only [compileFuel]]
  rw [parse_expr]
  rw [h]
  simp only
  rw [if_neg (show ¬ peek ⟨p, List.length p⟩ = 124 from by
    show ¬ List.getD p (List.length p) 0 = 124
    rw [List.getD_eq_default _ _ (le_refl _)]
    omega)]

/-- Counterexample to C4 as stated: with A = `a|b` and B = `c`, both
well-formed, the input `ac` splits as `a` ++ `c` with `a|b` matching `a`
and `c` matching `c`, yet the concatenated pattern `a|bc` (alternation
binds looser than concatenation) does not match `ac`. -/
theorem concat_split_cex :
    bytes "a|bc" = bytes "a|b" ++ bytes "c" ∧
    bytes "ac" = bytes "a" ++ bytes "c" ∧
    compileAndMatch "a|b" "a" = some true ∧
    compileAndMatch "c" "c" = some true ∧
    compileAndMatch "a|bc" "ac" = some false := by
  decide

/-- C4 (corrected): concatenation splits hold for single complete terms.
For patterns `A` and `B` that each parse as one complete term (no
top-level alternation and full consumption), the concatenated pattern `AB`
compiles, and matching `s` against it succeeds if and only if some split
`s = u ++ v` has `A` matching `u` and `B` matching `v`.  (As originally
stated, with arbitrary well-formed subpatterns, the claim is refuted by
`concat_split_cex`: a top-level `|` in `A` captures `B` into its right
alternative.) -/
theorem concatenation_splits {A B : List Nat} {patA patB : RerexPattern}
    {rA rB : RE}
    (htA : parse_term (compileFuel A) ⟨A, 0⟩ = .ok rA ⟨A, List.length A⟩)
    (htB : parse_term (compileFuel B) ⟨B, 0⟩ = .ok rB ⟨B, List.length B⟩)
    (hA : rerex_compile A = .ok (List.length A) patA)
    (hB : rerex_compile B = .ok (List.length B) patB)
    {s : List Nat} (hval : ValidStr s) (hslen : List.length s < USIZE_MAX) :
    ∃ pat, rerex_compile (A ++ B) = .ok (List.length A + List.length B) pat ∧
      (rerex_match pat s = true ↔
        ∃ u v, s = u ++ v ∧ rerex_match patA u = true ∧
          rerex_match patB v = true) := by
  have hpA := parse_of_full_term htA
  have hpB := parse_of_full_term htB
  obtain ⟨R, hR, hLang⟩ := term_splice htB (compileFuel A) 0 rA htA
  have hlenP : List.length (A ++ B) = List.length A + List.length B :=
    List.length_append A B
  have hmP : parse_term (4 * (List.length A + List.length B) + 7)
      ⟨A ++ B, 0⟩ ≠ .out :=
    (parse_noOut _).2.2.2.1 ⟨A ++ B, 0⟩
      (by simp only [rem, List.length_append]; omega)
  have h2 : parse_term (compileFuel A + compileFuel B) ⟨A ++ B, 0⟩ =
      parse_term (4 * (List.length A + List.length B) + 7) ⟨A ++ B, 0⟩ :=
    parse_term_fuel_le (by simp only [compileFuel]; omega) _ hmP
  rw [h2] at hR
  have htP : parse_term (compileFuel (A ++ B)) ⟨A ++ B, 0⟩ =
      .ok R ⟨A ++ B, List.length (A ++ B)⟩ := by
    rw [hlenP]
    rw [parse_term_fuel_le (show 4 * (List.length A + List.length B) + 7 ≤
      compileFuel (A ++ B) from by simp only [compileFuel, hlenP]; omega) _ hmP]
    exact hR
  have hpP := parse_of_full_term htP
  have hcompP := compile_abs (A ++ B)
  rw [hpP] at hcompP
  simp only at hcompP
  rw [hlenP] at hcompP
  refine ⟨_, hcompP, ?_⟩
  rw [compiled_match_iff hcompP hpP hval hslen]
  constructor
  · intro hL
    obtain ⟨u, v, hsplit, h1, h2⟩ := (hLang s).mp hL
    subst hsplit
    have hvu : ValidStr u := fun c hc => hval c (List.mem_append.mpr (Or.inl hc))
    have hvv : ValidStr v := fun c hc => hval c (List.mem_append.mpr (Or.inr hc))
    have hlu : List.length u < USIZE_MAX := by
      rw [List.length_append] at hslen
      omega
    have hlv : List.length v < USIZE_MAX := by
      rw [List.length_append] at hslen
      omega
    exact ⟨u, v, rfl, (compiled_match_iff hA hpA hvu hlu).mpr h1,
      (compiled_match_iff hB hpB hvv hlv).mpr h2⟩
  · rintro ⟨u, v, hsplit, hu, hv⟩
    subst hsplit
    have hvu : ValidStr u := fun c hc => hval c (List.mem_append.mpr (Or.inl hc))
    have hvv : ValidStr v := fun c hc => hval c (List.mem_append.mpr (Or.inr hc))
    have hlu : List.length u < USIZE_MAX := by
      rw [List.length_append] at hslen
      omega
    have hlv : List.length v < USIZE_MAX := by
      rw [List.length_append] at hslen
      omega
    exact (hLang _).mpr ⟨u, v, rfl, (compiled_match_iff hA hpA hvu hlu).mp hu,
      (compiled_match_iff hB hpB hvv hlv).mp hv⟩

theorem concatenation_splits_witness :
    (parse_term (compileFuel [97]) ⟨[97], 0⟩ =
      .ok (RE.rng 97 97) ⟨[97], List.length [97]⟩) ∧
    (parse_term (compileFuel [98]) ⟨[98], 0⟩ =
      .ok (RE.rng 98 98) ⟨[98], List.length [98]⟩) ∧
    (rerex_compile [97] = .ok (List.length [97])
        ⟨[⟨0, 0, 57345, 0⟩, ⟨0, 0, 57344, 0⟩, ⟨1, 0, 97, 97⟩], 2⟩) ∧
    (rerex_compile [98] = .ok (List.length [98])
        ⟨[⟨0, 0, 57345, 0⟩, ⟨0, 0, 57344, 0⟩, ⟨1, 0, 98, 98⟩], 2⟩) ∧
    ValidStr [97, 98] ∧ List.length [97, 98] < USIZE_MAX ∧
    ∃ pat, rerex_compile ([97] ++ [98]) =
        .ok (List.length [97] + List.length [98]) pat ∧
      (rerex_match pat [97, 98] = true ↔
        ∃ u v, [97, 98] = u ++ v ∧
          rerex_match ⟨[⟨0, 0, 57345, 0⟩, ⟨0, 0, 57344, 0⟩, ⟨1, 0, 97, 97⟩], 2⟩
            u = true ∧
          rerex_match ⟨[⟨0, 0, 57345, 0⟩, ⟨0, 0, 57344, 0⟩, ⟨1, 0, 98, 98⟩], 2⟩
            v = true) :=
  ⟨by decide, by decide, by decide, by decide,
    fun c hcm => by
      rcases List.mem_cons.mp hcm with h | h
      · omega
      · rw [List.mem_singleton] at h; omega,
    by norm_num [USIZE_MAX],
    @concatenation_splits [97] [98]
      ⟨[⟨0, 0, 57345, 0⟩, ⟨0, 0, 57344, 0⟩, ⟨1, 0, 97, 97⟩], 2⟩
      ⟨[⟨0, 0, 57345, 0⟩, ⟨0, 0, 57344, 0⟩, ⟨1, 0, 98, 98⟩], 2⟩
      (RE.rng 97 97) (RE.rng 98 98)
      (by decide) (by decide) (by decide) (by decide) [97, 98]
      (fun c hcm => by
        rcases List.mem_cons.mp hcm with h | h
        · omega
        · rw [List.mem_singleton] at h; omega)
      (by norm_num [USIZE_MAX])⟩

end Rerex
